import Mathlib

/-
Verification of the kiwiutils library against its specification.

Each Python function relevant to the claims is shallowly embedded as an
executable Lean definition, translated directly from the source in
`src/kiwiutils/`.  Python strings are modelled as `List Char`, Python
exceptions as an explicit error type threaded through `Except`.
-/

set_option maxHeartbeats 1000000
set_option linter.unusedVariables false

/-- Python exceptions raised by the embedded functions.
`invalidInput` models `ValueError` raised for violated preconditions,
`notImplemented` models `NotImplementedError`, `emptyCollection` models the
`IndexError` raised by `LinkedMinHeap.pop`, `typeError` models `TypeError`
(e.g. `flatten` iterating a class object whose `ABCMeta` metaclass is not
iterable, or calling a two-argument lambda with one argument), and
`nameErrorLocale` models the `NameError` raised when evaluating the unbound
name `locale` in `AliasableHierEnum.aliases_to_members`, and
`attributeError` models the `AttributeError` raised by dereferencing a
`None` node pointer (only on branches unreachable for well-formed heaps). -/
inductive PyError where
  | invalidInput
  | notImplemented
  | emptyCollection
  | typeError
  | nameErrorLocale
  | attributeError
  deriving DecidableEq

deriving instance DecidableEq for Except

/-! ### String utility: `addLineBreaks` (kiwilib.py lines 215-245) -/

/-- Python's `delim in s` substring containment test. -/
def pyContains (delim : List Char) : List Char → Bool
  | [] => delim.isEmpty
  | c :: rest => delim.isPrefixOf (c :: rest) || pyContains delim rest

/-- Python's `s.split(delim)`: split on each non-overlapping occurrence of
`delim`, left to right, without grouping consecutive occurrences.
(The Python function errors on an empty separator; the embedding is only
ever applied with a non-empty delimiter.) -/
def pySplit (delim : List Char) : List Char → List (List Char)
  | [] => [[]]
  | c :: rest =>
    if delim.length > 0 && delim.isPrefixOf (c :: rest) then
      [] :: pySplit delim (List.drop (delim.length - 1) rest)
    else
      match pySplit delim rest with
      | [] => [[c]]
      | g :: gs => (c :: g) :: gs
termination_by l => l.length
decreasing_by
  · simp only [List.length_cons, List.length_drop]
    omega
  · simp

/-- The accumulation loop of `addLineBreaks`: `out = segments[0]`, then for
each `i` over `segments[:-1]`, join `out` with `segments[i+1]` using a
newline when `i in delimIndices` and `delim` otherwise. -/
def addLineBreaksLoop (delim : List Char) (idxs : List Nat) :
    Nat → List Char → List (List Char) → List Char
  | _, out, [] => out
  | i, out, seg :: rest =>
    addLineBreaksLoop delim idxs (i + 1)
      (out ++ (if i ∈ idxs then ['\n'] else delim) ++ seg) rest

/-- `kiwilib.addLineBreaks(s, delim, maxLen, delimIndices, insert)`.
Control flow as in the source: the `delim not in s` early return comes
first, then the `maxLen` NotImplementedError stub, then the
exactly-one-of-`maxLen`/`delimIndices` xor validation, then the
`delimIndices` splicing loop.  The final `none` branch is unreachable in
the source (the xor check has already fired); it is modelled as
`invalidInput`. -/
def addLineBreaks (s delim : List Char) (maxLen : Option Nat)
    (delimIndices : Option (List Nat)) (insert : Int) :
    Except PyError (List Char) :=
  if !(pyContains delim s) then .ok s
  else if maxLen.isSome then .error .notImplemented
  else if !(maxLen.isSome ^^ delimIndices.isSome) then .error .invalidInput
  else
    match delimIndices with
    | some idxs =>
      match pySplit delim s with
      | [] => .ok []
      | s0 :: rest => .ok (addLineBreaksLoop delim idxs 0 s0 rest)
    | none => .error .invalidInput

/-- C10: for every input string in which the delimiter does not occur,
`addLineBreaks` returns the string unchanged and does not fail, for every
combination of the `maxLen`/`delimIndices` parameters (including the
invalid both-supplied and neither-supplied combinations): the
delimiter-absence check precedes all parameter validation. -/
theorem addLineBreaks_no_delim_identity (s delim : List Char)
    (maxLen : Option Nat) (delimIndices : Option (List Nat)) (ins : Int)
    (h : pyContains delim s = false) :
    addLineBreaks s delim maxLen delimIndices ins = .ok s := by
  unfold addLineBreaks
  simp [h]

theorem addLineBreaks_no_delim_identity_witness :
    pyContains ['x'] ['a', 'b'] = false ∧
      addLineBreaks ['a', 'b'] ['x'] (some 3) (some [0]) 0 = .ok ['a', 'b'] :=
  ⟨by decide, addLineBreaks_no_delim_identity _ _ _ _ _ (by decide)⟩

/-- C4 is refuted: with both `maxLen` and `delimIndices` supplied and the
delimiter present in the string, the call fails with NotImplemented (the
`maxLen` stub check precedes the exclusivity validation), not with
InvalidInput. -/
theorem addLineBreaks_both_params_counterexample :
    addLineBreaks ['a', ' ', 'b'] [' '] (some 5) (some [0]) 0 =
      .error .notImplemented ∧
    addLineBreaks ['a', ' ', 'b'] [' '] (some 5) (some [0]) 0 ≠
      .error .invalidInput := by
  decide

/-- C4 (amended): when the delimiter occurs in the string, supplying both
parameters fails with NotImplemented (the `maxLen` stub check precedes the
exclusivity validation), and supplying neither fails with InvalidInput. -/
theorem addLineBreaks_param_validation (s delim : List Char) (ins : Int)
    (h : pyContains delim s = true) :
    (∀ (n : Nat) (idxs : Option (List Nat)),
        addLineBreaks s delim (some n) idxs ins = .error .notImplemented) ∧
      addLineBreaks s delim none none ins = .error .invalidInput := by
  constructor
  · intro n idxs
    unfold addLineBreaks
    simp [h]
  · unfold addLineBreaks
    simp [h]

theorem addLineBreaks_param_validation_witness :
    pyContains [' '] ['a', ' ', 'b'] = true ∧
      addLineBreaks ['a', ' ', 'b'] [' '] (some 5) (some [0]) 0 =
        .error .notImplemented ∧
      addLineBreaks ['a', ' ', 'b'] [' '] none none 0 =
        .error .invalidInput :=
  ⟨by decide,
    (addLineBreaks_param_validation ['a', ' ', 'b'] [' '] 0 (by decide)).1 5
      (some [0]),
    (addLineBreaks_param_validation ['a', ' ', 'b'] [' '] 0 (by decide)).2⟩

/-! ### Date/time codec: duration round trip (kiwilib.py lines 621-667) -/

/-- A Python `datetime.timedelta` value: the normalized component attributes
`days`, `seconds`, `microseconds` (Python guarantees
`0 <= seconds < 86400` and `0 <= microseconds < 1000000`). -/
structure PyTimedelta where
  days : Int
  seconds : Int
  microseconds : Int
  deriving DecidableEq

/-- The Python `datetime.timedelta(days=, seconds=, microseconds=)`
constructor: sums the arguments into a total microsecond count and
renormalizes with Python's floor division and modulo, which for the
positive divisors used here coincide with Lean's `Int` `/` and `%`. -/
def timedeltaMk (d s us : Int) : PyTimedelta :=
  let total : Int := (d * 86400 + s) * 1000000 + us
  { days := total / 86400000000
    seconds := (total % 86400000000) / 1000000
    microseconds := (total % 86400000000) % 1000000 }

/-- The mapping emitted by `YamlCodecDatetimes.to_yaml_dict` for a
`datetime.timedelta`: one optional entry per registered field name. -/
structure TimedeltaYamlDict where
  daysEntry : Option Int
  secondsEntry : Option Int
  microsecondsEntry : Option Int
  deriving DecidableEq

/-- `YamlCodecDatetimes.to_yaml_dict` restricted to `datetime.timedelta`:
returns the registered tag suffix and a mapping holding each registered
field whose value is not in `(None, 0)` — i.e. each nonzero component. -/
def to_yaml_dict_timedelta (t : PyTimedelta) : String × TimedeltaYamlDict :=
  ("datetime.timedelta",
    { daysEntry := if t.days = 0 then none else some t.days
      secondsEntry := if t.seconds = 0 then none else some t.seconds
      microsecondsEntry :=
        if t.microseconds = 0 then none else some t.microseconds })

/-- `YamlCodecDatetimes.from_yaml_dict` for tag suffix
`"datetime.timedelta"`: `typ(**dct)`, i.e. the timedelta constructor
keyword-supplied with exactly the decoded fields, absent fields taking the
constructor default `0`. -/
def from_yaml_dict_timedelta (d : TimedeltaYamlDict) : PyTimedelta :=
  timedeltaMk (d.daysEntry.getD 0) (d.secondsEntry.getD 0)
    (d.microsecondsEntry.getD 0)

/-- C7: for every duration value (normalized component triple, zero-valued
components included), encoding through the date/time codec's mapping form
and decoding the result yields an equal duration, and a component is
omitted from the emitted mapping exactly when it is zero. -/
theorem timedelta_roundtrip (t : PyTimedelta)
    (hs0 : 0 ≤ t.seconds) (hs1 : t.seconds < 86400)
    (hu0 : 0 ≤ t.microseconds) (hu1 : t.microseconds < 1000000) :
    from_yaml_dict_timedelta (to_yaml_dict_timedelta t).2 = t ∧
      ((to_yaml_dict_timedelta t).2.daysEntry = none ↔ t.days = 0) ∧
      ((to_yaml_dict_timedelta t).2.secondsEntry = none ↔ t.seconds = 0) ∧
      ((to_yaml_dict_timedelta t).2.microsecondsEntry = none ↔
        t.microseconds = 0) := by
  obtain ⟨d, s, us⟩ := t
  simp only at hs0 hs1 hu0 hu1
  refine ⟨?_, ?_, ?_, ?_⟩
  · have hgetD :
        from_yaml_dict_timedelta (to_yaml_dict_timedelta ⟨d, s, us⟩).2 =
          timedeltaMk d s us := by
      unfold from_yaml_dict_timedelta to_yaml_dict_timedelta
      split <;> split <;> split <;> simp_all
    rw [hgetD]
    unfold timedeltaMk
    simp only [PyTimedelta.mk.injEq]
    refine ⟨?_, ?_, ?_⟩ <;> omega
  · unfold to_yaml_dict_timedelta
    split <;> simp_all
  · unfold to_yaml_dict_timedelta
    split <;> simp_all
  · unfold to_yaml_dict_timedelta
    split <;> simp_all

theorem timedelta_roundtrip_witness :
    (0 : Int) ≤ 10 ∧
      from_yaml_dict_timedelta
          (to_yaml_dict_timedelta ⟨3, 10, 0⟩).2 = ⟨3, 10, 0⟩ ∧
      (to_yaml_dict_timedelta (⟨3, 10, 0⟩ : PyTimedelta)).2.microsecondsEntry
        = none :=
  ⟨by decide,
    (timedelta_roundtrip ⟨3, 10, 0⟩ (by decide) (by decide) (by decide)
      (by decide)).1,
    ((timedelta_roundtrip ⟨3, 10, 0⟩ (by decide) (by decide) (by decide)
      (by decide)).2.2.2).mpr rfl⟩

/-! ### Finite-valued type enumeration engine (finite_valued.py lines 149-242) -/

/-- Values produced by `all_instances`: booleans, literal scalar values
(modelled by numeric codes), fixed-length tuples, and dataclass instances
(a class identifier together with the field values in declaration order). -/
inductive FVVal where
  | vbool (b : Bool)
  | vlit (v : Nat)
  | vtuple (elems : List FVVal)
  | vrecord (cls : Nat) (fields : List FVVal)

/-- The closed algebra of type descriptions handled by `all_instances` in
the claim's setting: `bool`, `Literal[...]` (declared argument values in
declared order), fixed-length generic tuple types, concrete dataclasses
(declared field types in declaration order), abstract dataclasses (their
direct subclasses as returned by `__subclasses__()`), and unions (member
types in declared order).  The concrete/abstract constructor split mirrors
the source's `is_abstract` branch on `__dataclass_fields__` owners. -/
inductive FVType where
  | bool
  | lit (args : List Nat)
  | tup (elems : List FVType)
  | record (cls : Nat) (fields : List FVType)
  | abstractRecord (subs : List FVType)
  | union (members : List FVType)

/-- `itertools.product(*lists)`: all combinations with the first factor
varying slowest, exactly the order the source consumes. -/
def itertoolsProduct {α : Type} : List (List α) → List (List α)
  | [] => [[]]
  | xs :: rest =>
    (xs.map fun x => (itertoolsProduct rest).map fun combo => x :: combo).flatten

/-- `finite_valued.all_instances` with `validation_funcs = None`, the
claim's setting: with `None` both `_all_instances_wrapper` and
`_apply_validation_func` pass the generated sequence through unchanged, so
the embedding is the raw generator body.  Yields `[True, False]` for bool,
the Cartesian product in field-declaration order for concrete dataclasses,
the one-level-flattened concatenation over direct subclasses for abstract
dataclasses, the positional Cartesian product for generic tuples, the
one-level-flattened concatenation over members for unions, and the declared
argument values for Literal types. -/
def all_instances : FVType → List FVVal
  | .bool => [.vbool true, .vbool false]
  | .record cls fields =>
    (itertoolsProduct (fields.attach.map fun x => all_instances x.1)).map
      (.vrecord cls)
  | .abstractRecord subs =>
    (subs.attach.map fun x => all_instances x.1).flatten
  | .tup elems =>
    (itertoolsProduct (elems.attach.map fun x => all_instances x.1)).map
      .vtuple
  | .union members =>
    (members.attach.map fun x => all_instances x.1).flatten
  | .lit args => args.map .vlit
termination_by t => sizeOf t
decreasing_by
  all_goals
    have h := List.sizeOf_lt_of_mem x.2
    simp only [FVType.record.sizeOf_spec, FVType.abstractRecord.sizeOf_spec,
      FVType.tup.sizeOf_spec, FVType.union.sizeOf_spec]
    omega

/-- The per-type instance-count formula asserted by the claim (spec side of
the comparison): product of per-field counts for dataclass and tuple types,
sum of per-alternative counts for union and abstract-dataclass types, 2 for
bool, and the number of declared arguments for Literal types. -/
def specInstanceCount : FVType → Nat
  | .bool => 2
  | .lit args => args.length
  | .tup elems => (elems.attach.map fun x => specInstanceCount x.1).prod
  | .record _ fields =>
    (fields.attach.map fun x => specInstanceCount x.1).prod
  | .abstractRecord subs =>
    (subs.attach.map fun x => specInstanceCount x.1).sum
  | .union members =>
    (members.attach.map fun x => specInstanceCount x.1).sum
termination_by t => sizeOf t
decreasing_by
  all_goals
    have h := List.sizeOf_lt_of_mem x.2
    simp only [FVType.record.sizeOf_spec, FVType.abstractRecord.sizeOf_spec,
      FVType.tup.sizeOf_spec, FVType.union.sizeOf_spec]
    omega

theorem itertoolsProduct_length {α : Type} (ls : List (List α)) :
    (itertoolsProduct ls).length = (ls.map List.length).prod := by
  induction ls with
  | nil => rfl
  | cons xs rest ih =>
    simp only [itertoolsProduct, List.length_flatten, List.map_map,
      Function.comp_def, List.length_map, List.map_cons, List.prod_cons,
      ih, List.map_const', List.sum_replicate, smul_eq_mul]

/-- C2: for every type description built from booleans, Literal types,
fixed-length generic tuple types, concrete/abstract dataclasses and unions
of such types, with no validators supplied, the number of instances
generated by `all_instances` equals the product of the per-field counts for
dataclass and tuple types, the sum of the per-alternative counts for union
and abstract-dataclass types, 2 for bool, and the number of declared
arguments for Literal types. -/
theorem all_instances_count (t : FVType) :
    (all_instances t).length = specInstanceCount t := by
  match t with
  | .bool => simp [all_instances, specInstanceCount]
  | .lit args => simp [all_instances, specInstanceCount]
  | .tup elems =>
    rw [all_instances, specInstanceCount, List.length_map,
      itertoolsProduct_length, List.map_map]
    refine congrArg List.prod (List.map_congr_left ?_)
    intro x hx
    exact all_instances_count x.1
  | .record cls fields =>
    rw [all_instances, specInstanceCount, List.length_map,
      itertoolsProduct_length, List.map_map]
    refine congrArg List.prod (List.map_congr_left ?_)
    intro x hx
    exact all_instances_count x.1
  | .abstractRecord subs =>
    rw [all_instances, specInstanceCount, List.length_flatten, List.map_map]
    refine congrArg List.sum (List.map_congr_left ?_)
    intro x hx
    exact all_instances_count x.1
  | .union members =>
    rw [all_instances, specInstanceCount, List.length_flatten, List.map_map]
    refine congrArg List.sum (List.map_congr_left ?_)
    intro x hx
    exact all_instances_count x.1
termination_by sizeOf t
decreasing_by
  all_goals
    have h := List.sizeOf_lt_of_mem x.2
    simp only [FVType.record.sizeOf_spec, FVType.abstractRecord.sizeOf_spec,
      FVType.tup.sizeOf_spec, FVType.union.sizeOf_spec]
    omega

/-! ### Enumeration counting utility (enums.py lines 115-141) -/

/-- The inner `make_count` of `enum_counts`, as the content the mutated row
list holds after the call.  For an empty row the source extends the (empty)
list in place with `[0] * len(enumCls1)`; for a non-empty row it tallies
the row into a `defaultdict`, clears the list in place, and extends it with
`[countDict[e] for e in enumCls1]`. -/
def make_count {α : Type} [DecidableEq α] (enumCls1 : List α)
    (lst : List α) : List Nat :=
  if lst.length = 0 then List.replicate enumCls1.length 0
  else enumCls1.map fun e => lst.count e

/-- The effect of `enum_counts` on the caller's row lists: `ser.apply`
invokes `make_count` on every row, so after the call each row object holds
`make_count` of its former content. -/
def enum_counts_rows_after {α : Type} [DecidableEq α] (enumList : List α)
    (rows : List (List α)) : List (List Nat) :=
  rows.map (make_count enumList)

/-- C9: `enumCounts` mutates its input: after the call every row list holds
that row's per-universe-member count vector (an empty row having been
extended in place with zeros, which is its count vector; a non-empty row
having been cleared and overwritten), so the caller's original row data is
destroyed. -/
theorem enum_counts_mutates_rows {α : Type} [DecidableEq α]
    (enumList : List α) (rows : List (List α)) :
    enum_counts_rows_after enumList rows =
      rows.map (fun row => enumList.map fun e => row.count e) := by
  unfold enum_counts_rows_after
  refine List.map_congr_left ?_
  intro row _
  unfold make_count
  split
  · have hrow : row = [] := List.length_eq_zero.mp (by assumption)
    subst hrow
    simp [List.count_nil, List.map_const']
  · rfl

/-! ### Hierarchical enumeration framework (enums.py lines 75-111,
kiwilib.py lines 84-142) -/

/-- The transitive subclass closure that `kiwilib.getAllSubclasses` is
documented to return ("a set containing all child classes in the subclass
graph of `class_`"), over an explicit direct-subclass graph `ds`
(modelling `type.__subclasses__()`).  This is the docstring-intended
result, stated from the spec's words and used only to exhibit how the
implementation diverges from it; the faithful model of the implementation
is `getAllSubclasses` below.  Python's call-stack recursion over the
finite class DAG is bounded here by `fuel`; any fuel at least the DAG
height computes the same set. -/
def subclassClosure {C : Type} [DecidableEq C] (ds : C → List C) :
    Nat → C → Bool → Finset C
  | 0, c, includeSelf => if includeSelf then {c} else ∅
  | fuel + 1, c, includeSelf =>
    let subs := (ds c).foldr
      (fun s acc => subclassClosure ds fuel s true ∪ acc) ∅
    if includeSelf then insert c subs else subs

/-- Left-to-right evaluation of a Python comprehension whose element
expressions may raise: the first raised exception propagates. -/
def mapExcept {C D : Type} (g : C → Except PyError D) :
    List C → Except PyError (List D)
  | [] => .ok []
  | x :: xs =>
    match g x with
    | .error e => .error e
    | .ok y =>
      match mapExcept g xs with
      | .error e => .error e
      | .ok ys => .ok (y :: ys)

/-- `set.add`: membership-guarded insertion into a set modelled as a
duplicate-free list. -/
def setAdd {C : Type} [DecidableEq C] (subs : List C) (c : C) : List C :=
  if c ∈ subs then subs else subs ++ [c]

/-- `kiwilib.getAllSubclasses(class_, includeSelf)` as implemented, over an
explicit direct-subclass graph `ds` (modelling `type.__subclasses__()`).
The body first evaluates the list comprehension of recursive calls (left to
right), then computes `set(flatten(subs))`.  `flatten` recurses into every
element with an `__iter__` attribute: it correctly recurses into the
recursively computed sets, but their elements are class objects, and
`hasIter c` records whether the class object `c` exposes an `__iter__`
attribute (true for every class of a `HierarchicalEnum`-style hierarchy,
whose instance method `__iter__` is found by `hasattr` on the class
object).  For such a class `flatten` attempts `for ... in c`, which looks
`__iter__` up on the `ABCMeta` metaclass and raises
`TypeError: 'ABCMeta' object is not iterable`.  So the call raises
`TypeError` whenever any encountered subclass has an `__iter__` attribute;
otherwise it returns the closure, `set` semantics modelled as a
deduplicated list.  Python's call-stack recursion over the finite class
DAG is bounded by `fuel`. -/
def getAllSubclasses {C : Type} [DecidableEq C] (ds : C → List C)
    (hasIter : C → Bool) : Nat → C → Bool → Except PyError (List C)
  | 0, c, includeSelf => .ok (if includeSelf then [c] else [])
  | fuel + 1, c, includeSelf =>
    match mapExcept (fun s => getAllSubclasses ds hasIter fuel s true)
        (ds c) with
    | .error e => .error e
    | .ok subsList =>
      if subsList.any fun st => st.any hasIter then .error .typeError
      else
        let subs := (subsList.foldr (fun a b => a ++ b) []).dedup
        .ok (if includeSelf then setAdd subs c else subs)

theorem setAdd_ne_nil {C : Type} [DecidableEq C] (subs : List C) (c : C) :
    setAdd subs c ≠ [] := by
  unfold setAdd
  split
  · rename_i hm
    exact List.ne_nil_of_mem hm
  · simp

/-- An exception propagated out of a comprehension was raised by one of
its element expressions. -/
theorem mapExcept_error_mem {C D : Type} (g : C → Except PyError D) :
    ∀ (l : List C) (e : PyError), mapExcept g l = .error e →
      ∃ x ∈ l, g x = .error e := by
  intro l
  induction l with
  | nil =>
    intro e h
    exact absurd h (by simp [mapExcept])
  | cons x xs ih =>
    intro e h
    rw [mapExcept] at h
    split at h
    · rename_i e2 heq
      refine ⟨x, by simp, ?_⟩
      rw [heq]
      injection h with h2
      rw [h2]
    · rename_i y heq
      split at h
      · rename_i e2 heq2
        obtain ⟨z, hz, hze⟩ := ih e2 heq2
        refine ⟨z, by simp [hz], ?_⟩
        rw [hze]
        injection h with h2
        rw [h2]
      · exact absurd h (by simp)

/-- The only exception `getAllSubclasses` raises is the flatten
`TypeError`. -/
theorem getAllSubclasses_error {C : Type} [DecidableEq C] (ds : C → List C)
    (hasIter : C → Bool) : ∀ (f : Nat) (c : C) (inc : Bool) (e : PyError),
    getAllSubclasses ds hasIter f c inc = .error e → e = .typeError := by
  intro f
  induction f with
  | zero =>
    intro c inc e h
    exact absurd h (by simp [getAllSubclasses])
  | succ g ih =>
    intro c inc e h
    rw [getAllSubclasses] at h
    split at h
    · rename_i e2 heq
      obtain ⟨z, hz, hze⟩ := mapExcept_error_mem _ _ e2 heq
      injection h with h2
      rw [← h2]
      exact ih z true e2 hze
    · rename_i subsList heq
      split at h
      · injection h with h2
        exact h2.symm
      · exact absurd h (by simp)

/-- A successful `includeSelf` call never returns the empty set: the class
itself is added. -/
theorem getAllSubclasses_ok_self_ne_nil {C : Type} [DecidableEq C]
    (ds : C → List C) (hasIter : C → Bool) (f : Nat) (c : C) (L : List C)
    (h : getAllSubclasses ds hasIter f c true = .ok L) : L ≠ [] := by
  cases f with
  | zero =>
    rw [getAllSubclasses] at h
    injection h with h2
    simp only [if_pos trivial] at h2
    rw [← h2]
    simp
  | succ g =>
    rw [getAllSubclasses] at h
    split at h
    · exact absurd h (by simp)
    · rename_i subsList heq
      split at h
      · exact absurd h (by simp)
      · injection h with h2
        rw [← h2]
        intro hc
        exact setAdd_ne_nil _ c hc

/-- On a class with no direct subclasses, `getAllSubclasses(sub, True)`
returns `{sub}` without touching flatten's recursion. -/
theorem getAllSubclasses_leaf_self {C : Type} [DecidableEq C]
    (ds : C → List C) (hasIter : C → Bool) (c : C) (hds : ds c = [])
    (f : Nat) : getAllSubclasses ds hasIter f c true = .ok [c] := by
  cases f with
  | zero => simp [getAllSubclasses]
  | succ g => simp [getAllSubclasses, hds, mapExcept, setAdd]

/-- `root_class()` resolution as documented and as implemented by
`AliasableHierEnum.root_class`: a class whose immediate parent is the
`HierarchicalEnum` base abstraction (`parent = none`) is its own root;
otherwise resolution follows the first-declared ancestor chain. -/
def rootClassWalk {C : Type} (parent : C → Option C) : Nat → C → C
  | 0, c => c
  | fuel + 1, c =>
    match parent c with
    | none => c
    | some p => rootClassWalk parent fuel p

/-- `HierarchicalEnum.__repr__`: the bare type name when the instance's
type equals its own root class, else `"<RootName>.<TypeName>"`. -/
def hierRepr {C : Type} [DecidableEq C] (parent : C → Option C)
    (name : C → String) (fuel : Nat) (c : C) : String :=
  if c = rootClassWalk parent fuel c then name c
  else name (rootClassWalk parent fuel c) ++ "." ++ name c

/-- `HierarchicalEnum.__iter__`: evaluates
`[c() for c in getAllSubclasses(type(self))]` (`includeSelf = False`) and
returns an iterator over it; any exception raised by `getAllSubclasses`
propagates to the caller.  An instance of a hierarchical-enum class
carries no state, so an instance is identified with its class. -/
def hierIter {C : Type} [DecidableEq C] (ds : C → List C)
    (hasIter : C → Bool) (fuel : Nat) (c : C) : Except PyError (List C) :=
  getAllSubclasses ds hasIter fuel c false

/-- The class universe of claim C6: a hierarchical enumeration root `R`
with exactly the direct concrete leaf subclasses `L1`, `L2`, `L3` and no
deeper subclasses. -/
inductive RootedThree where
  | R
  | L1
  | L2
  | L3
  deriving DecidableEq

/-- `__subclasses__()` for the C6 universe. -/
def rtSubs : RootedThree → List RootedThree
  | .R => [.L1, .L2, .L3]
  | _ => []

/-- First-declared-parent map for the C6 universe: `R` is the direct
subclass of the `HierarchicalEnum` base. -/
def rtParent : RootedThree → Option RootedThree
  | .R => none
  | _ => some .R

/-- C6: in every hierarchical enumeration whose root `R` has exactly the
direct concrete leaf subclasses `L1`, `L2`, `L3` and no deeper subclasses
(any naming, any sufficient recursion fuel), the textual renderings hold
as claimed — an `L1` instance renders as `"R.L1"` and an `R` instance as
`"R"` — but iterating an `R` instance does not yield instances of `L1`,
`L2`, `L3`: it raises `TypeError`, because `flatten` inside
`getAllSubclasses` recurses into the leaf class objects (each carries the
inherited `__iter__` attribute) and their `ABCMeta` metaclass is not
iterable.  The subclass closure the docstring promises — and on which the
claim relies — is exactly `{L1, L2, L3}`. -/
theorem hierarchicalEnum_iter_bug (name : RootedThree → String)
    (fuel : Nat) :
    hierRepr rtParent name (fuel + 1) RootedThree.L1 =
      name RootedThree.R ++ "." ++ name RootedThree.L1 ∧
    hierRepr rtParent name fuel RootedThree.R = name RootedThree.R ∧
    hierIter rtSubs (fun _ => true) (fuel + 1) RootedThree.R =
      .error .typeError ∧
    subclassClosure rtSubs (fuel + 1) RootedThree.R false =
      {RootedThree.L1, RootedThree.L2, RootedThree.L3} := by
  have hleaf : ∀ (f : Nat) (c : RootedThree), c ≠ RootedThree.R →
      subclassClosure rtSubs f c true = {c} := by
    intro f c hc
    match f with
    | 0 => simp [subclassClosure]
    | g + 1 =>
      match c, hc with
      | RootedThree.L1, _ => simp [subclassClosure, rtSubs]
      | RootedThree.L2, _ => simp [subclassClosure, rtSubs]
      | RootedThree.L3, _ => simp [subclassClosure, rtSubs]
  have hrootwalk : ∀ f, rootClassWalk rtParent f RootedThree.R =
      RootedThree.R := by
    intro f
    match f with
    | 0 => rfl
    | g + 1 => simp [rootClassWalk, rtParent]
  have hsubE : ∀ (f : Nat) (c : RootedThree), c ≠ RootedThree.R →
      getAllSubclasses rtSubs (fun _ => true) f c true = .ok [c] := by
    intro f c hc
    match c, hc with
    | RootedThree.L1, _ => exact getAllSubclasses_leaf_self _ _ _ rfl f
    | RootedThree.L2, _ => exact getAllSubclasses_leaf_self _ _ _ rfl f
    | RootedThree.L3, _ => exact getAllSubclasses_leaf_self _ _ _ rfl f
  refine ⟨?_, ?_, ?_, ?_⟩
  · unfold hierRepr
    rw [rootClassWalk]
    simp only [rtParent, hrootwalk]
    simp
  · unfold hierRepr
    rw [hrootwalk]
    simp
  · unfold hierIter
    rw [getAllSubclasses]
    simp only [rtSubs, mapExcept, hsubE fuel RootedThree.L1 (by simp),
      hsubE fuel RootedThree.L2 (by simp),
      hsubE fuel RootedThree.L3 (by simp)]
    simp
  · rw [subclassClosure]
    simp only [rtSubs, List.foldr_cons, List.foldr_nil,
      hleaf _ RootedThree.L1 (by simp), hleaf _ RootedThree.L2 (by simp),
      hleaf _ RootedThree.L3 (by simp)]
    decide

/-! ### Localization/aliasing framework: `aliases_to_members`
(l10n_i18n.py lines 92-112) -/

/-- One binding step of a Python dict comprehension: a later binding for an
existing key overwrites that key's value in place (the key keeps its first
insertion position); a new key is appended. -/
def pyDictInsert {C : Type} (d : List (String × C)) (k : String) (v : C) :
    List (String × C) :=
  if d.any fun p => p.1 = k then
    d.map fun p => if p.1 = k then (k, v) else p
  else d ++ [(k, v)]

/-- A Python dict built from an association sequence, insertion order. -/
def pyDictOfList {C : Type} (l : List (String × C)) : List (String × C) :=
  l.foldl (fun d p => pyDictInsert d p.1 p.2) []

/-- `AliasableHierEnum.aliases_to_members(alias_func)` as implemented,
over the direct-subclass graph `ds`.  The dict comprehension
`out = {alias_func(sub()): sub for sub in getAllSubclasses(cls)}` first
evaluates `getAllSubclasses(cls)` — `hasIter` records which class objects
carry an `__iter__` attribute; every class of an `AliasableHierEnum`
hierarchy does, since it inherits `HierarchicalEnum.__iter__`.  Only when
that call returns does the comprehension evaluate `alias_func(sub())` left
to right: `aliasEval c` models that call, which may itself raise (the
default two-parameter lambda `lambda x, loc: x.alias(loc)` invoked with
the single argument `sub()` would raise `TypeError`).  The dict is then
built; when it has fewer entries than the subclass count the duplicate
branch's diagnostic comprehension
`{c: c().alias(locale) for c in getAllSubclasses(cls)}` evaluates the
unbound name `locale` and raises `NameError` (never the intended
`ValueError`). -/
def aliases_to_members {C : Type} [DecidableEq C] (ds : C → List C)
    (hasIter : C → Bool) (fuel : Nat) (cls : C)
    (aliasEval : C → Except PyError String) :
    Except PyError (List (String × C)) :=
  match getAllSubclasses ds hasIter fuel cls false with
  | .error e => .error e
  | .ok subs =>
    match mapExcept aliasEval subs with
    | .error e => .error e
    | .ok texts =>
      let out := pyDictOfList (texts.zip subs)
      if out.length < subs.length then .error .nameErrorLocale
      else .ok out

theorem pyDictInsert_keys {C : Type} (d : List (String × C)) (k : String)
    (v : C) :
    (pyDictInsert d k v).map Prod.fst =
      if k ∈ d.map Prod.fst then d.map Prod.fst
      else d.map Prod.fst ++ [k] := by
  unfold pyDictInsert
  by_cases hk : k ∈ d.map Prod.fst
  · rw [if_pos hk, if_pos]
    · rw [List.map_map]
      refine List.map_congr_left ?_
      intro p _
      by_cases hp : p.1 = k
      · simp [hp]
      · simp [hp]
    · rw [List.any_eq_true]
      obtain ⟨p, hp, hpk⟩ := List.mem_map.mp hk
      exact ⟨p, hp, by simp [hpk]⟩
  · rw [if_neg hk, if_neg]
    · simp
    · rw [List.any_eq_true]
      rintro ⟨p, hp, hpk⟩
      exact hk (List.mem_map.mpr ⟨p, hp, by simpa using hpk⟩)

theorem pyDictOfList_keys_aux {C : Type} (l : List (String × C)) :
    ∀ acc : List (String × C), (acc.map Prod.fst).Nodup →
      ((l.foldl (fun d p => pyDictInsert d p.1 p.2) acc).map Prod.fst).Nodup
      ∧ ∀ k, k ∈ (l.foldl (fun d p => pyDictInsert d p.1 p.2) acc).map
          Prod.fst ↔ k ∈ acc.map Prod.fst ∨ k ∈ l.map Prod.fst := by
  induction l with
  | nil => intro acc hacc; simp [hacc]
  | cons p rest ih =>
    intro acc hacc
    rw [List.foldl_cons]
    have hkeys := pyDictInsert_keys acc p.1 p.2
    by_cases hk : p.1 ∈ acc.map Prod.fst
    · rw [if_pos hk] at hkeys
      obtain ⟨h1, h2⟩ := ih (pyDictInsert acc p.1 p.2) (by rw [hkeys]; exact hacc)
      refine ⟨h1, fun k => ?_⟩
      rw [h2 k, hkeys]
      simp only [List.map_cons, List.mem_cons]
      constructor
      · rintro (h | h)
        · exact Or.inl h
        · exact Or.inr (Or.inr h)
      · rintro (h | h | h)
        · exact Or.inl h
        · exact Or.inl (h ▸ hk)
        · exact Or.inr h
    · rw [if_neg hk] at hkeys
      have hnodup : ((pyDictInsert acc p.1 p.2).map Prod.fst).Nodup := by
        rw [hkeys]
        simp only [List.nodup_append, List.nodup_cons, List.nodup_nil]
        exact ⟨hacc, by simp, by simpa using hk⟩
      obtain ⟨h1, h2⟩ := ih (pyDictInsert acc p.1 p.2) hnodup
      refine ⟨h1, fun k => ?_⟩
      rw [h2 k, hkeys]
      simp only [List.mem_append, List.mem_singleton, List.map_cons,
        List.mem_cons]
      tauto

/-- Keys of a Python dict are distinct and are exactly the keys occurring
in the built association list. -/
theorem pyDictOfList_keys {C : Type} (l : List (String × C)) :
    ((pyDictOfList l).map Prod.fst).Nodup ∧
      ∀ k, k ∈ (pyDictOfList l).map Prod.fst ↔ k ∈ l.map Prod.fst := by
  have h := pyDictOfList_keys_aux l [] (by simp)
  exact ⟨h.1, fun k => by simpa using h.2 k⟩

theorem pyDictOfList_foldl_of_nodup {C : Type} :
    ∀ l acc : List (String × C), ((acc ++ l).map Prod.fst).Nodup →
      l.foldl (fun d p => pyDictInsert d p.1 p.2) acc = acc ++ l := by
  intro l
  induction l with
  | nil => intro acc _; simp
  | cons p rest ih =>
    intro acc hacc
    rw [List.foldl_cons]
    have hk : p.1 ∉ acc.map Prod.fst := by
      rw [List.map_append, List.nodup_append] at hacc
      intro hmem
      exact hacc.2.2 hmem (by simp)
    have hins : pyDictInsert acc p.1 p.2 = acc ++ [p] := by
      have hany : (acc.any fun q => q.1 = p.1) = false := by
        simp only [List.any_eq_false, decide_eq_true_eq]
        intro q hq hqk
        exact hk (List.mem_map.mpr ⟨q, hq, hqk⟩)
      unfold pyDictInsert
      rw [hany]
      simp
    rw [hins, ih (acc ++ [p]) (by rw [List.append_assoc]; simpa using hacc)]
    simp

/-- With all keys distinct, the Python dict of an association list is that
list itself. -/
theorem pyDictOfList_of_nodup_keys {C : Type} (l : List (String × C))
    (h : (l.map Prod.fst).Nodup) : pyDictOfList l = l := by
  simpa using pyDictOfList_foldl_of_nodup l [] (by simpa using h)

/-- Alias function with pairwise-distinct alias texts, for the witness. -/
def demoAliasDistinct : RootedThree → String
  | .R => "root"
  | .L1 => "one"
  | .L2 => "two"
  | .L3 => "three"

/-- C5 is refuted at a concrete input: on the root of a three-leaf
aliasable hierarchy, even with an explicitly supplied one-argument alias
function producing pairwise-distinct alias texts, the call raises
`TypeError` inside `getAllSubclasses` — it neither builds the
alias-to-member mapping nor fails with the DuplicateAlias `ValueError`. -/
theorem aliases_to_members_counterexample :
    aliases_to_members rtSubs (fun _ => true) 2 RootedThree.R
        (fun c => .ok (demoAliasDistinct c)) =
      (.error .typeError :
        Except PyError (List (String × RootedThree))) := by
  decide

/-- C5 (amended): for a hierarchy in which every class carries the
inherited `__iter__` attribute — as every `AliasableHierEnum` subclass
does — `aliases_to_members` on a type with at least one subclass raises
`TypeError` inside `getAllSubclasses` (flatten iterates a subclass class
object whose `ABCMeta` metaclass is not iterable) before the alias
function, the mapping construction or the duplicate diagnostic is ever
evaluated, regardless of the alias function supplied; on a type with no
subclasses it returns the empty mapping. -/
theorem aliases_to_members_behavior {C : Type} [DecidableEq C]
    (ds : C → List C) (fuel : Nat) (cls : C)
    (aliasEval : C → Except PyError String) :
    (ds cls ≠ [] →
      aliases_to_members ds (fun _ => true) (fuel + 1) cls aliasEval =
        .error .typeError) ∧
    (ds cls = [] →
      aliases_to_members ds (fun _ => true) (fuel + 1) cls aliasEval =
        .ok []) := by
  constructor
  · intro hne
    have hget : getAllSubclasses ds (fun _ => true) (fuel + 1) cls false =
        .error .typeError := by
      rw [getAllSubclasses]
      split
      · rename_i e heq
        obtain ⟨z, hz, hze⟩ := mapExcept_error_mem _ _ _ heq
        rw [getAllSubclasses_error ds (fun _ => true) fuel z true e hze]
      · rename_i subsList heq
        obtain ⟨x, rest, hxr⟩ := List.exists_cons_of_ne_nil hne
        rw [hxr, mapExcept] at heq
        split at heq
        · exact absurd heq (by simp)
        · rename_i y hgx
          split at heq
          · exact absurd heq (by simp)
          · rename_i ys hrest
            injection heq with h2
            have hy := getAllSubclasses_ok_self_ne_nil ds (fun _ => true)
              fuel x y hgx
            have hcond :
                (subsList.any fun st => st.any fun _ => true) = true := by
              rw [← h2]
              obtain ⟨w, ws, hws⟩ := List.exists_cons_of_ne_nil hy
              subst hws
              simp
            rw [if_pos hcond]
    unfold aliases_to_members
    rw [hget]
  · intro hnil
    have hget : getAllSubclasses ds (fun _ => true) (fuel + 1) cls false =
        .ok [] := by
      rw [getAllSubclasses, hnil]
      simp [mapExcept]
    unfold aliases_to_members
    rw [hget]
    simp [mapExcept, pyDictOfList]

theorem aliases_to_members_behavior_witness :
    (rtSubs RootedThree.R ≠ [] ∧
      aliases_to_members rtSubs (fun _ => true) 2 RootedThree.R
        (fun c => .ok (demoAliasDistinct c)) = .error .typeError) ∧
    (rtSubs RootedThree.L1 = [] ∧
      aliases_to_members rtSubs (fun _ => true) 2 RootedThree.L1
        (fun c => .ok (demoAliasDistinct c)) = .ok []) :=
  ⟨⟨by decide, (aliases_to_members_behavior rtSubs 1 RootedThree.R
      (fun c => .ok (demoAliasDistinct c))).1 (by decide)⟩,
   ⟨rfl, (aliases_to_members_behavior rtSubs 1 RootedThree.L1
      (fun c => .ok (demoAliasDistinct c))).2 rfl⟩⟩

/-! ### Linked min-heap (kiwilib.py lines 347-615)

The pointer-linked complete binary tree is modelled as an inductive binary
tree of values.  `LinkedHeapNode` objects are identified with the values
they hold: the heap operations are only exercised on nodes holding
pairwise-distinct values (Python object identity), so the `parent`
back-pointers are recovered from tree positions, `_swapWithParent` — a
full parent/child relink that exchanges the two nodes' positions — acts on
the value tree as the transposition of the two slots, and the `self.last`
node reference is modelled as the `Option` of the referenced node's value
(`none` for Python `None`).  Each loop of the source is translated into a
structural recursion along the corresponding tree path, with the `last`
reassignments of `_swapWithParent` and `_bubbleUp` threaded through.
`attributeError` models the `AttributeError` Python would raise on the
`None`-dereference branches that are unreachable on well-formed heaps. -/

/-- A `LinkedHeapNode` tree: each node holds `val` and owns `left` and
`right` subtrees; `leaf` is Python `None`. -/
inductive HTree (V : Type) where
  | leaf
  | node (val : V) (left right : HTree V)
  deriving DecidableEq, Repr

/-- `LinkedMinHeap` state: owned root `head`, reference `last` to the node
last in level order, and the `size` counter.  The comparison key function
`compF` is passed to each operation. -/
structure LinkedMinHeap (V : Type) where
  head : HTree V
  last : Option V
  size : Nat
  deriving DecidableEq, Repr

/-- `LinkedMinHeap._getHeight` loop: `h = 1; while a > 1: h += 1;
a = int(a / 2)`. -/
def getHeightAux : Nat → Nat → Nat
  | a, h => if a > 1 then getHeightAux (a / 2) (h + 1) else h
termination_by a => a
decreasing_by omega

/-- `LinkedMinHeap._getHeight(treeSize)`. -/
def getHeight (treeSize : Nat) : Nat :=
  getHeightAux treeSize 1

/-- The `while child.left: child = child.left` descent in `_getChild`'s
`nOnInsertionRow == 0` branch, as a path. -/
def whileLeftPath {V : Type} : HTree V → List Bool
  | .leaf => []
  | .node _ .leaf _ => []
  | .node _ (.node w ll lr) _ => false :: whileLeftPath (.node w ll lr)

/-- `_getNextParent`'s inner `_getChild(parent, treeSize)`, returning the
path (`false` = left, `true` = right) from `parent` to the node that
receives the next level-order insertion, or `none` for an empty tree
(`treeSize == 0`).  `round(math.pow(2, k))` is exactly `2 ^ k`.  The
`.leaf` fallbacks are unreachable on complete trees of the given size. -/
def getChildPath {V : Type} : HTree V → Nat → Option (List Bool)
  | _, 0 => none
  | t, treeSize =>
    if treeSize < 3 then some []
    else
      let h := getHeight treeSize
      let nOnAboveLevels := 2 ^ (h - 1) - 1
      let nOnInsertionRow := (treeSize - nOnAboveLevels) % 2 ^ (h - 1)
      if nOnInsertionRow = 0 then
        match t with
        | .node _ l _ => some (false :: whileLeftPath l)
        | .leaf => some []
      else if nOnInsertionRow ≥ 2 ^ (h - 2) then
        match t with
        | .node _ _ r =>
          (getChildPath r (treeSize - 2 ^ (h - 1))).map (true :: ·)
        | .leaf => some []
      else
        match t with
        | .node _ l _ =>
          (getChildPath l (treeSize - 2 ^ (h - 2))).map (false :: ·)
        | .leaf => some []

/-- `LinkedMinHeap._getNextParent(size)`: `if not size: size = self.size`
(so both the default `None` and an explicit `0` fall back to `self.size`),
then `_getChild(self.head, size)`. -/
def getNextParentPath {V : Type} (head : HTree V) (selfSize : Nat)
    (sizeArg : Option Nat) : Option (List Bool) :=
  let s := match sizeArg with
    | none => selfSize
    | some 0 => selfSize
    | some n => n
  getChildPath head s

/-- Attach a fresh node `x` (with `left = right = None`) at the empty slot
reached by `path`.  The non-`leaf`-at-`[]` and `leaf`-mid-path cases are
unreachable when `path` leads to an empty slot of the tree. -/
def attachAt {V : Type} : HTree V → List Bool → V → HTree V
  | _, [], x => .node x .leaf .leaf
  | .leaf, _ :: _, _ => .leaf
  | .node v l r, b :: bs, x =>
    if b then .node v l (attachAt r bs x) else .node v (attachAt l bs x) r

/-- `LinkedMinHeap._bubbleUp(item)` along the path to `item`:
`while item.parent and compF(item) < compF(item.parent)`, swap `item` with
its parent (a position transposition).  The recursion unwinds bottom-up:
the returned `Bool` says whether the risen value is at this subtree's root
and still rising, and the returned `Option V` is the node left in `item`'s
original slot by the first (deepest) swap, if any — the node the source
assigns to `self.last` when `item` was `last` (push), threaded upward
unchanged. -/
def bubbleUpAux {V K : Type} [LinearOrder K] (compF : V → K) :
    HTree V → List Bool → HTree V × Bool × Option V
  | t, [] => (t, true, none)
  | .leaf, _ :: _ => (.leaf, false, none)
  | .node v l r, b :: bs =>
    if b then
      match bubbleUpAux compF r bs with
      | (r', moving, lu) =>
        if moving then
          match r' with
          | .node w rl rr =>
            if compF w < compF v then
              (.node w l (.node v rl rr), true,
                match lu with
                | some u => some u
                | none => some v)
            else (.node v l r', false, lu)
          | .leaf => (.node v l r', false, lu)
        else (.node v l r', false, lu)
    else
      match bubbleUpAux compF l bs with
      | (l', moving, lu) =>
        if moving then
          match l' with
          | .node w ll lr =>
            if compF w < compF v then
              (.node w (.node v ll lr) r, true,
                match lu with
                | some u => some u
                | none => some v)
            else (.node v l' r, false, lu)
          | .leaf => (.node v l' r, false, lu)
        else (.node v l' r, false, lu)

/-- `LinkedMinHeap.push(item)`: compute the insertion parent via
`_getNextParent()`, attach at its right child when `self.size` is even and
left child when odd, set `last = item`, and `_bubbleUp(item)` (during
which `last` moves to the node displaced into `item`'s slot by the first
swap, if any). -/
def LinkedMinHeap.push {V K : Type} [LinearOrder K] (compF : V → K)
    (h : LinkedMinHeap V) (item : V) : LinkedMinHeap V :=
  match getNextParentPath h.head h.size none with
  | none => { head := .node item .leaf .leaf, last := some item,
              size := h.size + 1 }
  | some ppath =>
    let fullPath := ppath ++ [decide (h.size % 2 = 0)]
    let t1 := attachAt h.head fullPath item
    match bubbleUpAux compF t1 fullPath with
    | (t2, _, lu) =>
      { head := t2, size := h.size + 1,
        last := match lu with
          | some w => some w
          | none => some item }

/-- `heapify`/`__init__`: repeated `push` in input order over an initially
empty heap. -/
def LinkedMinHeap.heapify {V K : Type} [LinearOrder K] (compF : V → K)
    (items : List V) : LinkedMinHeap V :=
  items.foldl (LinkedMinHeap.push compF) ⟨.leaf, none, 0⟩

/-- The recursive clause of `LinkedMinHeap.validate`: for a non-root node,
`compF(head) >= compF(head.parent)` and recursion into both children
(`validate(None)` is `True`). -/
def validateSub {V K : Type} [LinearOrder K] (compF : V → K) :
    HTree V → K → Bool
  | .leaf, _ => true
  | .node v l r, parentKey =>
    decide (compF v ≥ parentKey) && validateSub compF l (compF v) &&
      validateSub compF r (compF v)

/-- `LinkedMinHeap.validate()` (default argument, the whole heap): an empty
head requires `size == 0 and last == None`; otherwise `size > 0`,
`last != None`, and the recursive order check on both children of the
root. -/
def LinkedMinHeap.validate {V K : Type} [LinearOrder K] (compF : V → K)
    (h : LinkedMinHeap V) : Bool :=
  match h.head with
  | .leaf => decide (h.size = 0) && h.last.isNone
  | .node v l r =>
    decide (h.size > 0) && h.last.isSome &&
      validateSub compF l (compF v) && validateSub compF r (compF v)

/-- Subtree of `t` at `path` (`false` = left, `true` = right). -/
def nodeAt {V : Type} : HTree V → List Bool → Option (HTree V)
  | t, [] => some t
  | .leaf, _ :: _ => none
  | .node _ l r, b :: bs => if b then nodeAt r bs else nodeAt l bs

/-- Value held by the node at `path`, if any. -/
def valueAt {V : Type} (t : HTree V) (path : List Bool) : Option V :=
  match nodeAt t path with
  | some (.node v _ _) => some v
  | _ => none

/-- Replace the value held at `path` (pointers untouched): one half of
`_swapVals`. -/
def setValueAt {V : Type} : HTree V → List Bool → V → HTree V
  | .leaf, _, _ => .leaf
  | .node _ l r, [], x => .node x l r
  | .node v l r, b :: bs, x =>
    if b then .node v l (setValueAt r bs x) else .node v (setValueAt l bs x) r

/-- Set one child pointer of the node at `path` to `None`
(`out.parent.left = None` / `out.parent.right = None`). -/
def clearChildAt {V : Type} : HTree V → List Bool → Bool → HTree V
  | .leaf, _, _ => .leaf
  | .node v l r, [], side => if side then .node v l .leaf else .node v .leaf r
  | .node v l r, b :: bs, side =>
    if b then .node v l (clearChildAt r bs side)
    else .node v (clearChildAt l bs side) r

/-- `self.last = self.head; while self.last.right: self.last =
self.last.right` — the rightmost-spine node's value. -/
def rightSpineLastVal {V : Type} : HTree V → Option V
  | .leaf => none
  | .node v _ .leaf => some v
  | .node _ _ (.node w rl rr) => rightSpineLastVal (.node w rl rr)

/-- Path to the (first, in preorder) node holding value `w`: the model of
dereferencing a node pointer, well-defined because the heap is only
exercised on pairwise-distinct node values. -/
def findPath {V : Type} [DecidableEq V] : HTree V → V → Option (List Bool)
  | .leaf, _ => none
  | .node v l r, w =>
    if v = w then some []
    else
      match findPath l w with
      | some p => some (false :: p)
      | none =>
        match findPath r w with
        | some p => some (true :: p)
        | none => none

/-- The sift-down loop of `pop`: the head node (value `m`, children `l`,
`r`) descends by swapping with the smaller child while it has a right
child (`compF(left) > compF(right)` picks right, otherwise left), then
swaps once more with its left child if present — reaching a leaf slot.
Returns the new tree, the path to `m`'s final slot, and the `last`
reference as updated by `_swapWithParent` (a promoted child that was
`last` leaves the descending head node in the last slot, so `last`
becomes `m`).  The `(node, leaf)` right-with-no-left case cannot occur in
a complete tree (the source would crash evaluating `compF(None)`); the
model leaves `m` in place there. -/
def popSiftDown {V K : Type} [LinearOrder K] [DecidableEq V]
    (compF : V → K) (m : V) :
    HTree V → HTree V → Option V → HTree V × List Bool × Option V
  | l, .node rv rl rr, last =>
    match l with
    | .node lv ll lr =>
      if compF lv > compF rv then
        let last' := if last = some rv then some m else last
        match popSiftDown compF m rl rr last' with
        | (sub, p, last'') => (.node rv l sub, true :: p, last'')
      else
        let last' := if last = some lv then some m else last
        match popSiftDown compF m ll lr last' with
        | (sub, p, last'') => (.node lv sub (.node rv rl rr), false :: p, last'')
    | .leaf => (.node m .leaf (.node rv rl rr), [], last)
  | .node lv ll lr, .leaf, last =>
    let last' := if last = some lv then some m else last
    (.node lv (.node m ll lr) .leaf, [false], last')
  | .leaf, .leaf, last => (.node m .leaf .leaf, [], last)
termination_by l r _ => sizeOf l + sizeOf r
decreasing_by
  all_goals (simp only [HTree.node.sizeOf_spec]; omega)

/-- The detach-and-recompute-`last` tail of `LinkedMinHeap.pop()` (after the
swap/bubble phase): `out` (value `m`) sits detached-to-be at `lastPath`;
`size` has been decremented to `n'`.  The source's three cases: (a)
`out.parent.right` non-`None` — new `last` is `out.parent.left` and the
right child is detached; (b) tree height unchanged
(`height() == _getHeight(size + 1)`) — detach the left child, new `last`
is `_getNextParent(self.size - 1).right`; (c) otherwise — detach the left
child, new `last` is the rightmost node from `head`. -/
def popDetach {V : Type} [DecidableEq V] (m : V) (t2 : HTree V)
    (lastPath : List Bool) (n' : Nat) :
    Except PyError (V × LinkedMinHeap V) :=
  if lastPath.isEmpty then .error .attributeError
  else
    match nodeAt t2 lastPath.dropLast with
    | some (.node _ pl pr) =>
      if pr ≠ .leaf then
        let t3 := clearChildAt t2 lastPath.dropLast true
        match pl with
        | .node lv _ _ => .ok (m, ⟨t3, some lv, n'⟩)
        | .leaf => .error .attributeError
      else if getHeight n' = getHeight (n' + 1) then
        let t3 := clearChildAt t2 lastPath.dropLast false
        match getNextParentPath t3 n' (some (n' - 1)) with
        | none => .error .attributeError
        | some q =>
          match nodeAt t3 q with
          | some (.node _ _ (.node rv _ _)) => .ok (m, ⟨t3, some rv, n'⟩)
          | _ => .error .attributeError
      else
        let t3 := clearChildAt t2 lastPath.dropLast false
        match rightSpineLastVal t3 with
        | some lv => .ok (m, ⟨t3, some lv, n'⟩)
        | none => .error .attributeError
    | _ => .error .attributeError

/-- `LinkedMinHeap.pop()`: fail with `EmptyCollection` (`IndexError`) on an
empty heap; on a size-1 heap clear `head`/`last`, zero `size`, return the
sole node.  Otherwise sift the head node down to a leaf slot
(`popSiftDown`); if the node now in the last slot (`oldLast`) is not the
head node itself, `_swapVals` the two slots and `_bubbleUp` the relocated
value (whose `last`-reference checks compare distinct nodes and never
fire).  Decrement `size`, then detach the removed node and recompute
`last` (`popDetach`). -/
def LinkedMinHeap.pop {V K : Type} [LinearOrder K] [DecidableEq V]
    (compF : V → K) (h : LinkedMinHeap V) :
    Except PyError (V × LinkedMinHeap V) :=
  if h.size = 0 then .error .emptyCollection
  else if h.size = 1 then
    match h.head with
    | .node v _ _ => .ok (v, ⟨.leaf, none, 0⟩)
    | .leaf => .error .attributeError
  else
    match h.head with
    | .leaf => .error .attributeError
    | .node m l r =>
      match popSiftDown compF m l r h.last with
      | (t1, outPath, last1) =>
        let afterSwap : Except PyError (HTree V × List Bool) :=
          if last1 = some m then .ok (t1, outPath)
          else
            match last1 with
            | none => .error .attributeError
            | some w =>
              match findPath t1 w with
              | none => .error .attributeError
              | some lp =>
                let t2 := setValueAt (setValueAt t1 outPath w) lp m
                match bubbleUpAux compF t2 outPath with
                | (t3, _, _) => .ok (t3, lp)
        match afterSwap with
        | .error e => .error e
        | .ok (t2, lastPath) => popDetach m t2 lastPath (h.size - 1)

/-- `LinkedMinHeap._bubbleDown(node)` (used only by `popPush`): while the
node has a right child, swap with the right child when
`left > right and node > right`, with the left child when
`left < right and node > left`, and otherwise break out of the loop; after
the loop, one more swap with the left child when `node.left < node`.
Returns the new tree, the value of the node's final parent (`none` when it
never moved), and the `last` reference as updated by `_swapWithParent`.
The right-child-but-no-left-child shape cannot occur on a complete tree
(the source would crash evaluating `compF(None)`); the model leaves the
node in place there. -/
def bubbleDown {V K : Type} [LinearOrder K] [DecidableEq V]
    (compF : V → K) (x : V) :
    HTree V → HTree V → Option V → HTree V × Option V × Option V
  | l, .node rv rl rr, last =>
    match l with
    | .node lv ll lr =>
      if compF lv > compF rv ∧ compF x > compF rv then
        let last' := if last = some rv then some x else last
        match bubbleDown compF x rl rr last' with
        | (sub, p, last'') =>
          (.node rv l sub, some (p.getD rv), last'')
      else if compF lv < compF rv ∧ compF x > compF lv then
        let last' := if last = some lv then some x else last
        match bubbleDown compF x ll lr last' with
        | (sub, p, last'') =>
          (.node lv sub (.node rv rl rr), some (p.getD lv), last'')
      else
        if compF lv < compF x then
          let last' := if last = some lv then some x else last
          (.node lv (.node x ll lr) (.node rv rl rr), some lv, last')
        else (.node x l (.node rv rl rr), none, last)
    | .leaf => (.node x .leaf (.node rv rl rr), none, last)
  | .node lv ll lr, .leaf, last =>
    if compF lv < compF x then
      let last' := if last = some lv then some x else last
      (.node lv (.node x ll lr) .leaf, some lv, last')
    else (.node x (.node lv ll lr) .leaf, none, last)
  | .leaf, .leaf, last => (.node x .leaf .leaf, none, last)
termination_by l r _ => sizeOf l + sizeOf r
decreasing_by
  all_goals (simp only [HTree.node.sizeOf_spec]; omega)

/-- `LinkedMinHeap.popPush(item)`: replace the head's node identity with
`item` (re-parenting the head's former children onto `item`), detach the
old head's children, `_bubbleDown(item)`, and finally
`if item.parent == self.last: self.last = item` (`==` is node identity;
`None == None` also fires it).  The source neither decrements nor
increments `size` and — unlike `pop` — returns `None`, so the embedding
returns only the updated heap state; calling it on an empty heap
dereferences `None` (`out.left`), modelled as `attributeError`. -/
def LinkedMinHeap.popPush {V K : Type} [LinearOrder K] [DecidableEq V]
    (compF : V → K) (h : LinkedMinHeap V) (item : V) :
    Except PyError (LinkedMinHeap V) :=
  match h.head with
  | .leaf => .error .attributeError
  | .node _ l r =>
    match bubbleDown compF item l r h.last with
    | (t', parentVal, last') =>
      let lastFinal := if parentVal = last' then some item else last'
      .ok { head := t', last := lastFinal, size := h.size }

/-- C8: `pop()` on a heap of size 1 returns the sole node and leaves the
heap with size 0 and both `head` and `last` absent; `pop()` on a heap of
size 0 fails with EmptyCollection (the source raises before mutating
anything, and the embedding is pure, so the failing call leaves the heap
state unchanged). -/
theorem pop_small_heaps {V K : Type} [LinearOrder K] [DecidableEq V]
    (compF : V → K) (h : LinkedMinHeap V) :
    (h.size = 0 → LinkedMinHeap.pop compF h = .error .emptyCollection) ∧
    (∀ v : V, h.size = 1 → h.head = .node v .leaf .leaf →
      LinkedMinHeap.pop compF h = .ok (v, ⟨.leaf, none, 0⟩)) := by
  constructor
  · intro h0
    unfold LinkedMinHeap.pop
    simp [h0]
  · intro v h1 hh
    unfold LinkedMinHeap.pop
    simp [h1, hh]

theorem pop_small_heaps_witness :
    LinkedMinHeap.pop (fun v : Int => v)
      (⟨.leaf, none, 0⟩ : LinkedMinHeap Int) = .error .emptyCollection ∧
    LinkedMinHeap.pop (fun v : Int => v)
      (⟨.node 5 .leaf .leaf, some 5, 1⟩ : LinkedMinHeap Int) =
        .ok (5, ⟨.leaf, none, 0⟩) :=
  ⟨(pop_small_heaps (fun v : Int => v) ⟨.leaf, none, 0⟩).1 rfl,
    (pop_small_heaps (fun v : Int => v) ⟨.node 5 .leaf .leaf, some 5, 1⟩).2
      5 rfl rfl⟩

/-- C3 fails on the code (the claim matches the evident intent of
`popPush`, so this is a code bug): on a heap of size 1 — exactly the case
where the replaced head is also `last` — `popPush(x)` leaves `last`
pointing at the removed node instead of updating it to `x` (the fix-up
`if item.parent == self.last` compares `None` with the old head and never
fires), and the method returns `None` rather than the removed former head
node (it has no return statement), whereas `pop()` followed by `push(x)`
returns the removed head and leaves `last = x`.  Evaluated here at the
failing input: heap `{10}` and fresh node `20`. -/
theorem popPush_size_one_bug :
    LinkedMinHeap.popPush (fun v : Int => v)
        ⟨.node 10 .leaf .leaf, some 10, 1⟩ 20 =
      .ok ⟨.node 20 .leaf .leaf, some 10, 1⟩ ∧
    LinkedMinHeap.pop (fun v : Int => v)
        (⟨.node 10 .leaf .leaf, some 10, 1⟩ : LinkedMinHeap Int) =
      .ok (10, ⟨.leaf, none, 0⟩) ∧
    LinkedMinHeap.push (fun v : Int => v) ⟨.leaf, none, 0⟩ 20 =
      ⟨.node 20 .leaf .leaf, some 20, 1⟩ ∧
    some (10 : Int) ≠ some (20 : Int) := by
  refine ⟨?_, ?_, ?_, by decide⟩
  · simp [LinkedMinHeap.popPush, bubbleDown]
  · simp [LinkedMinHeap.pop]
  · simp [LinkedMinHeap.push, getNextParentPath, getChildPath, attachAt,
      bubbleUpAux]

/-! #### Specification layer for the heap proofs: multiset of values,
heap order, complete shape, and level-order slot paths. -/

/-- Multiset of values stored in a tree. -/
def treeMset {V : Type} : HTree V → Multiset V
  | .leaf => 0
  | .node v l r => v ::ₘ (treeMset l + treeMset r)

/-- `p` holds for every value in the tree. -/
def HAll {V : Type} (p : V → Prop) : HTree V → Prop
  | .leaf => True
  | .node v l r => p v ∧ HAll p l ∧ HAll p r

/-- Min-heap order under the key `compF`: every node's key is at most the
keys throughout its subtrees. -/
def IsHeapT {V K : Type} [LinearOrder K] (compF : V → K) : HTree V → Prop
  | .leaf => True
  | .node v l r =>
    HAll (fun w => compF v ≤ compF w) l ∧
      HAll (fun w => compF v ≤ compF w) r ∧ IsHeapT compF l ∧ IsHeapT compF r

/-- Number of nodes in the left subtree of a complete binary tree with `n`
nodes (level-order filled). -/
def leftSize (n : Nat) : Nat :=
  2 ^ Nat.log2 n / 2 - 1 +
    min (n - (2 ^ Nat.log2 n - 1)) (2 ^ Nat.log2 n / 2)

/-- Complete (level-order filled) shape with exactly `n` nodes: the left
subtree takes `leftSize n` of them, both subtrees complete. -/
def IsCpl {V : Type} : HTree V → Nat → Prop
  | .leaf, n => n = 0
  | .node _ l r, n =>
    1 ≤ n ∧ IsCpl l (leftSize n) ∧ IsCpl r (n - 1 - leftSize n)

/-- Path from the root to level-order slot `i` (`false` = left): slot `i`'s
parent is slot `(i - 1) / 2`, and `i` is a right child exactly when `i` is
even. -/
def pathOfIdx : Nat → List Bool
  | 0 => []
  | i + 1 => pathOfIdx (i / 2) ++ [decide ((i + 1) % 2 = 0)]

theorem leftSize_lt (n : Nat) (h : 1 ≤ n) : leftSize n < n := by
  unfold leftSize
  rcases Nat.eq_zero_or_pos (Nat.log2 n) with h0 | h1
  · have hlt := Nat.lt_log2_self (n := n)
    rw [h0] at hlt
    simp only [h0, pow_zero]
    omega
  · obtain ⟨k, hk⟩ : ∃ k, Nat.log2 n = k + 1 := ⟨Nat.log2 n - 1, by omega⟩
    have hle := Nat.log2_self_le (n := n) (by omega)
    have hlt := Nat.lt_log2_self (n := n)
    rw [hk] at hle hlt
    rw [hk]
    have hq : 1 ≤ 2 ^ k := Nat.one_le_two_pow
    rw [pow_succ] at *
    omega

theorem treeMset_card {V : Type} (t : HTree V) :
    ∀ n : Nat, IsCpl t n → Multiset.card (treeMset t) = n := by
  induction t with
  | leaf => intro n h; simp [IsCpl] at h; simp [treeMset, h]
  | node v l r ihl ihr =>
    intro n h
    obtain ⟨h1, hl, hr⟩ := h
    have hL := ihl _ hl
    have hR := ihr _ hr
    have hlt : leftSize n < n := leftSize_lt n h1
    simp only [treeMset, Multiset.card_cons, Multiset.card_add, hL, hR]
    omega

theorem getHeightAux_eq (a : Nat) : ∀ h : Nat, getHeightAux a h = h + Nat.log2 a := by
  induction a using Nat.strong_induction_on with
  | _ a ih =>
    intro h
    rw [getHeightAux]
    split
    · rw [ih (a / 2) (by omega) (h + 1)]
      conv_rhs => rw [Nat.log2]
      rw [if_pos (show 2 ≤ a by omega)]
      omega
    · rw [Nat.log2, if_neg (by omega)]
      omega

theorem getHeight_eq (n : Nat) : getHeight n = Nat.log2 n + 1 := by
  rw [getHeight, getHeightAux_eq]
  omega

theorem HAll_iff {V : Type} (p : V → Prop) (t : HTree V) :
    HAll p t ↔ ∀ x ∈ treeMset t, p x := by
  induction t with
  | leaf => simp [HAll, treeMset]
  | node v l r ihl ihr =>
    simp only [HAll, treeMset, Multiset.mem_cons, Multiset.mem_add, ihl, ihr]
    constructor
    · rintro ⟨h1, h2, h3⟩ x (rfl | hx | hx)
      · exact h1
      · exact h2 x hx
      · exact h3 x hx
    · intro hx
      exact ⟨hx v (Or.inl rfl), fun x h => hx x (Or.inr (Or.inl h)),
        fun x h => hx x (Or.inr (Or.inr h))⟩

theorem HAll_mono {V : Type} {p q : V → Prop} (hpq : ∀ x, p x → q x)
    (t : HTree V) (h : HAll p t) : HAll q t := by
  rw [HAll_iff] at *
  exact fun x hx => hpq x (h x hx)

theorem isHeapT_hall {V K : Type} [LinearOrder K] (compF : V → K)
    (v : V) (l r : HTree V) (h : IsHeapT compF (.node v l r)) :
    HAll (fun w => compF v ≤ compF w) (.node v l r) :=
  ⟨le_refl _, h.1, h.2.1⟩

theorem valueAt_mem {V : Type} (t : HTree V) :
    ∀ (p : List Bool) (w : V), valueAt t p = some w → w ∈ treeMset t := by
  induction t with
  | leaf =>
    intro p w h
    cases p <;> simp [valueAt, nodeAt] at h
  | node v l r ihl ihr =>
    intro p w h
    match p with
    | [] =>
      simp [valueAt, nodeAt] at h
      simp [treeMset, h]
    | b :: bs =>
      simp only [valueAt, nodeAt] at h
      by_cases hb : b = true
      · subst hb
        simp only [if_pos rfl] at h
        have := ihr bs w h
        simp [treeMset, this]
      · have hb' : b = false := by simpa using hb
        subst hb'
        simp only [Bool.false_eq_true, if_neg] at h
        have := ihl bs w h
        simp [treeMset, this]

theorem findPath_none_of_not_mem {V : Type} [DecidableEq V] (t : HTree V)
    (w : V) (h : w ∉ treeMset t) : findPath t w = none := by
  induction t with
  | leaf => rfl
  | node v l r ihl ihr =>
    simp only [treeMset, Multiset.mem_cons, Multiset.mem_add] at h
    push_neg at h
    obtain ⟨h1, h2, h3⟩ := h
    simp [findPath, Ne.symm h1, ihl h2, ihr h3]

theorem findPath_eq_of_valueAt {V : Type} [DecidableEq V] (t : HTree V) :
    ∀ (p : List Bool) (w : V), (treeMset t).Nodup → valueAt t p = some w →
      findPath t w = some p := by
  induction t with
  | leaf =>
    intro p w _ h
    cases p <;> simp [valueAt, nodeAt] at h
  | node v l r ihl ihr =>
    intro p w hnd h
    simp only [treeMset, Multiset.nodup_cons, Multiset.nodup_add] at hnd
    obtain ⟨hvnotin, hndl, hndr, hdisj⟩ := hnd
    match p with
    | [] =>
      simp only [valueAt, nodeAt] at h
      simp only [Option.some.injEq] at h
      simp [findPath, h]
    | b :: bs =>
      simp only [valueAt, nodeAt] at h
      by_cases hb : b = true
      · subst hb
        simp only [if_pos rfl] at h
        have hwr : w ∈ treeMset r := valueAt_mem r bs w h
        have hvw : ¬(v = w) := fun he => hvnotin (by simp [he, hwr])
        have hwl : w ∉ treeMset l := fun hc => Multiset.disjoint_left.mp hdisj hc hwr
        simp [findPath, hvw, findPath_none_of_not_mem l w hwl, ihr bs w hndr h]
      · have hb' : b = false := by simpa using hb
        subst hb'
        simp only [Bool.false_eq_true, if_neg] at h
        have hwl : w ∈ treeMset l := valueAt_mem l bs w h
        have hvw : ¬(v = w) := fun he => hvnotin (by simp [he, hwl])
        simp [findPath, hvw, ihl bs w hndl h]

theorem log2_unique (s k : Nat) (h1 : 2 ^ k ≤ s) (h2 : s < 2 ^ (k + 1)) :
    Nat.log2 s = k := by
  have hs : s ≠ 0 := by
    have : 1 ≤ 2 ^ k := Nat.one_le_two_pow
    omega
  have ha := Nat.log2_self_le hs
  have hb := Nat.lt_log2_self (n := s)
  have hc : 2 ^ Nat.log2 s < 2 ^ (k + 1) := lt_of_le_of_lt ha h2
  have hd : 2 ^ k < 2 ^ (Nat.log2 s + 1) := lt_of_le_of_lt h1 hb
  have he : Nat.log2 s < k + 1 := (Nat.pow_lt_pow_iff_right (by omega)).mp hc
  have hf : k < Nat.log2 s + 1 := (Nat.pow_lt_pow_iff_right (by omega)).mp hd
  omega

theorem pathOfIdx_perfect (h : Nat) :
    pathOfIdx (2 ^ h - 1) = List.replicate h false := by
  induction h with
  | zero => norm_num [pathOfIdx]
  | succ k ih =>
    have h2 : 2 ^ (k + 1) - 1 = (2 ^ (k + 1) - 2) + 1 := by
      have : 2 ≤ 2 ^ (k + 1) := by
        have : (2 : Nat) ^ 1 ≤ 2 ^ (k + 1) := Nat.pow_le_pow_right (by omega) (by omega)
        simpa using this
      omega
    rw [h2, pathOfIdx]
    have h3 : (2 ^ (k + 1) - 2) / 2 = 2 ^ k - 1 := by
      have : 2 ^ (k + 1) = 2 * 2 ^ k := by rw [pow_succ]; ring
      omega
    have h4 : (2 ^ (k + 1) - 2 + 1) % 2 = 1 := by
      have : 2 ^ (k + 1) = 2 * 2 ^ k := by rw [pow_succ]; ring
      have h1 : 1 ≤ 2 ^ k := Nat.one_le_two_pow
      omega
    rw [h3, ih]
    simp [List.replicate_succ' k, h4]

theorem pathOfIdx_pow (k : Nat) (hk : 1 ≤ k) :
    pathOfIdx (2 ^ k) = List.replicate (k - 1) false ++ [true] := by
  have h2 : (2 : Nat) ^ k = (2 ^ k - 1) + 1 := by
    have : 1 ≤ 2 ^ k := Nat.one_le_two_pow
    omega
  rw [h2, pathOfIdx]
  have h3 : (2 ^ k - 1) / 2 = 2 ^ (k - 1) - 1 := by
    have : 2 ^ k = 2 * 2 ^ (k - 1) := by
      rw [← pow_succ']
      congr 1
      omega
    omega
  have h4 : (2 ^ k - 1 + 1) % 2 = 0 := by
    have : 2 ^ k = 2 * 2 ^ (k - 1) := by
      rw [← pow_succ']
      congr 1
      omega
    omega
  rw [h3, h4, pathOfIdx_perfect]
  simp

theorem pathOfIdx_rightmost (h : Nat) :
    pathOfIdx (2 ^ (h + 1) - 2) = List.replicate h true := by
  induction h with
  | zero => norm_num [pathOfIdx]
  | succ k ih =>
    have hp : 2 ^ (k + 2) = 2 * 2 ^ (k + 1) := by rw [pow_succ]; ring
    have h1 : 2 ≤ 2 ^ (k + 1) := by
      have : (2 : Nat) ^ 1 ≤ 2 ^ (k + 1) := Nat.pow_le_pow_right (by omega) (by omega)
      simpa using this
    have h2 : 2 ^ (k + 2) - 2 = (2 ^ (k + 2) - 3) + 1 := by omega
    rw [h2, pathOfIdx]
    have h3 : (2 ^ (k + 2) - 3) / 2 = 2 ^ (k + 1) - 2 := by omega
    have h4 : (2 ^ (k + 2) - 3 + 1) % 2 = 0 := by omega
    rw [h3, h4, ih]
    simp [List.replicate_succ' k]

theorem leftSize_eq_right (h s : Nat) (hh : 2 ≤ h) (h1 : 2 ^ (h - 1) ≤ s)
    (h2 : s ≤ 2 ^ h - 1) (h3 : 2 ^ (h - 2) ≤ s - (2 ^ (h - 1) - 1)) :
    leftSize s = 2 ^ (h - 1) - 1 := by
  have hl : Nat.log2 s = h - 1 := by
    refine log2_unique s (h - 1) h1 ?_
    have he : 2 ^ (h - 1 + 1) = 2 ^ h := by congr 1; omega
    have h0 : 1 ≤ 2 ^ h := Nat.one_le_two_pow
    omega
  unfold leftSize
  rw [hl]
  have e1 : 2 ^ (h - 1) = 2 * 2 ^ (h - 2) := by
    rw [← pow_succ']
    congr 1
    omega
  have e2 : (2 : Nat) ^ h = 2 * 2 ^ (h - 1) := by
    rw [← pow_succ']
    congr 1
    omega
  have hq : 1 ≤ (2 : Nat) ^ (h - 2) := Nat.one_le_two_pow
  simp only [e2, e1] at *
  omega

theorem leftSize_eq_left (h s : Nat) (hh : 2 ≤ h) (h1 : 2 ^ (h - 1) ≤ s)
    (h2 : s ≤ 2 ^ h - 1) (h3 : s - (2 ^ (h - 1) - 1) < 2 ^ (h - 2)) :
    leftSize s = 2 ^ (h - 2) - 1 + (s - (2 ^ (h - 1) - 1)) := by
  have hl : Nat.log2 s = h - 1 := by
    refine log2_unique s (h - 1) h1 ?_
    have he : 2 ^ (h - 1 + 1) = 2 ^ h := by congr 1; omega
    have h0 : 1 ≤ 2 ^ h := Nat.one_le_two_pow
    omega
  unfold leftSize
  rw [hl]
  have e1 : 2 ^ (h - 1) = 2 * 2 ^ (h - 2) := by
    rw [← pow_succ']
    congr 1
    omega
  have e2 : (2 : Nat) ^ h = 2 * 2 ^ (h - 1) := by
    rw [← pow_succ']
    congr 1
    omega
  have hq : 1 ≤ (2 : Nat) ^ (h - 2) := Nat.one_le_two_pow
  simp only [e2, e1] at *
  omega

theorem leftSize_one : leftSize 1 = 0 := by
  have hl : Nat.log2 1 = 0 := log2_unique 1 0 (by norm_num) (by norm_num)
  unfold leftSize
  rw [hl]
  norm_num

theorem leftSize_two : leftSize 2 = 1 := by
  have hl : Nat.log2 2 = 1 := log2_unique 2 1 (by norm_num) (by norm_num)
  unfold leftSize
  rw [hl]
  norm_num

theorem leftSize_three : leftSize 3 = 1 := by
  have hl : Nat.log2 3 = 1 := log2_unique 3 1 (by norm_num) (by norm_num)
  unfold leftSize
  rw [hl]
  norm_num

theorem pathOfIdx_decomp (s : Nat) :
    ∀ h : Nat, 2 ≤ h → 2 ^ (h - 1) ≤ s → s ≤ 2 ^ h - 2 →
    (2 ^ (h - 2) ≤ s - (2 ^ (h - 1) - 1) →
      pathOfIdx s = true :: pathOfIdx (s - 2 ^ (h - 1))) ∧
    (s - (2 ^ (h - 1) - 1) < 2 ^ (h - 2) →
      pathOfIdx s = false :: pathOfIdx (s - 2 ^ (h - 2))) := by
  induction s using Nat.strong_induction_on with
  | _ s ih =>
    intro h hh h1 h2
    have e3 : (2 : Nat) ^ (h - 1) = 2 * 2 ^ (h - 2) := by
      rw [← pow_succ']
      congr 1
      omega
    have e4 : (2 : Nat) ^ h = 2 * 2 ^ (h - 1) := by
      rw [← pow_succ']
      congr 1
      omega
    have hq1 : 1 ≤ (2 : Nat) ^ (h - 2) := Nat.one_le_two_pow
    by_cases hh2 : h = 2
    · subst hh2
      have hs2 : s = 2 := by norm_num at h1 h2; omega
      subst hs2
      constructor
      · intro _
        norm_num [pathOfIdx]
      · intro hc
        norm_num at hc
    · have hh3 : 3 ≤ h := by omega
      have e5 : (2 : Nat) ^ (h - 2) = 2 * 2 ^ (h - 3) := by
        rw [← pow_succ']
        congr 1
        omega
      have hq3 : 1 ≤ (2 : Nat) ^ (h - 3) := Nat.one_le_two_pow
      by_cases hsb : s = 2 ^ (h - 1)
      · subst hsb
        constructor
        · intro hc
          omega
        · intro _
          have hL : pathOfIdx (2 ^ (h - 1)) =
              List.replicate (h - 2) false ++ [true] :=
            pathOfIdx_pow (h - 1) (by omega)
          have hsub : 2 ^ (h - 1) - 2 ^ (h - 2) = 2 ^ (h - 2) := by omega
          have hR : pathOfIdx (2 ^ (h - 2)) =
              List.replicate (h - 3) false ++ [true] :=
            pathOfIdx_pow (h - 2) (by omega)
          rw [hL, hsub, hR]
          have : List.replicate (h - 2) false =
              false :: List.replicate (h - 3) false := by
            have : h - 2 = (h - 3) + 1 := by omega
            rw [this, List.replicate_succ]
          rw [this]
          simp
      · have hs1 : 2 ^ (h - 1) + 1 ≤ s := by omega
        obtain ⟨i, rfl⟩ : ∃ i, s = i + 1 := ⟨s - 1, by omega⟩
        have hm1 : 2 ^ (h - 2) ≤ i / 2 := by omega
        have hm2 : i / 2 ≤ 2 ^ (h - 1) - 2 := by omega
        have ihm := ih (i / 2) (by omega) (h - 1) (by omega)
          (by simpa [show h - 1 - 1 = h - 2 from by omega] using hm1)
          hm2
        rw [show h - 1 - 1 = h - 2 by omega, show h - 1 - 2 = h - 3 by omega]
          at ihm
        constructor
        · intro hc
          have hml := ihm.1 (by omega)
          rw [pathOfIdx, hml]
          have hs' : (i + 1) - 2 ^ (h - 1) = (i - 2 ^ (h - 1)) + 1 := by omega
          rw [hs', pathOfIdx]
          have hd1 : (i - 2 ^ (h - 1)) / 2 = i / 2 - 2 ^ (h - 2) := by omega
          have hd2 : (i - 2 ^ (h - 1) + 1) % 2 = (i + 1) % 2 := by omega
          rw [hd1, hd2]
          simp
        · intro hc
          have hml := ihm.2 (by omega)
          rw [pathOfIdx, hml]
          have hs' : (i + 1) - 2 ^ (h - 2) = (i - 2 ^ (h - 2)) + 1 := by omega
          rw [hs', pathOfIdx]
          have hd1 : (i - 2 ^ (h - 2)) / 2 = i / 2 - 2 ^ (h - 3) := by omega
          have hd2 : (i - 2 ^ (h - 2) + 1) % 2 = (i + 1) % 2 := by omega
          rw [hd1, hd2]
          simp

theorem isCpl_ne_leaf {V : Type} {t : HTree V} {n : Nat} (h : IsCpl t n)
    (hn : 1 ≤ n) : ∃ v l r, t = .node v l r := by
  match t with
  | .leaf => simp [IsCpl] at h; omega
  | .node v l r => exact ⟨v, l, r, rfl⟩

theorem leftSize_perfect (k : Nat) (hk : 1 ≤ k) :
    leftSize (2 ^ (k + 1) - 1) = 2 ^ k - 1 := by
  have h1 : (2 : Nat) ^ (k + 1) = 2 * 2 ^ k := by rw [pow_succ]; ring
  have hq : 1 ≤ (2 : Nat) ^ k := Nat.one_le_two_pow
  have h2 : (2 : Nat) ^ k = 2 * 2 ^ (k - 1) := by
    rw [← pow_succ']
    congr 1
    omega
  have hq1 : 1 ≤ (2 : Nat) ^ (k - 1) := Nat.one_le_two_pow
  have e1 : k + 1 - 1 = k := by omega
  have e2 : k + 1 - 2 = k - 1 := by omega
  have key := leftSize_eq_right (k + 1) (2 ^ (k + 1) - 1) (by omega)
    (by rw [e1]; omega) (by omega) (by rw [e1, e2]; omega)
  rw [e1] at key
  exact key

theorem whileLeftPath_perfect {V : Type} (k : Nat) :
    1 ≤ k → ∀ l : HTree V, IsCpl l (2 ^ k - 1) →
      whileLeftPath l = List.replicate (k - 1) false := by
  induction k with
  | zero => omega
  | succ k2 ih =>
    intro _ l hl
    have h2 : (2 : Nat) ^ (k2 + 1) = 2 * 2 ^ k2 := by rw [pow_succ]; ring
    have hq : 1 ≤ (2 : Nat) ^ k2 := Nat.one_le_two_pow
    obtain ⟨v, ll, lr, rfl⟩ := isCpl_ne_leaf hl (by omega)
    obtain ⟨_, hll, hlr⟩ := hl
    by_cases hk2 : k2 = 0
    · subst hk2
      have : leftSize (2 ^ 1 - 1) = 0 := leftSize_one
      rw [this] at hll
      have : ll = .leaf := by
        match ll with
        | .leaf => rfl
        | .node a b c => simp [IsCpl] at hll
      rw [this]
      simp [whileLeftPath]
    · have hls : leftSize (2 ^ (k2 + 1) - 1) = 2 ^ k2 - 1 :=
        leftSize_perfect k2 (by omega)
      rw [hls] at hll
      have h3 : (2 : Nat) ^ k2 = 2 * 2 ^ (k2 - 1) := by
        rw [← pow_succ']
        congr 1
        omega
      have hq2 : 1 ≤ (2 : Nat) ^ (k2 - 1) := Nat.one_le_two_pow
      obtain ⟨w, a, b, rfl⟩ := isCpl_ne_leaf hll (by omega)
      have ihw := ih (by omega) _ hll
      show false :: whileLeftPath (.node w a b) = _
      rw [ihw]
      have : k2 + 1 - 1 = (k2 - 1) + 1 := by omega
      rw [this, List.replicate_succ]

theorem getChildPath_spec {V : Type} (s : Nat) :
    ∀ (t : HTree V) (e : Nat), 1 ≤ s → e ≤ 1 → (e = 1 → s % 2 = 0) →
      IsCpl t (s + e) →
      ∃ p, getChildPath t s = some p ∧
        p ++ [decide (s % 2 = 0)] = pathOfIdx s := by
  induction s using Nat.strong_induction_on with
  | _ s ih =>
    intro t e hs he hpar hcpl
    obtain ⟨v, l, r, rfl⟩ := isCpl_ne_leaf hcpl (by omega)
    obtain ⟨i, rfl⟩ : ∃ i, s = i + 1 := ⟨s - 1, by omega⟩
    simp only [getChildPath]
    by_cases hlt : i + 1 < 3
    · rw [if_pos hlt]
      refine ⟨[], rfl, ?_⟩
      have : i = 0 ∨ i = 1 := by omega
      rcases this with rfl | rfl
      · norm_num [pathOfIdx]
      · norm_num [pathOfIdx]
    · rw [if_neg hlt]
      simp only [getHeight_eq, Nat.add_sub_cancel]
      set L := Nat.log2 (i + 1) with hLdef
      have hPle : 2 ^ L ≤ i + 1 := Nat.log2_self_le (by omega)
      have hPlt : i + 1 < 2 ^ (L + 1) := Nat.lt_log2_self
      have eP : (2 : Nat) ^ (L + 1) = 2 * 2 ^ L := by rw [pow_succ]; ring
      have hL1 : 1 ≤ L := by
        by_contra hc
        have hc0 : L = 0 := by omega
        rw [hc0] at hPlt
        norm_num at hPlt
        omega
      have eQ : (2 : Nat) ^ L = 2 * 2 ^ (L - 1) := by
        rw [← pow_succ']
        congr 1
        omega
      have hq : 1 ≤ (2 : Nat) ^ (L - 1) := Nat.one_le_two_pow
      have eidx : L + 1 - 2 = L - 1 := by omega
      simp only [eidx]
      obtain ⟨h1c, hl, hr⟩ := hcpl
      by_cases hperf : i + 1 = 2 ^ (L + 1) - 1
      · have hrow : (i + 1 - (2 ^ L - 1)) % 2 ^ L = 0 := by
          have : i + 1 - (2 ^ L - 1) = 2 ^ L := by omega
          rw [this, Nat.mod_self]
        rw [if_pos hrow]
        have he0 : e = 0 := by
          by_contra hc
          have : e = 1 := by omega
          have := hpar this
          omega
        have hlsz : leftSize (i + 1 + e) = 2 ^ L - 1 := by
          rw [he0, Nat.add_zero, hperf]
          exact leftSize_perfect L hL1
        rw [hlsz] at hl
        have hwl := whileLeftPath_perfect L hL1 l hl
        refine ⟨false :: whileLeftPath l, rfl, ?_⟩
        rw [hwl]
        have hodd : (i + 1) % 2 = 1 := by omega
        have h1 : decide ((i + 1) % 2 = 0) = false := by
          rw [hodd]
          decide
        rw [h1, hperf, pathOfIdx_perfect (L + 1)]
        have h2 : List.replicate (L + 1) false =
            (false :: List.replicate (L - 1) false) ++ [false] := by
          have e1 : L + 1 = 1 + ((L - 1) + 1) := by omega
          rw [e1, List.replicate_add]
          simp [List.replicate_succ']
        rw [h2]
      · have hrowlt : i + 1 - (2 ^ L - 1) < 2 ^ L := by omega
        have hrow : (i + 1 - (2 ^ L - 1)) % 2 ^ L = i + 1 - (2 ^ L - 1) :=
          Nat.mod_eq_of_lt hrowlt
        have hrow0 : ¬((i + 1 - (2 ^ L - 1)) % 2 ^ L = 0) := by
          rw [hrow]
          omega
        rw [if_neg hrow0]
        have hL2 : 2 ≤ L := by
          by_contra hc
          have hc1 : L = 1 := by omega
          rw [hc1] at hPle hPlt
          norm_num at hPle hPlt
          have : i + 1 = 3 := by omega
          rw [hc1] at hperf
          norm_num at hperf
          omega
        have eR : (2 : Nat) ^ (L - 1) = 2 * 2 ^ (L - 2) := by
          rw [← pow_succ']
          congr 1
          omega
        have hqr : 1 ≤ (2 : Nat) ^ (L - 2) := Nat.one_le_two_pow
        have hdecomp := pathOfIdx_decomp (i + 1) (L + 1) (by omega)
          (by simpa using hPle) (by omega)
        rw [Nat.add_sub_cancel, eidx] at hdecomp
        by_cases hdir : 2 ^ (L - 1) ≤ (i + 1 - (2 ^ L - 1)) % 2 ^ L
        · rw [if_pos hdir]
          rw [hrow] at hdir
          have hlsz : leftSize (i + 1 + e) = 2 ^ L - 1 := by
            have := leftSize_eq_right (L + 1) (i + 1 + e) (by omega)
              (by rw [Nat.add_sub_cancel]; omega) (by omega)
              (by rw [Nat.add_sub_cancel, eidx]; omega)
            rwa [Nat.add_sub_cancel] at this
          have hre : (i + 1 + e) - 1 - leftSize (i + 1 + e) =
              (i + 1 - 2 ^ L) + e := by
            rw [hlsz]
            omega
          rw [hre] at hr
          have ihr := ih (i + 1 - 2 ^ L) (by omega) r e (by omega) he
            (fun h1 => by have := hpar h1; omega) hr
          obtain ⟨p', hp'eq, hp'path⟩ := ihr
          refine ⟨true :: p', by rw [hp'eq]; rfl, ?_⟩
          have hpar2 : (i + 1 - 2 ^ L) % 2 = (i + 1) % 2 := by omega
          rw [hpar2] at hp'path
          have := hdecomp.1 (by omega)
          rw [this]
          rw [← hp'path]
          rfl
        · rw [if_neg hdir]
          rw [hrow] at hdir
          push_neg at hdir
          have hlsz : leftSize (i + 1 + e) = (i + 1 - 2 ^ (L - 1)) + e := by
            by_cases hbd : i + 1 + e - (2 ^ L - 1) < 2 ^ (L - 1)
            · have := leftSize_eq_left (L + 1) (i + 1 + e) (by omega)
                (by rw [Nat.add_sub_cancel]; omega) (by omega)
                (by rw [Nat.add_sub_cancel, eidx]; omega)
              rw [Nat.add_sub_cancel, eidx] at this
              rw [this]
              omega
            · have := leftSize_eq_right (L + 1) (i + 1 + e) (by omega)
                (by rw [Nat.add_sub_cancel]; omega) (by omega)
                (by rw [Nat.add_sub_cancel, eidx]; omega)
              rw [Nat.add_sub_cancel] at this
              rw [this]
              omega
          rw [hlsz] at hl
          have ihl := ih (i + 1 - 2 ^ (L - 1)) (by omega) l e (by omega) he
            (fun h1 => by have := hpar h1; omega) hl
          obtain ⟨p', hp'eq, hp'path⟩ := ihl
          refine ⟨false :: p', by rw [hp'eq]; rfl, ?_⟩
          have hpar2 : (i + 1 - 2 ^ (L - 1)) % 2 = (i + 1) % 2 := by omega
          rw [hpar2] at hp'path
          have := hdecomp.2 (by omega)
          rw [this]
          rw [← hp'path]
          rfl


theorem nodeAt_left {V : Type} (v : V) (l r : HTree V) (p : List Bool) :
    nodeAt (.node v l r) (false :: p) = nodeAt l p := by
  simp [nodeAt]

theorem nodeAt_right {V : Type} (v : V) (l r : HTree V) (p : List Bool) :
    nodeAt (.node v l r) (true :: p) = nodeAt r p := by
  simp [nodeAt]

theorem valueAt_left {V : Type} (v : V) (l r : HTree V) (p : List Bool) :
    valueAt (.node v l r) (false :: p) = valueAt l p := by
  simp [valueAt, nodeAt]

theorem valueAt_right {V : Type} (v : V) (l r : HTree V) (p : List Bool) :
    valueAt (.node v l r) (true :: p) = valueAt r p := by
  simp [valueAt, nodeAt]

theorem attachAt_left {V : Type} (v : V) (l r : HTree V) (p : List Bool)
    (x : V) :
    attachAt (.node v l r) (false :: p) x = .node v (attachAt l p x) r := by
  simp [attachAt]

theorem attachAt_right {V : Type} (v : V) (l r : HTree V) (p : List Bool)
    (x : V) :
    attachAt (.node v l r) (true :: p) x = .node v l (attachAt r p x) := by
  simp [attachAt]

/-- Attaching a fresh node at the level-order slot path `pathOfIdx s` of a
complete tree with `s` nodes: the path leads to an empty slot, and the
result is complete with `s + 1` nodes, holds the old values plus `x`, and
carries `x` at that path. -/
theorem attachAt_spec {V : Type} (s : Nat) :
    ∀ (t : HTree V) (x : V), IsCpl t s →
      nodeAt t (pathOfIdx s) = some .leaf ∧
      IsCpl (attachAt t (pathOfIdx s) x) (s + 1) ∧
      treeMset (attachAt t (pathOfIdx s) x) = x ::ₘ treeMset t ∧
      valueAt (attachAt t (pathOfIdx s) x) (pathOfIdx s) = some x := by
  induction s using Nat.strong_induction_on with
  | _ s ih =>
    intro t x hcpl
    rcases Nat.eq_zero_or_pos s with rfl | hs
    · have ht : t = .leaf := by
        cases t with
        | leaf => rfl
        | node v l r => exact absurd hcpl.1 (by omega)
      subst ht
      have hp0 : pathOfIdx 0 = [] := by simp [pathOfIdx]
      rw [hp0]
      exact ⟨rfl, ⟨by omega, by simp [IsCpl, leftSize_one],
        by simp [IsCpl, leftSize_one]⟩, by simp [treeMset], rfl⟩
    · obtain ⟨v, l, r, rfl⟩ := isCpl_ne_leaf hcpl (by omega)
      obtain ⟨h1c, hl, hr⟩ := hcpl
      set L := Nat.log2 s with hLdef
      have hPle : 2 ^ L ≤ s := Nat.log2_self_le (by omega)
      have hPlt : s < 2 ^ (L + 1) := Nat.lt_log2_self
      have eP : (2 : Nat) ^ (L + 1) = 2 * 2 ^ L := by rw [pow_succ]; ring
      have hqL : 1 ≤ (2 : Nat) ^ L := Nat.one_le_two_pow
      by_cases hperf : s = 2 ^ (L + 1) - 1
      · have hlsz : leftSize s = 2 ^ L - 1 := by
          rcases Nat.eq_zero_or_pos L with h0 | h1
          · rw [h0] at hperf
            norm_num at hperf
            rw [hperf, h0]
            norm_num [leftSize_one]
          · rw [hperf]
            exact leftSize_perfect L h1
        have hpath : pathOfIdx s = false :: pathOfIdx (2 ^ L - 1) := by
          rw [hperf, pathOfIdx_perfect (L + 1), List.replicate_succ,
            ← pathOfIdx_perfect L]
        rw [hlsz] at hl
        rw [show s - 1 - leftSize s = 2 ^ L - 1 from by rw [hlsz]; omega] at hr
        have ihl := ih (2 ^ L - 1) (by omega) l x hl
        obtain ⟨hn, hc, hm, hv⟩ := ihl
        have hlsz1 : leftSize (s + 1) = 2 ^ L := by
          rcases Nat.eq_zero_or_pos L with h0 | h1
          · rw [h0] at hperf
            norm_num at hperf
            rw [hperf, h0]
            norm_num [leftSize_two]
          · have eQ : (2 : Nat) ^ L = 2 * 2 ^ (L - 1) := by
              rw [← pow_succ']
              congr 1
              omega
            have hq1 : 1 ≤ (2 : Nat) ^ (L - 1) := Nat.one_le_two_pow
            have e1 : L + 2 - 1 = L + 1 := by omega
            have e2 : L + 2 - 2 = L := by omega
            have ePP : (2 : Nat) ^ (L + 2) = 2 * 2 ^ (L + 1) := by
              rw [pow_succ]; ring
            have key := leftSize_eq_left (L + 2) (s + 1) (by omega)
              (by rw [e1]; omega) (by omega) (by rw [e1, e2]; omega)
            rw [e1, e2] at key
            rw [key]
            omega
        rw [hpath, attachAt_left, nodeAt_left, valueAt_left]
        refine ⟨hn, ⟨by omega, ?_, ?_⟩, ?_, hv⟩
        · rw [hlsz1]
          have e3 : 2 ^ L - 1 + 1 = 2 ^ L := by omega
          rw [e3] at hc
          exact hc
        · rw [hlsz1]
          rw [show s + 1 - 1 - 2 ^ L = 2 ^ L - 1 from by omega]
          exact hr
        · simp only [treeMset, hm, Multiset.cons_add]
          rw [Multiset.cons_swap]
      · have hL1 : 1 ≤ L := by
          by_contra hc0
          have h0 : L = 0 := by omega
          rw [h0] at hPlt hperf
          norm_num at hPlt hperf
          omega
        have eQ : (2 : Nat) ^ L = 2 * 2 ^ (L - 1) := by
          rw [← pow_succ']
          congr 1
          omega
        have hq1 : 1 ≤ (2 : Nat) ^ (L - 1) := Nat.one_le_two_pow
        have eidx : L + 1 - 2 = L - 1 := by omega
        have hdecomp := pathOfIdx_decomp s (L + 1) (by omega)
          (by rw [Nat.add_sub_cancel]; omega) (by omega)
        rw [Nat.add_sub_cancel, eidx] at hdecomp
        by_cases hdir : 2 ^ (L - 1) ≤ s - (2 ^ L - 1)
        · have hpath := hdecomp.1 hdir
          have hlsz : leftSize s = 2 ^ L - 1 := by
            have := leftSize_eq_right (L + 1) s (by omega)
              (by rw [Nat.add_sub_cancel]; omega) (by omega)
              (by rw [Nat.add_sub_cancel, eidx]; omega)
            rwa [Nat.add_sub_cancel] at this
          rw [hlsz] at hl hr
          rw [show s - 1 - (2 ^ L - 1) = s - 2 ^ L from by omega] at hr
          have ihr := ih (s - 2 ^ L) (by omega) r x hr
          obtain ⟨hn, hc, hm, hv⟩ := ihr
          have hlsz1 : leftSize (s + 1) = 2 ^ L - 1 := by
            have := leftSize_eq_right (L + 1) (s + 1) (by omega)
              (by rw [Nat.add_sub_cancel]; omega) (by omega)
              (by rw [Nat.add_sub_cancel, eidx]; omega)
            rwa [Nat.add_sub_cancel] at this
          rw [hpath, attachAt_right, nodeAt_right, valueAt_right]
          refine ⟨hn, ⟨by omega, ?_, ?_⟩, ?_, hv⟩
          · rw [hlsz1]
            exact hl
          · rw [hlsz1]
            rw [show s + 1 - 1 - (2 ^ L - 1) = s - 2 ^ L + 1 from by omega]
            exact hc
          · simp only [treeMset, hm, Multiset.add_cons]
            rw [Multiset.cons_swap]
        · push_neg at hdir
          have hL2 : 2 ≤ L := by
            by_contra hc0
            have h1 : L = 1 := by omega
            rw [h1] at hdir hPle
            norm_num at hdir hPle
            omega
          have eR : (2 : Nat) ^ (L - 1) = 2 * 2 ^ (L - 2) := by
            rw [← pow_succ']
            congr 1
            omega
          have hq2 : 1 ≤ (2 : Nat) ^ (L - 2) := Nat.one_le_two_pow
          have hpath := hdecomp.2 hdir
          have hlsz : leftSize s = s - 2 ^ (L - 1) := by
            have := leftSize_eq_left (L + 1) s (by omega)
              (by rw [Nat.add_sub_cancel]; omega) (by omega)
              (by rw [Nat.add_sub_cancel, eidx]; omega)
            rw [Nat.add_sub_cancel, eidx] at this
            rw [this]
            omega
          rw [hlsz] at hl hr
          rw [show s - 1 - (s - 2 ^ (L - 1)) = 2 ^ (L - 1) - 1 from by omega]
            at hr
          have ihl := ih (s - 2 ^ (L - 1)) (by omega) l x hl
          obtain ⟨hn, hc, hm, hv⟩ := ihl
          have hlsz1 : leftSize (s + 1) = s - 2 ^ (L - 1) + 1 := by
            by_cases hbd : s + 1 - (2 ^ L - 1) < 2 ^ (L - 1)
            · have := leftSize_eq_left (L + 1) (s + 1) (by omega)
                (by rw [Nat.add_sub_cancel]; omega) (by omega)
                (by rw [Nat.add_sub_cancel, eidx]; omega)
              rw [Nat.add_sub_cancel, eidx] at this
              rw [this]
              omega
            · have := leftSize_eq_right (L + 1) (s + 1) (by omega)
                (by rw [Nat.add_sub_cancel]; omega) (by omega)
                (by rw [Nat.add_sub_cancel, eidx]; omega)
              rw [Nat.add_sub_cancel] at this
              rw [this]
              omega
          rw [hpath, attachAt_left, nodeAt_left, valueAt_left]
          refine ⟨hn, ⟨by omega, ?_, ?_⟩, ?_, hv⟩
          · rw [hlsz1]
            exact hc
          · rw [hlsz1]
            rw [show s + 1 - 1 - (s - 2 ^ (L - 1) + 1) = 2 ^ (L - 1) - 1
              from by omega]
            exact hr
          · simp only [treeMset, hm, Multiset.cons_add]
            rw [Multiset.cons_swap]

/-- Pointer-shape of a tree (values erased): the heap operations that only
move values around (`_swapVals`, `_swapWithParent` chains) preserve it. -/
def HShape {V : Type} : HTree V → HTree Unit
  | .leaf => .leaf
  | .node _ l r => .node () (HShape l) (HShape r)

theorem hShape_setValueAt {V : Type} : ∀ (t : HTree V) (p : List Bool) (y : V),
    HShape (setValueAt t p y) = HShape t := by
  intro t
  induction t with
  | leaf => intro p y; cases p <;> rfl
  | node v l r ihl ihr =>
    intro p y
    cases p with
    | nil => rfl
    | cons b bs => cases b <;> simp [setValueAt, HShape, ihl, ihr]

theorem isCpl_of_hShape {V W : Type} :
    ∀ (t : HTree V) (u : HTree W), HShape t = HShape u →
      ∀ n, IsCpl t n → IsCpl u n := by
  intro t
  induction t with
  | leaf =>
    intro u hsh n hc
    cases u with
    | leaf => exact hc
    | node w ul ur => simp [HShape] at hsh
  | node v l r ihl ihr =>
    intro u hsh n hc
    cases u with
    | leaf => simp [HShape] at hsh
    | node w ul ur =>
      simp only [HShape, HTree.node.injEq] at hsh
      obtain ⟨h1, hl, hr⟩ := hc
      exact ⟨h1, ihl ul hsh.2.1 _ hl, ihr ur hsh.2.2 _ hr⟩

theorem nodeAt_hShape {V W : Type} :
    ∀ (p : List Bool) (t : HTree V) (u : HTree W), HShape t = HShape u →
      Option.map HShape (nodeAt t p) = Option.map HShape (nodeAt u p) := by
  intro p
  induction p with
  | nil => intro t u hsh; simpa [nodeAt] using hsh
  | cons b bs ih =>
    intro t u hsh
    cases t with
    | leaf =>
      cases u with
      | leaf => rfl
      | node w ul ur => simp [HShape] at hsh
    | node v l r =>
      cases u with
      | leaf => simp [HShape] at hsh
      | node w ul ur =>
        simp only [HShape, HTree.node.injEq] at hsh
        cases b with
        | false => simpa [nodeAt] using ih l ul hsh.2.1
        | true => simpa [nodeAt] using ih r ur hsh.2.2

theorem hShape_leaf_pair {V : Type} (u : HTree V)
    (h : HShape u = .node () .leaf .leaf) : ∃ z, u = .node z .leaf .leaf := by
  cases u with
  | leaf => simp [HShape] at h
  | node w ul ur =>
    simp only [HShape, HTree.node.injEq] at h
    refine ⟨w, ?_⟩
    cases ul with
    | leaf =>
      cases ur with
      | leaf => rfl
      | node _ _ _ => simp [HShape] at h
    | node _ _ _ => simp [HShape] at h

theorem nodeAt_append {V : Type} :
    ∀ (p q : List Bool) (t : HTree V),
      nodeAt t (p ++ q) = (nodeAt t p).bind (fun u => nodeAt u q) := by
  intro p
  induction p with
  | nil => intro q t; simp [nodeAt]
  | cons b bs ih =>
    intro q t
    cases t with
    | leaf => simp [nodeAt]
    | node v l r => cases b <;> simp [nodeAt, ih]

theorem setValueAt_self {V : Type} :
    ∀ (p : List Bool) (t : HTree V) (x : V), valueAt t p = some x →
      setValueAt t p x = t := by
  intro p
  induction p with
  | nil =>
    intro t x h
    cases t with
    | leaf => simp [valueAt, nodeAt] at h
    | node v l r =>
      simp only [valueAt, nodeAt, Option.some.injEq] at h
      simp [setValueAt, h]
  | cons b bs ih =>
    intro t x h
    cases t with
    | leaf => simp [valueAt, nodeAt] at h
    | node v l r =>
      cases b with
      | false =>
        rw [valueAt_left] at h
        simp [setValueAt, ih l x h]
      | true =>
        rw [valueAt_right] at h
        simp [setValueAt, ih r x h]

theorem valueAt_setValueAt_self {V : Type} :
    ∀ (p : List Bool) (t : HTree V) (x w : V), valueAt t p = some w →
      valueAt (setValueAt t p x) p = some x := by
  intro p
  induction p with
  | nil =>
    intro t x w h
    cases t with
    | leaf => simp [valueAt, nodeAt] at h
    | node v l r => simp [setValueAt, valueAt, nodeAt]
  | cons b bs ih =>
    intro t x w h
    cases t with
    | leaf => simp [valueAt, nodeAt] at h
    | node v l r =>
      cases b with
      | false =>
        rw [valueAt_left] at h
        simp only [setValueAt]
        rw [if_neg (by simp)]
        rw [valueAt_left]
        exact ih l x w h
      | true =>
        rw [valueAt_right] at h
        simp only [setValueAt]
        rw [if_pos trivial]
        rw [valueAt_right]
        exact ih r x w h

theorem valueAt_setValueAt_ne {V : Type} :
    ∀ (d p : List Bool) (t : HTree V) (y : V), p ≠ d →
      valueAt (setValueAt t d y) p = valueAt t p := by
  intro d
  induction d with
  | nil =>
    intro p t y hne
    cases t with
    | leaf => rfl
    | node v l r =>
      cases p with
      | nil => exact absurd rfl hne
      | cons b bs =>
        cases b with
        | false => simp only [setValueAt]; rw [valueAt_left, valueAt_left]
        | true => simp only [setValueAt]; rw [valueAt_right, valueAt_right]
  | cons e ds ih =>
    intro p t y hne
    cases t with
    | leaf => rfl
    | node v l r =>
      cases p with
      | nil =>
        cases e <;> simp [setValueAt, valueAt, nodeAt]
      | cons b bs =>
        cases e with
        | false =>
          cases b with
          | false =>
            have hbs : bs ≠ ds := fun hc => hne (by rw [hc])
            simp only [setValueAt]
            rw [if_neg (by simp)]
            rw [valueAt_left, valueAt_left]
            exact ih bs l y hbs
          | true =>
            simp only [setValueAt]
            rw [if_neg (by simp)]
            rw [valueAt_right, valueAt_right]
        | true =>
          cases b with
          | false =>
            simp only [setValueAt]
            rw [if_pos trivial]
            rw [valueAt_left, valueAt_left]
          | true =>
            have hbs : bs ≠ ds := fun hc => hne (by rw [hc])
            simp only [setValueAt]
            rw [if_pos trivial]
            rw [valueAt_right, valueAt_right]
            exact ih bs r y hbs

theorem pathOfIdx_ne_nil (s : Nat) (hs : 1 ≤ s) : pathOfIdx s ≠ [] := by
  obtain ⟨i, rfl⟩ : ∃ i, s = i + 1 := ⟨s - 1, by omega⟩
  rw [pathOfIdx]
  simp

theorem pathOfIdx_concat (s : Nat) (hs : 1 ≤ s) :
    pathOfIdx s = (pathOfIdx s).dropLast ++ [decide (s % 2 = 0)] := by
  obtain ⟨i, rfl⟩ : ∃ i, s = i + 1 := ⟨s - 1, by omega⟩
  rw [pathOfIdx]
  simp

theorem pathOfIdx_sibling (s : Nat) (he : s % 2 = 0) (hs : 2 ≤ s) :
    pathOfIdx s = (pathOfIdx s).dropLast ++ [true] ∧
      pathOfIdx (s - 1) = (pathOfIdx s).dropLast ++ [false] := by
  obtain ⟨i, rfl⟩ : ∃ i, s = i + 1 := ⟨s - 1, by omega⟩
  obtain ⟨j, rfl⟩ : ∃ j, i = j + 1 := ⟨i - 1, by omega⟩
  constructor
  · rw [pathOfIdx, he]
    simp
  · have h1 : j + 1 + 1 - 1 = j + 1 := by omega
    rw [h1, pathOfIdx, pathOfIdx]
    have h2 : (j + 1) % 2 = 1 := by omega
    have h3 : j / 2 = (j + 1) / 2 := by omega
    rw [h2, h3]
    simp

theorem leftSize_pos (n : Nat) (hn : 2 ≤ n) : 1 ≤ leftSize n := by
  set L := Nat.log2 n with hL
  have hPle : 2 ^ L ≤ n := Nat.log2_self_le (by omega)
  have hPlt : n < 2 ^ (L + 1) := Nat.lt_log2_self
  have eP : (2 : Nat) ^ (L + 1) = 2 * 2 ^ L := by rw [pow_succ]; ring
  have hL1 : 1 ≤ L := by
    by_contra hc
    have h0 : L = 0 := by omega
    rw [h0] at hPlt
    norm_num at hPlt
    omega
  have eQ : (2 : Nat) ^ L = 2 * 2 ^ (L - 1) := by
    rw [← pow_succ']
    congr 1
    omega
  have hq : 1 ≤ (2 : Nat) ^ (L - 1) := Nat.one_le_two_pow
  unfold leftSize
  rw [← hL]
  omega

theorem rightSize_pos (n : Nat) (hn : 3 ≤ n) : 1 ≤ n - 1 - leftSize n := by
  set L := Nat.log2 n with hL
  have hPle : 2 ^ L ≤ n := Nat.log2_self_le (by omega)
  have hPlt : n < 2 ^ (L + 1) := Nat.lt_log2_self
  have eP : (2 : Nat) ^ (L + 1) = 2 * 2 ^ L := by rw [pow_succ]; ring
  have hL1 : 1 ≤ L := by
    by_contra hc
    have h0 : L = 0 := by omega
    rw [h0] at hPlt
    norm_num at hPlt
    omega
  have eQ : (2 : Nat) ^ L = 2 * 2 ^ (L - 1) := by
    rw [← pow_succ']
    congr 1
    omega
  by_cases hL2 : L = 1
  · rw [hL2] at hPle hPlt
    norm_num at hPle hPlt
    have h3 : n = 3 := by omega
    rw [h3, leftSize_three]
  · have eR : (2 : Nat) ^ (L - 1) = 2 * 2 ^ (L - 2) := by
      rw [← pow_succ']
      congr 1
      omega
    have hq : 1 ≤ (2 : Nat) ^ (L - 2) := Nat.one_le_two_pow
    unfold leftSize
    rw [← hL]
    omega

theorem isCpl_zero {V : Type} (t : HTree V) (h : IsCpl t 0) : t = .leaf := by
  cases t with
  | leaf => rfl
  | node v l r => exact absurd h.1 (by omega)

theorem isCpl_one {V : Type} (t : HTree V) (h : IsCpl t 1) :
    ∃ z, t = .node z .leaf .leaf := by
  cases t with
  | leaf => simp [IsCpl] at h
  | node v l r =>
    obtain ⟨-, hl, hr⟩ := h
    rw [leftSize_one] at hl hr
    rw [isCpl_zero l hl, isCpl_zero r (by simpa using hr)]
    exact ⟨v, rfl⟩

/-- `p` holds at every node of `t` except (possibly) the one at path `q`. -/
def HAllExcept {V : Type} (p : V → Prop) : HTree V → List Bool → Prop
  | .leaf, _ => True
  | .node _ l r, [] => HAll p l ∧ HAll p r
  | .node v l r, false :: bs => p v ∧ HAllExcept p l bs ∧ HAll p r
  | .node v l r, true :: bs => p v ∧ HAll p l ∧ HAllExcept p r bs

/-- Precondition of `_bubbleUp` at the start of the rise of value `x` from
the childless node at path `q`: heap order holds everywhere except on the
edges between `x`'s node and its ancestors. -/
def BubblePre {V K : Type} [LinearOrder K] (compF : V → K) (x : V) :
    HTree V → List Bool → Prop
  | t, [] => t = .node x .leaf .leaf
  | .leaf, _ :: _ => False
  | .node v l r, false :: bs =>
    BubblePre compF x l bs ∧ HAllExcept (fun y => compF v ≤ compF y) l bs ∧
      IsHeapT compF r ∧ HAll (fun y => compF v ≤ compF y) r
  | .node v l r, true :: bs =>
    IsHeapT compF l ∧ HAll (fun y => compF v ≤ compF y) l ∧
      BubblePre compF x r bs ∧ HAllExcept (fun y => compF v ≤ compF y) r bs

theorem hallExcept_of_hall {V : Type} (p : V → Prop) :
    ∀ (q : List Bool) (t : HTree V), HAll p t → HAllExcept p t q := by
  intro q
  induction q with
  | nil =>
    intro t h
    cases t with
    | leaf => trivial
    | node v l r => exact ⟨h.2.1, h.2.2⟩
  | cons b bs ih =>
    intro t h
    cases t with
    | leaf => trivial
    | node v l r =>
      cases b with
      | false => exact ⟨h.1, ih l h.2.1, h.2.2⟩
      | true => exact ⟨h.1, h.2.1, ih r h.2.2⟩

theorem hallExcept_attach {V : Type} (p : V → Prop) (x : V) :
    ∀ (q : List Bool) (t : HTree V), HAll p t →
      HAllExcept p (attachAt t q x) q := by
  intro q
  induction q with
  | nil =>
    intro t h
    have ha : attachAt t [] x = .node x .leaf .leaf := by cases t <;> rfl
    rw [ha]
    exact ⟨trivial, trivial⟩
  | cons b bs ih =>
    intro t h
    cases t with
    | leaf => trivial
    | node v l r =>
      cases b with
      | false =>
        rw [attachAt_left]
        exact ⟨h.1, ih l h.2.1, h.2.2⟩
      | true =>
        rw [attachAt_right]
        exact ⟨h.1, h.2.1, ih r h.2.2⟩

theorem hallExcept_set_hole {V : Type} (p : V → Prop) (y : V) :
    ∀ (q : List Bool) (t : HTree V), HAllExcept p t q →
      HAllExcept p (setValueAt t q y) q := by
  intro q
  induction q with
  | nil =>
    intro t h
    cases t with
    | leaf => trivial
    | node v l r => exact h
  | cons b bs ih =>
    intro t h
    cases t with
    | leaf => trivial
    | node v l r =>
      cases b with
      | false =>
        simp only [setValueAt, Bool.false_eq_true, if_neg]
        exact ⟨h.1, ih l h.2.1, h.2.2⟩
      | true =>
        simp only [setValueAt, if_pos trivial]
        exact ⟨h.1, h.2.1, ih r h.2.2⟩

theorem hallExcept_clear {V : Type} (p : V → Prop) :
    ∀ (q : List Bool) (side : Bool) (t : HTree V),
      HAllExcept p t (q ++ [side]) → HAll p (clearChildAt t q side) := by
  intro q
  induction q with
  | nil =>
    intro side t h
    cases t with
    | leaf => trivial
    | node v l r =>
      cases side with
      | false => exact ⟨h.1, trivial, h.2.2⟩
      | true => exact ⟨h.1, h.2.1, trivial⟩
  | cons b bs ih =>
    intro side t h
    cases t with
    | leaf => trivial
    | node v l r =>
      cases b with
      | false =>
        simp only [List.cons_append] at h
        exact ⟨h.1, ih side l h.2.1, h.2.2⟩
      | true =>
        simp only [List.cons_append] at h
        exact ⟨h.1, h.2.1, ih side r h.2.2⟩

theorem bubblePre_attach {V K : Type} [LinearOrder K] (compF : V → K)
    (x : V) :
    ∀ (q : List Bool) (t : HTree V), IsHeapT compF t →
      nodeAt t q = some .leaf → BubblePre compF x (attachAt t q x) q := by
  intro q
  induction q with
  | nil =>
    intro t hh hn
    simp only [nodeAt, Option.some.injEq] at hn
    subst hn
    exact rfl
  | cons b bs ih =>
    intro t hh hn
    cases t with
    | leaf => simp [nodeAt] at hn
    | node v l r =>
      cases b with
      | false =>
        rw [nodeAt_left] at hn
        rw [attachAt_left]
        exact ⟨ih l hh.2.2.1 hn, hallExcept_attach _ x bs l hh.1,
          hh.2.2.2, hh.2.1⟩
      | true =>
        rw [nodeAt_right] at hn
        rw [attachAt_right]
        exact ⟨hh.2.2.1, hh.1, ih r hh.2.2.2 hn,
          hallExcept_attach _ x bs r hh.2.1⟩

theorem bubblePre_set {V K : Type} [LinearOrder K] (compF : V → K)
    (y : V) :
    ∀ (q : List Bool) (t : HTree V) (w : V), IsHeapT compF t →
      nodeAt t q = some (.node w .leaf .leaf) →
      BubblePre compF y (setValueAt t q y) q := by
  intro q
  induction q with
  | nil =>
    intro t w hh hn
    simp only [nodeAt, Option.some.injEq] at hn
    subst hn
    exact rfl
  | cons b bs ih =>
    intro t w hh hn
    cases t with
    | leaf => simp [nodeAt] at hn
    | node v l r =>
      cases b with
      | false =>
        rw [nodeAt_left] at hn
        simp only [setValueAt, Bool.false_eq_true, if_neg]
        exact ⟨ih l w hh.2.2.1 hn,
          hallExcept_set_hole _ y bs l (hallExcept_of_hall _ bs l hh.1),
          hh.2.2.2, hh.2.1⟩
      | true =>
        rw [nodeAt_right] at hn
        simp only [setValueAt, if_pos trivial]
        exact ⟨hh.2.2.1, hh.1, ih r w hh.2.2.2 hn,
          hallExcept_set_hole _ y bs r (hallExcept_of_hall _ bs r hh.2.1)⟩

theorem bubblePre_clear {V K : Type} [LinearOrder K] (compF : V → K)
    (x : V) :
    ∀ (q : List Bool) (side : Bool) (t : HTree V),
      BubblePre compF x t (q ++ [side]) →
      IsHeapT compF (clearChildAt t q side) ∧
      nodeAt t (q ++ [side]) = some (.node x .leaf .leaf) := by
  intro q
  induction q with
  | nil =>
    intro side t h
    cases t with
    | leaf => exact absurd h (by cases side <;> simp [BubblePre])
    | node v l r =>
      cases side with
      | false =>
        obtain ⟨hl, _, hrh, hvr⟩ := h
        obtain ⟨lv, ll, lr, rfl⟩ : ∃ a b c, l = HTree.node a b c := by
          cases l with
          | leaf => exact absurd hl (by simp [BubblePre])
          | node a b c => exact ⟨a, b, c, rfl⟩
        have hl' : HTree.node lv ll lr = .node x .leaf .leaf := hl
        rw [hl']
        refine ⟨⟨trivial, hvr, trivial, hrh⟩, ?_⟩
        rw [show ([] ++ [false] : List Bool) = [false] from rfl, nodeAt_left]
        rfl
      | true =>
        obtain ⟨hlh, hvl, hr, _⟩ := h
        obtain ⟨rv, rl, rr, rfl⟩ : ∃ a b c, r = HTree.node a b c := by
          cases r with
          | leaf => exact absurd hr (by simp [BubblePre])
          | node a b c => exact ⟨a, b, c, rfl⟩
        have hr' : HTree.node rv rl rr = .node x .leaf .leaf := hr
        rw [hr']
        refine ⟨⟨hvl, trivial, hlh, trivial⟩, ?_⟩
        rw [show ([] ++ [true] : List Bool) = [true] from rfl, nodeAt_right]
        rfl
  | cons b q ih =>
    intro side t h
    cases t with
    | leaf => exact absurd h (by cases b <;> simp [BubblePre])
    | node v l r =>
      cases b with
      | false =>
        simp only [List.cons_append] at h
        obtain ⟨hsub, hexc, hrh, hvr⟩ := h
        have ihm := ih side l hsub
        refine ⟨⟨hallExcept_clear _ q side l hexc, hvr, ihm.1, hrh⟩, ?_⟩
        rw [List.cons_append, nodeAt_left]
        exact ihm.2
      | true =>
        simp only [List.cons_append] at h
        obtain ⟨hlh, hvl, hsub, hexc⟩ := h
        have ihm := ih side r hsub
        refine ⟨⟨hvl, hallExcept_clear _ q side r hexc, hlh, ihm.1⟩, ?_⟩
        rw [List.cons_append, nodeAt_right]
        exact ihm.2

theorem clear_mset {V : Type} :
    ∀ (q : List Bool) (side : Bool) (t : HTree V) (x : V),
      nodeAt t (q ++ [side]) = some (.node x .leaf .leaf) →
      treeMset t = x ::ₘ treeMset (clearChildAt t q side) := by
  intro q
  induction q with
  | nil =>
    intro side t x hn
    cases t with
    | leaf => simp [nodeAt] at hn
    | node v l r =>
      cases side with
      | false =>
        rw [show ([] ++ [false] : List Bool) = [false] from rfl,
          nodeAt_left] at hn
        simp only [nodeAt, Option.some.injEq] at hn
        subst hn
        simp only [clearChildAt, Bool.false_eq_true, if_neg, treeMset]
        simp only [← Multiset.singleton_add]
        abel
      | true =>
        rw [show ([] ++ [true] : List Bool) = [true] from rfl,
          nodeAt_right] at hn
        simp only [nodeAt, Option.some.injEq] at hn
        subst hn
        simp only [clearChildAt, if_pos trivial, treeMset]
        simp only [← Multiset.singleton_add]
        abel
  | cons b q ih =>
    intro side t x hn
    cases t with
    | leaf => simp [nodeAt] at hn
    | node v l r =>
      cases b with
      | false =>
        rw [List.cons_append, nodeAt_left] at hn
        simp only [clearChildAt, Bool.false_eq_true, if_neg, treeMset]
        rw [ih side l x hn]
        simp only [← Multiset.singleton_add]
        abel
      | true =>
        rw [List.cons_append, nodeAt_right] at hn
        simp only [clearChildAt, if_pos trivial, treeMset]
        rw [ih side r x hn]
        simp only [← Multiset.singleton_add]
        abel

theorem nodeAt_clear_self {V : Type} :
    ∀ (q : List Bool) (t : HTree V) (v : V) (l r : HTree V) (side : Bool),
      nodeAt t q = some (.node v l r) →
      nodeAt (clearChildAt t q side) q =
        some (if side then HTree.node v l .leaf else .node v .leaf r) := by
  intro q
  induction q with
  | nil =>
    intro t v l r side hn
    simp only [nodeAt, Option.some.injEq] at hn
    subst hn
    cases side <;> simp [clearChildAt, nodeAt]
  | cons b q ih =>
    intro t v l r side hn
    cases t with
    | leaf => simp [nodeAt] at hn
    | node w tl tr =>
      cases b with
      | false =>
        rw [nodeAt_left] at hn
        have hcl : clearChildAt (HTree.node w tl tr) (false :: q) side =
            .node w (clearChildAt tl q side) tr := by simp [clearChildAt]
        rw [hcl, nodeAt_left]
        exact ih tl v l r side hn
      | true =>
        rw [nodeAt_right] at hn
        have hcl : clearChildAt (HTree.node w tl tr) (true :: q) side =
            .node w tl (clearChildAt tr q side) := by simp [clearChildAt]
        rw [hcl, nodeAt_right]
        exact ih tr v l r side hn

theorem validateSub_iff {V K : Type} [LinearOrder K] (compF : V → K) :
    ∀ (t : HTree V) (k : K), validateSub compF t k = true ↔
      (HAll (fun y => k ≤ compF y) t ∧ IsHeapT compF t) := by
  intro t
  induction t with
  | leaf => intro k; simp [validateSub, HAll, IsHeapT]
  | node v l r ihl ihr =>
    intro k
    simp only [validateSub, Bool.and_eq_true, decide_eq_true_eq, ge_iff_le,
      ihl, ihr]
    constructor
    · rintro ⟨⟨hk, hl, hlh⟩, hr, hrh⟩
      exact ⟨⟨hk, HAll_mono (fun y hy => le_trans hk hy) l hl,
        HAll_mono (fun y hy => le_trans hk hy) r hr⟩, hl, hr, hlh, hrh⟩
    · rintro ⟨⟨hk, -, -⟩, hl, hr, hlh, hrh⟩
      exact ⟨⟨hk, hl, hlh⟩, hr, hrh⟩

theorem bubbleUpAux_nil {V K : Type} [LinearOrder K] (compF : V → K)
    (t : HTree V) : bubbleUpAux compF t [] = (t, true, none) := by
  cases t <;> rfl

theorem bubbleUpAux_cons_true {V K : Type} [LinearOrder K] (compF : V → K)
    (v : V) (l r : HTree V) (bs : List Bool) (r' : HTree V) (moving : Bool)
    (lu0 : Option V) (hrec : bubbleUpAux compF r bs = (r', moving, lu0)) :
    bubbleUpAux compF (.node v l r) (true :: bs) =
      if moving then
        match r' with
        | .node w rl rr =>
          if compF w < compF v then
            (.node w l (.node v rl rr), true, some (lu0.getD v))
          else (.node v l r', false, lu0)
        | .leaf => (.node v l r', false, lu0)
      else (.node v l r', false, lu0) := by
  cases lu0 <;> simp [bubbleUpAux, hrec, Option.getD]

theorem bubbleUpAux_cons_false {V K : Type} [LinearOrder K] (compF : V → K)
    (v : V) (l r : HTree V) (bs : List Bool) (l' : HTree V) (moving : Bool)
    (lu0 : Option V) (hrec : bubbleUpAux compF l bs = (l', moving, lu0)) :
    bubbleUpAux compF (.node v l r) (false :: bs) =
      if moving then
        match l' with
        | .node w ll lr =>
          if compF w < compF v then
            (.node w (.node v ll lr) r, true, some (lu0.getD v))
          else (.node v l' r, false, lu0)
        | .leaf => (.node v l' r, false, lu0)
      else (.node v l' r, false, lu0) := by
  cases lu0 <;> simp [bubbleUpAux, hrec, Option.getD]

theorem hallExcept_root {V : Type} (p : V → Prop) (v : V) (l r : HTree V)
    (b : Bool) (bs : List Bool) (h : HAllExcept p (.node v l r) (b :: bs)) :
    p v := by
  cases b <;> exact h.1

theorem bubblePre_ne_leaf {V K : Type} [LinearOrder K] (compF : V → K)
    (x : V) (t : HTree V) (b : Bool) (bs : List Bool)
    (h : BubblePre compF x t (b :: bs)) : ∃ w a c, t = .node w a c := by
  cases t with
  | leaf => exact absurd h (by cases b <;> simp [BubblePre])
  | node w a c => exact ⟨w, a, c, rfl⟩

theorem valueAt_root_irrel {V : Type} (v w : V) (l r : HTree V) (e : Bool)
    (es : List Bool) :
    valueAt (.node v l r) (e :: es) = valueAt (.node w l r) (e :: es) := by
  cases e
  · rw [valueAt_left, valueAt_left]
  · rw [valueAt_right, valueAt_right]

theorem bubbleUpAux_cons_true_nomove {V K : Type} [LinearOrder K]
    (compF : V → K) (v : V) (l r : HTree V) (bs : List Bool) (r' : HTree V)
    (lu0 : Option V) (hrec : bubbleUpAux compF r bs = (r', false, lu0)) :
    bubbleUpAux compF (.node v l r) (true :: bs) = (.node v l r', false, lu0) := by
  simp [bubbleUpAux, hrec]

theorem bubbleUpAux_cons_true_swap {V K : Type} [LinearOrder K]
    (compF : V → K) (v : V) (l r : HTree V) (bs : List Bool) (w : V)
    (rl rr : HTree V) (lu0 : Option V)
    (hrec : bubbleUpAux compF r bs = (.node w rl rr, true, lu0))
    (hcomp : compF w < compF v) :
    bubbleUpAux compF (.node v l r) (true :: bs) =
      (.node w l (.node v rl rr), true, some (lu0.getD v)) := by
  cases lu0 <;> simp [bubbleUpAux, hrec, hcomp, Option.getD]

theorem bubbleUpAux_cons_true_stop {V K : Type} [LinearOrder K]
    (compF : V → K) (v : V) (l r : HTree V) (bs : List Bool) (w : V)
    (rl rr : HTree V) (lu0 : Option V)
    (hrec : bubbleUpAux compF r bs = (.node w rl rr, true, lu0))
    (hcomp : ¬compF w < compF v) :
    bubbleUpAux compF (.node v l r) (true :: bs) =
      (.node v l (.node w rl rr), false, lu0) := by
  simp [bubbleUpAux, hrec, hcomp]

theorem bubbleUpAux_cons_false_nomove {V K : Type} [LinearOrder K]
    (compF : V → K) (v : V) (l r : HTree V) (bs : List Bool) (l' : HTree V)
    (lu0 : Option V) (hrec : bubbleUpAux compF l bs = (l', false, lu0)) :
    bubbleUpAux compF (.node v l r) (false :: bs) = (.node v l' r, false, lu0) := by
  simp [bubbleUpAux, hrec]

theorem bubbleUpAux_cons_false_swap {V K : Type} [LinearOrder K]
    (compF : V → K) (v : V) (l r : HTree V) (bs : List Bool) (w : V)
    (ll lr : HTree V) (lu0 : Option V)
    (hrec : bubbleUpAux compF l bs = (.node w ll lr, true, lu0))
    (hcomp : compF w < compF v) :
    bubbleUpAux compF (.node v l r) (false :: bs) =
      (.node w (.node v ll lr) r, true, some (lu0.getD v)) := by
  cases lu0 <;> simp [bubbleUpAux, hrec, hcomp, Option.getD]

theorem bubbleUpAux_cons_false_stop {V K : Type} [LinearOrder K]
    (compF : V → K) (v : V) (l r : HTree V) (bs : List Bool) (w : V)
    (ll lr : HTree V) (lu0 : Option V)
    (hrec : bubbleUpAux compF l bs = (.node w ll lr, true, lu0))
    (hcomp : ¬compF w < compF v) :
    bubbleUpAux compF (.node v l r) (false :: bs) =
      (.node v (.node w ll lr) r, false, lu0) := by
  simp [bubbleUpAux, hrec, hcomp]

/-- Full behaviour of `_bubbleUp` rising the value `x` from the childless
node at path `q` under the precondition `BubblePre`: the pointer shape and
value multiset are preserved, the result is a heap, the `moving` flag tells
whether `x` reached this subtree's root, `lu = none` means nothing moved,
the hole slot ends up holding the first displaced ancestor (or `x`), and
values at paths diverging from `q` are untouched. -/
theorem bubbleUpAux_spec {V K : Type} [LinearOrder K] (compF : V → K)
    (x : V) :
    ∀ (q : List Bool) (t t' : HTree V) (mv : Bool) (lu : Option V),
      BubblePre compF x t q → bubbleUpAux compF t q = (t', mv, lu) →
      HShape t' = HShape t ∧
      treeMset t' = treeMset t ∧
      IsHeapT compF t' ∧
      (mv = true → ∃ a b, t' = .node x a b) ∧
      (mv = false → ∀ v l r, t = .node v l r → ∃ a b, t' = .node v a b) ∧
      (lu = none → t' = t) ∧
      valueAt t' q = some (lu.getD x) ∧
      (mv = true → lu = none → q = []) ∧
      (∀ k : K, mv = true → HAllExcept (fun y => k ≤ compF y) t q →
        ∀ (z : V) (a b : HTree V), t' = .node z a b →
          HAll (fun y => k ≤ compF y) a ∧ HAll (fun y => k ≤ compF y) b) ∧
      (∀ k : K, HAllExcept (fun y => k ≤ compF y) t q → k ≤ compF x →
        HAll (fun y => k ≤ compF y) t') ∧
      (∀ d : List Bool, (∀ su, d ++ su ≠ q) → valueAt t' d = valueAt t d) := by
  intro q
  induction q with
  | nil =>
    intro t t' mv lu hpre heq
    have hpre' : t = .node x .leaf .leaf := by
      cases t with
      | leaf => exact hpre
      | node a b c => exact hpre
    subst hpre'
    rw [bubbleUpAux_nil] at heq
    simp only [Prod.mk.injEq] at heq
    obtain ⟨rfl, rfl, rfl⟩ := heq
    refine ⟨rfl, rfl, ⟨trivial, trivial, trivial, trivial⟩, ?_, ?_, ?_, rfl,
      ?_, ?_, ?_, ?_⟩
    · intro _
      exact ⟨.leaf, .leaf, rfl⟩
    · intro h
      exact absurd h (by simp)
    · intro _
      rfl
    · intro _ _
      rfl
    · intro k _ _ z a b hzb
      injection hzb with h1 h2 h3
      subst h1
      subst h2
      subst h3
      exact ⟨trivial, trivial⟩
    · intro k _ hkx
      exact ⟨hkx, trivial, trivial⟩
    · intro d _
      rfl
  | cons b bs ih =>
    intro t t' mv lu hpre heq
    obtain ⟨v, l, r, rfl⟩ := bubblePre_ne_leaf compF x t b bs hpre
    cases b with
    | true =>
      obtain ⟨hlh, hvl, hpr, hexc⟩ := hpre
      rcases hrec : bubbleUpAux compF r bs with ⟨r', moving, lu0⟩
      obtain ⟨ihShape, ihMset, ihHeap, ihMv, ihNmv, ihLu, ihVal, ihQnil,
        ihC8, ihC9, ihC10⟩ := ih r r' moving lu0 hpr hrec
      cases moving with
      | false =>
        rw [bubbleUpAux_cons_true_nomove compF v l r bs r' lu0 hrec] at heq
        simp only [Prod.mk.injEq] at heq
        obtain ⟨rfl, rfl, rfl⟩ := heq
        obtain ⟨e, es, rfl⟩ : ∃ e es, bs = e :: es := by
          cases bs with
          | nil =>
            rw [bubbleUpAux_nil] at hrec
            simp at hrec
          | cons e es => exact ⟨e, es, rfl⟩
        obtain ⟨w, rl0, rr0, rfl⟩ := bubblePre_ne_leaf compF x r e es hpr
        have hvw : compF v ≤ compF w := hallExcept_root _ w rl0 rr0 e es hexc
        obtain ⟨a2, b2, hr'⟩ := ihNmv rfl w rl0 rr0 rfl
        have hallr' : HAll (fun y => compF v ≤ compF y) r' := by
          rw [hr']
          exact HAll_mono (fun y hy => le_trans hvw hy) _
            (isHeapT_hall compF w a2 b2 (hr' ▸ ihHeap))
        refine ⟨?_, ?_, ?_, ?_, ?_, ?_, ?_, ?_, ?_, ?_, ?_⟩
        · simp only [HShape, ihShape]
        · simp only [treeMset, ihMset]
        · exact ⟨hvl, hallr', hlh, ihHeap⟩
        · intro h
          exact absurd h (by simp)
        · intro _ v0 l0 r0 h0
          injection h0 with h1 h2 h3
          subst h1
          exact ⟨l, r', rfl⟩
        · intro h
          rw [ihLu h]
        · rw [valueAt_right]
          exact ihVal
        · intro h
          exact absurd h (by simp)
        · intro k h
          exact absurd h (by simp)
        · intro k hke hkx
          exact ⟨hke.1, hke.2.1, ihC9 k hke.2.2 hkx⟩
        · intro d hd
          match d with
          | [] => exact (hd (true :: e :: es) (by simp)).elim
          | false :: ds => rw [valueAt_left, valueAt_left]
          | true :: ds =>
            rw [valueAt_right, valueAt_right]
            exact ihC10 ds (fun su hc => hd su (by simp [hc]))
      | true =>
        obtain ⟨a2, b2, hr'⟩ := ihMv rfl
        subst hr'
        by_cases hcomp : compF x < compF v
        · rw [bubbleUpAux_cons_true_swap compF v l r bs x a2 b2 lu0 hrec
            hcomp] at heq
          simp only [Prod.mk.injEq] at heq
          obtain ⟨rfl, rfl, rfl⟩ := heq
          have hxv : compF x ≤ compF v := le_of_lt hcomp
          have hC8v := ihC8 (compF v) rfl hexc x a2 b2 rfl
          refine ⟨?_, ?_, ?_, ?_, ?_, ?_, ?_, ?_, ?_, ?_, ?_⟩
          · have h := ihShape
            simp only [HShape] at h ⊢
            rw [h]
          · have h := ihMset
            simp only [treeMset] at h ⊢
            rw [← h]
            simp only [← Multiset.singleton_add]
            abel
          · exact ⟨HAll_mono (fun y hy => le_trans hxv hy) l hvl,
              ⟨hxv, ihHeap.1, ihHeap.2.1⟩, hlh,
              ⟨hC8v.1, hC8v.2, ihHeap.2.2.1, ihHeap.2.2.2⟩⟩
          · intro _
            exact ⟨l, .node v a2 b2, rfl⟩
          · intro h
            exact absurd h (by simp)
          · intro h
            exact absurd h (by simp)
          · simp only [Option.getD_some]
            rw [valueAt_right]
            cases lu0 with
            | none =>
              have hbs := ihQnil rfl rfl
              subst hbs
              rfl
            | some u =>
              obtain ⟨e, es, rfl⟩ : ∃ e es, bs = e :: es := by
                cases bs with
                | nil =>
                  rw [bubbleUpAux_nil] at hrec
                  simp at hrec
                | cons e es => exact ⟨e, es, rfl⟩
              rw [valueAt_root_irrel v x a2 b2 e es]
              exact ihVal
          · intro _ h
            exact absurd h (by simp)
          · intro k _ hke z a' b' hzb
            injection hzb with h1 h2 h3
            subst h1
            subst h2
            subst h3
            have hC8k := ihC8 k rfl hke.2.2 x a2 b2 rfl
            exact ⟨hke.2.1, hke.1, hC8k.1, hC8k.2⟩
          · intro k hke hkx
            have hC8k := ihC8 k rfl hke.2.2 x a2 b2 rfl
            exact ⟨hkx, hke.2.1, hke.1, hC8k.1, hC8k.2⟩
          · intro d hd
            match d with
            | [] => exact (hd (true :: bs) (by simp)).elim
            | false :: ds => rw [valueAt_left, valueAt_left]
            | true :: ds =>
              rw [valueAt_right, valueAt_right]
              match ds with
              | [] => exact (hd bs (by simp)).elim
              | e :: es =>
                rw [valueAt_root_irrel v x a2 b2 e es]
                exact ihC10 (e :: es) (fun su hc => hd su (by simp [hc]))
        · rw [bubbleUpAux_cons_true_stop compF v l r bs x a2 b2 lu0 hrec
            hcomp] at heq
          simp only [Prod.mk.injEq] at heq
          obtain ⟨rfl, rfl, rfl⟩ := heq
          have hvx : compF v ≤ compF x := le_of_not_lt hcomp
          have hallr' : HAll (fun y => compF v ≤ compF y) (.node x a2 b2) :=
            ihC9 (compF v) hexc hvx
          refine ⟨?_, ?_, ?_, ?_, ?_, ?_, ?_, ?_, ?_, ?_, ?_⟩
          · have h := ihShape
            simp only [HShape] at h ⊢
            rw [h]
          · have h := ihMset
            simp only [treeMset] at h ⊢
            rw [h]
          · exact ⟨hvl, hallr', hlh, ihHeap⟩
          · intro h
            exact absurd h (by simp)
          · intro _ v0 l0 r0 h0
            injection h0 with h1 h2 h3
            subst h1
            exact ⟨l, .node x a2 b2, rfl⟩
          · intro h
            rw [ihLu h]
          · rw [valueAt_right]
            exact ihVal
          · intro h
            exact absurd h (by simp)
          · intro k h
            exact absurd h (by simp)
          · intro k hke hkx
            exact ⟨hke.1, hke.2.1, ihC9 k hke.2.2 hkx⟩
          · intro d hd
            match d with
            | [] => exact (hd (true :: bs) (by simp)).elim
            | false :: ds => rw [valueAt_left, valueAt_left]
            | true :: ds =>
              rw [valueAt_right, valueAt_right]
              exact ihC10 ds (fun su hc => hd su (by simp [hc]))
    | false =>
      obtain ⟨hpl, hexc, hrh, hvr⟩ := hpre
      rcases hrec : bubbleUpAux compF l bs with ⟨l', moving, lu0⟩
      obtain ⟨ihShape, ihMset, ihHeap, ihMv, ihNmv, ihLu, ihVal, ihQnil,
        ihC8, ihC9, ihC10⟩ := ih l l' moving lu0 hpl hrec
      cases moving with
      | false =>
        rw [bubbleUpAux_cons_false_nomove compF v l r bs l' lu0 hrec] at heq
        simp only [Prod.mk.injEq] at heq
        obtain ⟨rfl, rfl, rfl⟩ := heq
        obtain ⟨e, es, rfl⟩ : ∃ e es, bs = e :: es := by
          cases bs with
          | nil =>
            rw [bubbleUpAux_nil] at hrec
            simp at hrec
          | cons e es => exact ⟨e, es, rfl⟩
        obtain ⟨w, ll0, lr0, rfl⟩ := bubblePre_ne_leaf compF x l e es hpl
        have hvw : compF v ≤ compF w := hallExcept_root _ w ll0 lr0 e es hexc
        obtain ⟨a2, b2, hl'⟩ := ihNmv rfl w ll0 lr0 rfl
        have halll' : HAll (fun y => compF v ≤ compF y) l' := by
          rw [hl']
          exact HAll_mono (fun y hy => le_trans hvw hy) _
            (isHeapT_hall compF w a2 b2 (hl' ▸ ihHeap))
        refine ⟨?_, ?_, ?_, ?_, ?_, ?_, ?_, ?_, ?_, ?_, ?_⟩
        · simp only [HShape, ihShape]
        · simp only [treeMset, ihMset]
        · exact ⟨halll', hvr, ihHeap, hrh⟩
        · intro h
          exact absurd h (by simp)
        · intro _ v0 l0 r0 h0
          injection h0 with h1 h2 h3
          subst h1
          exact ⟨l', r, rfl⟩
        · intro h
          rw [ihLu h]
        · rw [valueAt_left]
          exact ihVal
        · intro h
          exact absurd h (by simp)
        · intro k h
          exact absurd h (by simp)
        · intro k hke hkx
          exact ⟨hke.1, ihC9 k hke.2.1 hkx, hke.2.2⟩
        · intro d hd
          match d with
          | [] => exact (hd (false :: e :: es) (by simp)).elim
          | true :: ds => rw [valueAt_right, valueAt_right]
          | false :: ds =>
            rw [valueAt_left, valueAt_left]
            exact ihC10 ds (fun su hc => hd su (by simp [hc]))
      | true =>
        obtain ⟨a2, b2, hl'⟩ := ihMv rfl
        subst hl'
        by_cases hcomp : compF x < compF v
        · rw [bubbleUpAux_cons_false_swap compF v l r bs x a2 b2 lu0 hrec
            hcomp] at heq
          simp only [Prod.mk.injEq] at heq
          obtain ⟨rfl, rfl, rfl⟩ := heq
          have hxv : compF x ≤ compF v := le_of_lt hcomp
          have hC8v := ihC8 (compF v) rfl hexc x a2 b2 rfl
          refine ⟨?_, ?_, ?_, ?_, ?_, ?_, ?_, ?_, ?_, ?_, ?_⟩
          · have h := ihShape
            simp only [HShape] at h ⊢
            rw [h]
          · have h := ihMset
            simp only [treeMset] at h ⊢
            rw [← h]
            simp only [← Multiset.singleton_add]
            abel
          · exact ⟨⟨hxv, ihHeap.1, ihHeap.2.1⟩,
              HAll_mono (fun y hy => le_trans hxv hy) r hvr,
              ⟨hC8v.1, hC8v.2, ihHeap.2.2.1, ihHeap.2.2.2⟩, hrh⟩
          · intro _
            exact ⟨.node v a2 b2, r, rfl⟩
          · intro h
            exact absurd h (by simp)
          · intro h
            exact absurd h (by simp)
          · simp only [Option.getD_some]
            rw [valueAt_left]
            cases lu0 with
            | none =>
              have hbs := ihQnil rfl rfl
              subst hbs
              rfl
            | some u =>
              obtain ⟨e, es, rfl⟩ : ∃ e es, bs = e :: es := by
                cases bs with
                | nil =>
                  rw [bubbleUpAux_nil] at hrec
                  simp at hrec
                | cons e es => exact ⟨e, es, rfl⟩
              rw [valueAt_root_irrel v x a2 b2 e es]
              exact ihVal
          · intro _ h
            exact absurd h (by simp)
          · intro k _ hke z a' b' hzb
            injection hzb with h1 h2 h3
            subst h1
            subst h2
            subst h3
            have hC8k := ihC8 k rfl hke.2.1 x a2 b2 rfl
            exact ⟨⟨hke.1, hC8k.1, hC8k.2⟩, hke.2.2⟩
          · intro k hke hkx
            have hC8k := ihC8 k rfl hke.2.1 x a2 b2 rfl
            exact ⟨hkx, ⟨hke.1, hC8k.1, hC8k.2⟩, hke.2.2⟩
          · intro d hd
            match d with
            | [] => exact (hd (false :: bs) (by simp)).elim
            | true :: ds => rw [valueAt_right, valueAt_right]
            | false :: ds =>
              rw [valueAt_left, valueAt_left]
              match ds with
              | [] => exact (hd bs (by simp)).elim
              | e :: es =>
                rw [valueAt_root_irrel v x a2 b2 e es]
                exact ihC10 (e :: es) (fun su hc => hd su (by simp [hc]))
        · rw [bubbleUpAux_cons_false_stop compF v l r bs x a2 b2 lu0 hrec
            hcomp] at heq
          simp only [Prod.mk.injEq] at heq
          obtain ⟨rfl, rfl, rfl⟩ := heq
          have hvx : compF v ≤ compF x := le_of_not_lt hcomp
          have halll' : HAll (fun y => compF v ≤ compF y) (.node x a2 b2) :=
            ihC9 (compF v) hexc hvx
          refine ⟨?_, ?_, ?_, ?_, ?_, ?_, ?_, ?_, ?_, ?_, ?_⟩
          · have h := ihShape
            simp only [HShape] at h ⊢
            rw [h]
          · have h := ihMset
            simp only [treeMset] at h ⊢
            rw [h]
          · exact ⟨halll', hvr, ihHeap, hrh⟩
          · intro h
            exact absurd h (by simp)
          · intro _ v0 l0 r0 h0
            injection h0 with h1 h2 h3
            subst h1
            exact ⟨.node x a2 b2, r, rfl⟩
          · intro h
            rw [ihLu h]
          · rw [valueAt_left]
            exact ihVal
          · intro h
            exact absurd h (by simp)
          · intro k h
            exact absurd h (by simp)
          · intro k hke hkx
            exact ⟨hke.1, ihC9 k hke.2.1 hkx, hke.2.2⟩
          · intro d hd
            match d with
            | [] => exact (hd (false :: bs) (by simp)).elim
            | true :: ds => rw [valueAt_right, valueAt_right]
            | false :: ds =>
              rw [valueAt_left, valueAt_left]
              exact ihC10 ds (fun su hc => hd su (by simp [hc]))

theorem bubbleUpAux_leaf {V K : Type} [LinearOrder K] (compF : V → K)
    (b : Bool) (bs : List Bool) :
    bubbleUpAux compF (.leaf : HTree V) (b :: bs) = (.leaf, false, none) := by
  cases b <;> rfl

theorem bubbleUpAux_cons_true_leafmv {V K : Type} [LinearOrder K]
    (compF : V → K) (v : V) (l r : HTree V) (bs : List Bool)
    (lu0 : Option V) (hrec : bubbleUpAux compF r bs = (.leaf, true, lu0)) :
    bubbleUpAux compF (.node v l r) (true :: bs) =
      (.node v l .leaf, false, lu0) := by
  simp [bubbleUpAux, hrec]

theorem bubbleUpAux_cons_false_leafmv {V K : Type} [LinearOrder K]
    (compF : V → K) (v : V) (l r : HTree V) (bs : List Bool)
    (lu0 : Option V) (hrec : bubbleUpAux compF l bs = (.leaf, true, lu0)) :
    bubbleUpAux compF (.node v l r) (false :: bs) =
      (.node v .leaf r, false, lu0) := by
  simp [bubbleUpAux, hrec]

theorem setValueAt_cons {V : Type} (a : V) (l0 r0 : HTree V) (ph : Bool)
    (pt : List Bool) (y : V) :
    setValueAt (.node a l0 r0) (ph :: pt) y =
      if ph then .node a l0 (setValueAt r0 pt y)
      else .node a (setValueAt l0 pt y) r0 := by
  cases ph <;> simp [setValueAt]

/-- `_bubbleUp` along `q` commutes with overwriting the value at a path `d`
that diverges from `q` (common prefix `c`, then different turns): the rise
only reads and writes values at prefixes of `q`. -/
theorem bubbleUpAux_setValueAt_comm {V K : Type} [LinearOrder K]
    (compF : V → K) (y : V) :
    ∀ (c q2 d2 : List Bool) (qb db : Bool) (t t' : HTree V) (mv : Bool)
      (lu : Option V), db ≠ qb →
      bubbleUpAux compF t (c ++ qb :: q2) = (t', mv, lu) →
      bubbleUpAux compF (setValueAt t (c ++ db :: d2) y) (c ++ qb :: q2) =
        (setValueAt t' (c ++ db :: d2) y, mv, lu) := by
  intro c
  induction c with
  | nil =>
    intro q2 d2 qb db t t' mv lu hne heq
    simp only [List.nil_append] at heq ⊢
    cases t with
    | leaf =>
      rw [bubbleUpAux_leaf] at heq
      simp only [Prod.mk.injEq] at heq
      obtain ⟨rfl, rfl, rfl⟩ := heq
      rw [show setValueAt (.leaf : HTree V) (db :: d2) y = .leaf from rfl,
        bubbleUpAux_leaf]
    | node v l r =>
      cases qb with
      | true =>
        have hdb : db = false := by
          cases db
          · rfl
          · exact absurd rfl hne
        subst hdb
        rw [setValueAt_cons, if_neg (by simp)]
        rcases hrec : bubbleUpAux compF r q2 with ⟨r', moving, lu0⟩
        cases moving with
        | false =>
          rw [bubbleUpAux_cons_true_nomove compF v l r q2 r' lu0 hrec] at heq
          simp only [Prod.mk.injEq] at heq
          obtain ⟨rfl, rfl, rfl⟩ := heq
          rw [bubbleUpAux_cons_true_nomove compF v (setValueAt l d2 y) r q2
            r' lu0 hrec]
          rw [setValueAt_cons, if_neg (by simp)]
        | true =>
          cases r' with
          | leaf =>
            rw [bubbleUpAux_cons_true_leafmv compF v l r q2 lu0 hrec] at heq
            simp only [Prod.mk.injEq] at heq
            obtain ⟨rfl, rfl, rfl⟩ := heq
            rw [bubbleUpAux_cons_true_leafmv compF v (setValueAt l d2 y) r q2
              lu0 hrec]
            rw [setValueAt_cons, if_neg (by simp)]
          | node w rl rr =>
            by_cases hcomp : compF w < compF v
            · rw [bubbleUpAux_cons_true_swap compF v l r q2 w rl rr lu0 hrec
                hcomp] at heq
              simp only [Prod.mk.injEq] at heq
              obtain ⟨rfl, rfl, rfl⟩ := heq
              rw [bubbleUpAux_cons_true_swap compF v (setValueAt l d2 y) r q2
                w rl rr lu0 hrec hcomp]
              rw [setValueAt_cons, if_neg (by simp)]
            · rw [bubbleUpAux_cons_true_stop compF v l r q2 w rl rr lu0 hrec
                hcomp] at heq
              simp only [Prod.mk.injEq] at heq
              obtain ⟨rfl, rfl, rfl⟩ := heq
              rw [bubbleUpAux_cons_true_stop compF v (setValueAt l d2 y) r q2
                w rl rr lu0 hrec hcomp]
              rw [setValueAt_cons, if_neg (by simp)]
      | false =>
        have hdb : db = true := by
          cases db
          · exact absurd rfl hne
          · rfl
        subst hdb
        rw [setValueAt_cons, if_pos rfl]
        rcases hrec : bubbleUpAux compF l q2 with ⟨l', moving, lu0⟩
        cases moving with
        | false =>
          rw [bubbleUpAux_cons_false_nomove compF v l r q2 l' lu0 hrec] at heq
          simp only [Prod.mk.injEq] at heq
          obtain ⟨rfl, rfl, rfl⟩ := heq
          rw [bubbleUpAux_cons_false_nomove compF v l (setValueAt r d2 y) q2
            l' lu0 hrec]
          rw [setValueAt_cons, if_pos rfl]
        | true =>
          cases l' with
          | leaf =>
            rw [bubbleUpAux_cons_false_leafmv compF v l r q2 lu0 hrec] at heq
            simp only [Prod.mk.injEq] at heq
            obtain ⟨rfl, rfl, rfl⟩ := heq
            rw [bubbleUpAux_cons_false_leafmv compF v l (setValueAt r d2 y) q2
              lu0 hrec]
            rw [setValueAt_cons, if_pos rfl]
          | node w ll lr =>
            by_cases hcomp : compF w < compF v
            · rw [bubbleUpAux_cons_false_swap compF v l r q2 w ll lr lu0 hrec
                hcomp] at heq
              simp only [Prod.mk.injEq] at heq
              obtain ⟨rfl, rfl, rfl⟩ := heq
              rw [bubbleUpAux_cons_false_swap compF v l (setValueAt r d2 y) q2
                w ll lr lu0 hrec hcomp]
              rw [setValueAt_cons, if_pos rfl]
            · rw [bubbleUpAux_cons_false_stop compF v l r q2 w ll lr lu0 hrec
                hcomp] at heq
              simp only [Prod.mk.injEq] at heq
              obtain ⟨rfl, rfl, rfl⟩ := heq
              rw [bubbleUpAux_cons_false_stop compF v l (setValueAt r d2 y) q2
                w ll lr lu0 hrec hcomp]
              rw [setValueAt_cons, if_pos rfl]
  | cons cb cs ih =>
    intro q2 d2 qb db t t' mv lu hne heq
    simp only [List.cons_append] at heq ⊢
    cases t with
    | leaf =>
      rw [bubbleUpAux_leaf] at heq
      simp only [Prod.mk.injEq] at heq
      obtain ⟨rfl, rfl, rfl⟩ := heq
      rw [show setValueAt (.leaf : HTree V) (cb :: (cs ++ db :: d2)) y = .leaf
        from rfl, bubbleUpAux_leaf]
    | node v l r =>
      obtain ⟨p0h, p0t, hP0⟩ : ∃ h0 t0, cs ++ db :: d2 = h0 :: t0 := by
        cases cs with
        | nil => exact ⟨db, d2, rfl⟩
        | cons c1 cs' => exact ⟨c1, cs' ++ db :: d2, rfl⟩
      cases cb with
      | true =>
        rw [setValueAt_cons, if_pos rfl]
        rcases hrec : bubbleUpAux compF r (cs ++ qb :: q2) with ⟨r', moving, lu0⟩
        have hrecs := ih q2 d2 qb db r r' moving lu0 hne hrec
        cases moving with
        | false =>
          rw [bubbleUpAux_cons_true_nomove compF v l r _ r' lu0 hrec] at heq
          simp only [Prod.mk.injEq] at heq
          obtain ⟨rfl, rfl, rfl⟩ := heq
          rw [bubbleUpAux_cons_true_nomove compF v l
            (setValueAt r (cs ++ db :: d2) y) _ (setValueAt r' (cs ++ db :: d2) y)
            lu0 hrecs]
          rw [setValueAt_cons, if_pos rfl]
        | true =>
          cases r' with
          | leaf =>
            rw [bubbleUpAux_cons_true_leafmv compF v l r _ lu0 hrec] at heq
            simp only [Prod.mk.injEq] at heq
            obtain ⟨rfl, rfl, rfl⟩ := heq
            rw [show setValueAt (.leaf : HTree V) (cs ++ db :: d2) y = .leaf
              from by rw [hP0]; rfl] at hrecs
            rw [bubbleUpAux_cons_true_leafmv compF v l
              (setValueAt r (cs ++ db :: d2) y) _ lu0 hrecs]
            rw [setValueAt_cons, if_pos rfl]
            rw [show setValueAt (.leaf : HTree V) (cs ++ db :: d2) y = .leaf
              from by rw [hP0]; rfl]
          | node w rl rr =>
            rw [hP0] at hrecs ⊢
            rw [setValueAt_cons] at hrecs
            cases p0h with
            | false =>
              rw [if_neg (by simp)] at hrecs
              by_cases hcomp : compF w < compF v
              · rw [bubbleUpAux_cons_true_swap compF v l r _ w rl rr lu0 hrec
                  hcomp] at heq
                simp only [Prod.mk.injEq] at heq
                obtain ⟨rfl, rfl, rfl⟩ := heq
                rw [bubbleUpAux_cons_true_swap compF v l
                  (setValueAt r (false :: p0t) y) _ w (setValueAt rl p0t y) rr
                  lu0 hrecs hcomp]
                rw [setValueAt_cons, if_pos rfl, setValueAt_cons,
                  if_neg (by simp)]
              · rw [bubbleUpAux_cons_true_stop compF v l r _ w rl rr lu0 hrec
                  hcomp] at heq
                simp only [Prod.mk.injEq] at heq
                obtain ⟨rfl, rfl, rfl⟩ := heq
                rw [bubbleUpAux_cons_true_stop compF v l
                  (setValueAt r (false :: p0t) y) _ w (setValueAt rl p0t y) rr
                  lu0 hrecs hcomp]
                rw [setValueAt_cons, if_pos rfl, setValueAt_cons,
                  if_neg (by simp)]
            | true =>
              rw [if_pos rfl] at hrecs
              by_cases hcomp : compF w < compF v
              · rw [bubbleUpAux_cons_true_swap compF v l r _ w rl rr lu0 hrec
                  hcomp] at heq
                simp only [Prod.mk.injEq] at heq
                obtain ⟨rfl, rfl, rfl⟩ := heq
                rw [bubbleUpAux_cons_true_swap compF v l
                  (setValueAt r (true :: p0t) y) _ w rl (setValueAt rr p0t y)
                  lu0 hrecs hcomp]
                rw [setValueAt_cons, if_pos rfl, setValueAt_cons,
                  if_pos rfl]
              · rw [bubbleUpAux_cons_true_stop compF v l r _ w rl rr lu0 hrec
                  hcomp] at heq
                simp only [Prod.mk.injEq] at heq
                obtain ⟨rfl, rfl, rfl⟩ := heq
                rw [bubbleUpAux_cons_true_stop compF v l
                  (setValueAt r (true :: p0t) y) _ w rl (setValueAt rr p0t y)
                  lu0 hrecs hcomp]
                rw [setValueAt_cons, if_pos rfl, setValueAt_cons,
                  if_pos rfl]
      | false =>
        rw [setValueAt_cons, if_neg (by simp)]
        rcases hrec : bubbleUpAux compF l (cs ++ qb :: q2) with ⟨l', moving, lu0⟩
        have hrecs := ih q2 d2 qb db l l' moving lu0 hne hrec
        cases moving with
        | false =>
          rw [bubbleUpAux_cons_false_nomove compF v l r _ l' lu0 hrec] at heq
          simp only [Prod.mk.injEq] at heq
          obtain ⟨rfl, rfl, rfl⟩ := heq
          rw [bubbleUpAux_cons_false_nomove compF v
            (setValueAt l (cs ++ db :: d2) y) r _
            (setValueAt l' (cs ++ db :: d2) y) lu0 hrecs]
          rw [setValueAt_cons, if_neg (by simp)]
        | true =>
          cases l' with
          | leaf =>
            rw [bubbleUpAux_cons_false_leafmv compF v l r _ lu0 hrec] at heq
            simp only [Prod.mk.injEq] at heq
            obtain ⟨rfl, rfl, rfl⟩ := heq
            rw [show setValueAt (.leaf : HTree V) (cs ++ db :: d2) y = .leaf
              from by rw [hP0]; rfl] at hrecs
            rw [bubbleUpAux_cons_false_leafmv compF v
              (setValueAt l (cs ++ db :: d2) y) r _ lu0 hrecs]
            rw [setValueAt_cons, if_neg (by simp)]
            rw [show setValueAt (.leaf : HTree V) (cs ++ db :: d2) y = .leaf
              from by rw [hP0]; rfl]
          | node w ll lr =>
            rw [hP0] at hrecs ⊢
            rw [setValueAt_cons] at hrecs
            cases p0h with
            | false =>
              rw [if_neg (by simp)] at hrecs
              by_cases hcomp : compF w < compF v
              · rw [bubbleUpAux_cons_false_swap compF v l r _ w ll lr lu0 hrec
                  hcomp] at heq
                simp only [Prod.mk.injEq] at heq
                obtain ⟨rfl, rfl, rfl⟩ := heq
                rw [bubbleUpAux_cons_false_swap compF v
                  (setValueAt l (false :: p0t) y) r _ w (setValueAt ll p0t y) lr
                  lu0 hrecs hcomp]
                rw [setValueAt_cons, if_neg (by simp), setValueAt_cons,
                  if_neg (by simp)]
              · rw [bubbleUpAux_cons_false_stop compF v l r _ w ll lr lu0 hrec
                  hcomp] at heq
                simp only [Prod.mk.injEq] at heq
                obtain ⟨rfl, rfl, rfl⟩ := heq
                rw [bubbleUpAux_cons_false_stop compF v
                  (setValueAt l (false :: p0t) y) r _ w (setValueAt ll p0t y) lr
                  lu0 hrecs hcomp]
                rw [setValueAt_cons, if_neg (by simp), setValueAt_cons,
                  if_neg (by simp)]
            | true =>
              rw [if_pos rfl] at hrecs
              by_cases hcomp : compF w < compF v
              · rw [bubbleUpAux_cons_false_swap compF v l r _ w ll lr lu0 hrec
                  hcomp] at heq
                simp only [Prod.mk.injEq] at heq
                obtain ⟨rfl, rfl, rfl⟩ := heq
                rw [bubbleUpAux_cons_false_swap compF v
                  (setValueAt l (true :: p0t) y) r _ w ll (setValueAt lr p0t y)
                  lu0 hrecs hcomp]
                rw [setValueAt_cons, if_neg (by simp), setValueAt_cons,
                  if_pos rfl]
              · rw [bubbleUpAux_cons_false_stop compF v l r _ w ll lr lu0 hrec
                  hcomp] at heq
                simp only [Prod.mk.injEq] at heq
                obtain ⟨rfl, rfl, rfl⟩ := heq
                rw [bubbleUpAux_cons_false_stop compF v
                  (setValueAt l (true :: p0t) y) r _ w ll (setValueAt lr p0t y)
                  lu0 hrecs hcomp]
                rw [setValueAt_cons, if_neg (by simp), setValueAt_cons,
                  if_pos rfl]

/-- Structure of a complete tree around its last level-order slot `s` (tree
size `s + 1`): the parent of the slot, the sibling situation by parity, and
completeness of the tree obtained by detaching the slot. -/
theorem isCpl_detach_spec {V : Type} (s : Nat) :
    ∀ t : HTree V, 1 ≤ s → IsCpl t (s + 1) →
      ∃ pv pl pr,
        nodeAt t ((pathOfIdx s).dropLast) = some (.node pv pl pr) ∧
        (s % 2 = 0 →
          (∃ z, pr = .node z .leaf .leaf) ∧ (∃ z a b, pl = .node z a b)) ∧
        (s % 2 = 1 → (∃ z, pl = .node z .leaf .leaf) ∧ pr = .leaf) ∧
        IsCpl (clearChildAt t (pathOfIdx s).dropLast (decide (s % 2 = 0))) s := by
  induction s using Nat.strong_induction_on with
  | _ s ih =>
    intro t hs hcpl
    obtain ⟨v, l, r, rfl⟩ := isCpl_ne_leaf hcpl (by omega)
    obtain ⟨h1c, hl, hr⟩ := hcpl
    by_cases hs1 : s = 1
    · subst hs1
      rw [leftSize_two] at hl hr
      obtain ⟨z, rfl⟩ := isCpl_one l hl
      have hr0 : r = .leaf := isCpl_zero r (by simpa using hr)
      subst hr0
      have hp : pathOfIdx 1 = [false] := by norm_num [pathOfIdx]
      rw [hp]
      have hside : decide (1 % 2 = 0) = false := by norm_num
      rw [hside]
      refine ⟨v, .node z .leaf .leaf, .leaf, rfl, ?_, ?_, ?_⟩
      · intro h
        exact absurd h (by norm_num)
      · intro _
        exact ⟨⟨z, rfl⟩, rfl⟩
      · exact ⟨le_refl 1, by simp [IsCpl, leftSize_one],
          by simp [IsCpl, leftSize_one]⟩
    · by_cases hs2 : s = 2
      · subst hs2
        rw [leftSize_three] at hl hr
        obtain ⟨z1, rfl⟩ := isCpl_one l hl
        obtain ⟨z, rfl⟩ := isCpl_one r (by simpa using hr)
        have hp : pathOfIdx 2 = [true] := by norm_num [pathOfIdx]
        rw [hp]
        have hside : decide (2 % 2 = 0) = true := by norm_num
        rw [hside]
        refine ⟨v, .node z1 .leaf .leaf, .node z .leaf .leaf, rfl, ?_, ?_, ?_⟩
        · intro _
          exact ⟨⟨z, rfl⟩, ⟨z1, .leaf, .leaf, rfl⟩⟩
        · intro h
          exact absurd h (by norm_num)
        · refine ⟨by omega, ?_, ?_⟩
          · rw [leftSize_two]
            exact ⟨by omega, by simp [IsCpl, leftSize_one],
              by simp [IsCpl, leftSize_one]⟩
          · rw [leftSize_two]
            simp [IsCpl]
      · have hs3 : 3 ≤ s := by omega
        set L := Nat.log2 s with hLdef
        have hPle : 2 ^ L ≤ s := Nat.log2_self_le (by omega)
        have hPlt : s < 2 ^ (L + 1) := Nat.lt_log2_self
        have eP : (2 : Nat) ^ (L + 1) = 2 * 2 ^ L := by rw [pow_succ]; ring
        have hqL : 1 ≤ (2 : Nat) ^ L := Nat.one_le_two_pow
        have hL1 : 1 ≤ L := by
          by_contra hc
          have h0 : L = 0 := by omega
          rw [h0] at hPlt
          norm_num at hPlt
          omega
        have eQ : (2 : Nat) ^ L = 2 * 2 ^ (L - 1) := by
          rw [← pow_succ']
          congr 1
          omega
        have hq1 : 1 ≤ (2 : Nat) ^ (L - 1) := Nat.one_le_two_pow
        by_cases hperf : s = 2 ^ (L + 1) - 1
        · have hodd : s % 2 = 1 := by omega
          have hs' : 1 ≤ 2 ^ L - 1 := by omega
          have hlsz1 : leftSize (s + 1) = 2 ^ L := by
            have e1 : L + 2 - 1 = L + 1 := by omega
            have e2 : L + 2 - 2 = L := by omega
            have ePP : (2 : Nat) ^ (L + 2) = 2 * 2 ^ (L + 1) := by
              rw [pow_succ]; ring
            have key := leftSize_eq_left (L + 2) (s + 1) (by omega)
              (by rw [e1]; omega) (by omega) (by rw [e1, e2]; omega)
            rw [e1, e2] at key
            rw [key]
            omega
          rw [hlsz1] at hl hr
          have hlrw : (2 : Nat) ^ L = (2 ^ L - 1) + 1 := by omega
          rw [hlrw] at hl
          have ihm := ih (2 ^ L - 1) (by omega) l hs' hl
          obtain ⟨pv, pl, pr, hn, hev, hod, hclr⟩ := ihm
          have hpath : pathOfIdx s = false :: pathOfIdx (2 ^ L - 1) := by
            rw [hperf, pathOfIdx_perfect (L + 1), List.replicate_succ,
              ← pathOfIdx_perfect L]
          have hodd' : (2 ^ L - 1) % 2 = 1 := by omega
          have hconc := pathOfIdx_concat (2 ^ L - 1) hs'
          have hdrop : (pathOfIdx s).dropLast =
              false :: (pathOfIdx (2 ^ L - 1)).dropLast := by
            rw [hpath]
            conv_lhs => rw [hconc]
            rw [← List.cons_append, List.dropLast_concat]
          have hside : decide (s % 2 = 0) = decide ((2 ^ L - 1) % 2 = 0) := by
            rw [hodd, hodd']
          refine ⟨pv, pl, pr, ?_, ?_, ?_, ?_⟩
          · rw [hdrop, nodeAt_left]
            exact hn
          · intro h
            exact absurd h (by omega)
          · intro _
            exact hod hodd'
          · rw [hdrop, hside]
            have hcl : clearChildAt (HTree.node v l r)
                (false :: (pathOfIdx (2 ^ L - 1)).dropLast)
                (decide ((2 ^ L - 1) % 2 = 0)) =
                .node v (clearChildAt l (pathOfIdx (2 ^ L - 1)).dropLast
                  (decide ((2 ^ L - 1) % 2 = 0))) r := by
              simp [clearChildAt]
            rw [hcl]
            have hlszs : leftSize s = 2 ^ L - 1 := by
              rw [hperf]
              exact leftSize_perfect L hL1
            refine ⟨by omega, ?_, ?_⟩
            · rw [hlszs]
              exact hclr
            · rw [hlszs]
              rw [show s - 1 - (2 ^ L - 1) = s + 1 - 1 - 2 ^ L from by omega]
              exact hr
        · have hL2 : 2 ≤ L := by
            by_contra hc
            have h1 : L = 1 := by omega
            rw [h1] at hPle hPlt hperf
            norm_num at hPle hPlt hperf
            omega
          have eR : (2 : Nat) ^ (L - 1) = 2 * 2 ^ (L - 2) := by
            rw [← pow_succ']
            congr 1
            omega
          have hq2 : 1 ≤ (2 : Nat) ^ (L - 2) := Nat.one_le_two_pow
          have eidx : L + 1 - 2 = L - 1 := by omega
          have hdecomp := pathOfIdx_decomp s (L + 1) (by omega)
            (by rw [Nat.add_sub_cancel]; omega) (by omega)
          rw [Nat.add_sub_cancel, eidx] at hdecomp
          by_cases hdir : 2 ^ (L - 1) ≤ s - (2 ^ L - 1)
          · have hpath := hdecomp.1 hdir
            have hs'1 : 1 ≤ s - 2 ^ L := by omega
            have hpar : (s - 2 ^ L) % 2 = s % 2 := by omega
            have hlsz1 : leftSize (s + 1) = 2 ^ L - 1 := by
              have := leftSize_eq_right (L + 1) (s + 1) (by omega)
                (by rw [Nat.add_sub_cancel]; omega) (by omega)
                (by rw [Nat.add_sub_cancel, eidx]; omega)
              rwa [Nat.add_sub_cancel] at this
            rw [hlsz1] at hl hr
            rw [show s + 1 - 1 - (2 ^ L - 1) = (s - 2 ^ L) + 1 from by omega]
              at hr
            have ihm := ih (s - 2 ^ L) (by omega) r hs'1 hr
            obtain ⟨pv, pl, pr, hn, hev, hod, hclr⟩ := ihm
            have hconc := pathOfIdx_concat (s - 2 ^ L) hs'1
            have hdrop : (pathOfIdx s).dropLast =
                true :: (pathOfIdx (s - 2 ^ L)).dropLast := by
              rw [hpath]
              conv_lhs => rw [hconc]
              rw [← List.cons_append, List.dropLast_concat]
            have hside : decide (s % 2 = 0) =
                decide ((s - 2 ^ L) % 2 = 0) := by
              rw [hpar]
            refine ⟨pv, pl, pr, ?_, ?_, ?_, ?_⟩
            · rw [hdrop, nodeAt_right]
              exact hn
            · intro h
              exact hev (by omega)
            · intro h
              exact hod (by omega)
            · rw [hdrop, hside]
              have hcl : clearChildAt (HTree.node v l r)
                  (true :: (pathOfIdx (s - 2 ^ L)).dropLast)
                  (decide ((s - 2 ^ L) % 2 = 0)) =
                  .node v l (clearChildAt r (pathOfIdx (s - 2 ^ L)).dropLast
                    (decide ((s - 2 ^ L) % 2 = 0))) := by
                simp [clearChildAt]
              rw [hcl]
              have hlszs : leftSize s = 2 ^ L - 1 := by
                have := leftSize_eq_right (L + 1) s (by omega)
                  (by rw [Nat.add_sub_cancel]; omega) (by omega)
                  (by rw [Nat.add_sub_cancel, eidx]; omega)
                rwa [Nat.add_sub_cancel] at this
              refine ⟨by omega, ?_, ?_⟩
              · rw [hlszs]
                exact hl
              · rw [hlszs]
                rw [show s - 1 - (2 ^ L - 1) = s - 2 ^ L from by omega]
                exact hclr
          · push_neg at hdir
            have hpath := hdecomp.2 hdir
            have hs'1 : 1 ≤ s - 2 ^ (L - 1) := by omega
            have hpar : (s - 2 ^ (L - 1)) % 2 = s % 2 := by omega
            have hlsz1 : leftSize (s + 1) = (s - 2 ^ (L - 1)) + 1 := by
              by_cases hbd : s + 1 - (2 ^ L - 1) < 2 ^ (L - 1)
              · have := leftSize_eq_left (L + 1) (s + 1) (by omega)
                  (by rw [Nat.add_sub_cancel]; omega) (by omega)
                  (by rw [Nat.add_sub_cancel, eidx]; omega)
                rw [Nat.add_sub_cancel, eidx] at this
                rw [this]
                omega
              · have := leftSize_eq_right (L + 1) (s + 1) (by omega)
                  (by rw [Nat.add_sub_cancel]; omega) (by omega)
                  (by rw [Nat.add_sub_cancel, eidx]; omega)
                rw [Nat.add_sub_cancel] at this
                rw [this]
                omega
            rw [hlsz1] at hl hr
            rw [show s + 1 - 1 - ((s - 2 ^ (L - 1)) + 1) = 2 ^ (L - 1) - 1
              from by omega] at hr
            have ihm := ih (s - 2 ^ (L - 1)) (by omega) l hs'1 hl
            obtain ⟨pv, pl, pr, hn, hev, hod, hclr⟩ := ihm
            have hconc := pathOfIdx_concat (s - 2 ^ (L - 1)) hs'1
            have hdrop : (pathOfIdx s).dropLast =
                false :: (pathOfIdx (s - 2 ^ (L - 1))).dropLast := by
              rw [hpath]
              conv_lhs => rw [hconc]
              rw [← List.cons_append, List.dropLast_concat]
            have hside : decide (s % 2 = 0) =
                decide ((s - 2 ^ (L - 1)) % 2 = 0) := by
              rw [hpar]
            refine ⟨pv, pl, pr, ?_, ?_, ?_, ?_⟩
            · rw [hdrop, nodeAt_left]
              exact hn
            · intro h
              exact hev (by omega)
            · intro h
              exact hod (by omega)
            · rw [hdrop, hside]
              have hcl : clearChildAt (HTree.node v l r)
                  (false :: (pathOfIdx (s - 2 ^ (L - 1))).dropLast)
                  (decide ((s - 2 ^ (L - 1)) % 2 = 0)) =
                  .node v (clearChildAt l
                    (pathOfIdx (s - 2 ^ (L - 1))).dropLast
                    (decide ((s - 2 ^ (L - 1)) % 2 = 0))) r := by
                simp [clearChildAt]
              rw [hcl]
              have hlszs : leftSize s = s - 2 ^ (L - 1) := by
                have := leftSize_eq_left (L + 1) s (by omega)
                  (by rw [Nat.add_sub_cancel]; omega) (by omega)
                  (by rw [Nat.add_sub_cancel, eidx]; omega)
                rw [Nat.add_sub_cancel, eidx] at this
                rw [this]
                omega
              refine ⟨by omega, ?_, ?_⟩
              · rw [hlszs]
                exact hclr
              · rw [hlszs]
                rw [show s - 1 - (s - 2 ^ (L - 1)) = 2 ^ (L - 1) - 1
                  from by omega]
                exact hr

theorem rightSpine_perfect {V : Type} (k : Nat) :
    ∀ t : HTree V, 1 ≤ k → IsCpl t (2 ^ k - 1) →
      ∃ z, rightSpineLastVal t = some z ∧
        valueAt t (List.replicate (k - 1) true) = some z := by
  induction k with
  | zero => omega
  | succ k2 ihk =>
    intro t _ hc
    have h2 : (2 : Nat) ^ (k2 + 1) = 2 * 2 ^ k2 := by rw [pow_succ]; ring
    have hq : 1 ≤ (2 : Nat) ^ k2 := Nat.one_le_two_pow
    obtain ⟨v, l, r, rfl⟩ := isCpl_ne_leaf hc (by omega)
    obtain ⟨-, hl, hr⟩ := hc
    by_cases hk2 : k2 = 0
    · subst hk2
      have hl' : IsCpl l 0 := by
        have he : leftSize (2 ^ (0 + 1) - 1) = 0 := by norm_num [leftSize_one]
        rwa [he] at hl
      have hr' : IsCpl r 0 := by
        have he : 2 ^ (0 + 1) - 1 - 1 - leftSize (2 ^ (0 + 1) - 1) = 0 := by
          norm_num [leftSize_one]
        rwa [he] at hr
      have hl0 : l = .leaf := isCpl_zero l hl'
      have hr0 : r = .leaf := isCpl_zero r hr'
      subst hl0
      subst hr0
      exact ⟨v, rfl, rfl⟩
    · have hls : leftSize (2 ^ (k2 + 1) - 1) = 2 ^ k2 - 1 :=
        leftSize_perfect k2 (by omega)
      rw [hls] at hl hr
      rw [show 2 ^ (k2 + 1) - 1 - 1 - (2 ^ k2 - 1) = 2 ^ k2 - 1 from by omega]
        at hr
      have h3 : (2 : Nat) ^ k2 = 2 * 2 ^ (k2 - 1) := by
        rw [← pow_succ']
        congr 1
        omega
      have hq2 : 1 ≤ (2 : Nat) ^ (k2 - 1) := Nat.one_le_two_pow
      obtain ⟨w, rl, rr, rfl⟩ := isCpl_ne_leaf hr (by omega)
      obtain ⟨z, hz1, hz2⟩ := ihk (.node w rl rr) (by omega) hr
      refine ⟨z, ?_, ?_⟩
      · exact hz1
      · rw [show k2 + 1 - 1 = (k2 - 1) + 1 from by omega, List.replicate_succ,
          valueAt_right]
        exact hz2

theorem popSiftDown_leaf_leaf {V K : Type} [LinearOrder K] [DecidableEq V]
    (compF : V → K) (m : V) (last0 : Option V) :
    popSiftDown compF m .leaf .leaf last0 = (.node m .leaf .leaf, [], last0) := by
  simp [popSiftDown]

theorem popSiftDown_node_leaf {V K : Type} [LinearOrder K] [DecidableEq V]
    (compF : V → K) (m lv : V) (ll lr : HTree V) (last0 : Option V) :
    popSiftDown compF m (.node lv ll lr) .leaf last0 =
      (.node lv (.node m ll lr) .leaf, [false],
        if last0 = some lv then some m else last0) := by
  simp [popSiftDown]

theorem popSiftDown_right {V K : Type} [LinearOrder K] [DecidableEq V]
    (compF : V → K) (m lv rv : V) (ll lr rl rr : HTree V) (last0 : Option V)
    (sub : HTree V) (p : List Bool) (last2 : Option V)
    (hcomp : compF lv > compF rv)
    (hrec : popSiftDown compF m rl rr
      (if last0 = some rv then some m else last0) = (sub, p, last2)) :
    popSiftDown compF m (.node lv ll lr) (.node rv rl rr) last0 =
      (.node rv (.node lv ll lr) sub, true :: p, last2) := by
  rw [popSiftDown]
  simp only [if_pos hcomp, hrec]

theorem popSiftDown_left {V K : Type} [LinearOrder K] [DecidableEq V]
    (compF : V → K) (m lv rv : V) (ll lr rl rr : HTree V) (last0 : Option V)
    (sub : HTree V) (p : List Bool) (last2 : Option V)
    (hcomp : ¬compF lv > compF rv)
    (hrec : popSiftDown compF m ll lr
      (if last0 = some lv then some m else last0) = (sub, p, last2)) :
    popSiftDown compF m (.node lv ll lr) (.node rv rl rr) last0 =
      (.node lv sub (.node rv rl rr), false :: p, last2) := by
  rw [popSiftDown]
  simp only [if_neg hcomp, hrec]

theorem valueAt_of_nodeAt {V : Type} (t : HTree V) (p : List Bool) (w : V)
    (a b : HTree V) (h : nodeAt t p = some (.node w a b)) :
    valueAt t p = some w := by
  simp [valueAt, h]

theorem root_mem_treeMset {V : Type} (v : V) (a b : HTree V) :
    v ∈ treeMset (.node v a b) := by
  simp [treeMset]

theorem mem_left_treeMset {V : Type} (z v : V) (a b : HTree V)
    (h : z ∈ treeMset a) : z ∈ treeMset (.node v a b) := by
  simp [treeMset, h]

theorem mem_right_treeMset {V : Type} (z v : V) (a b : HTree V)
    (h : z ∈ treeMset b) : z ∈ treeMset (.node v a b) := by
  simp [treeMset, h]

theorem nodup_node_parts {V : Type} (v : V) (a b : HTree V)
    (h : (treeMset (.node v a b)).Nodup) :
    v ∉ treeMset a ∧ v ∉ treeMset b ∧ (treeMset a).Nodup ∧
      (treeMset b).Nodup ∧ ∀ z, z ∈ treeMset a → z ∉ treeMset b := by
  simp only [treeMset, Multiset.nodup_cons, Multiset.nodup_add,
    Multiset.mem_add] at h
  obtain ⟨h1, h2, h3, h4⟩ := h
  push_neg at h1
  exact ⟨h1.1, h1.2, h2, h3, fun z hz => Multiset.disjoint_left.mp h4 hz⟩

theorem nodup_node_build {V : Type} (v : V) (a b : HTree V)
    (h1 : v ∉ treeMset a) (h2 : v ∉ treeMset b)
    (h3 : (treeMset a).Nodup) (h4 : (treeMset b).Nodup)
    (h5 : ∀ z, z ∈ treeMset a → z ∉ treeMset b) :
    (treeMset (.node v a b)).Nodup := by
  simp only [treeMset, Multiset.nodup_cons, Multiset.nodup_add,
    Multiset.mem_add]
  refine ⟨?_, h3, h4, ?_⟩
  · push_neg
    exact ⟨h1, h2⟩
  · exact Multiset.disjoint_left.mpr (fun hz => h5 _ hz)

/-- Full behaviour of the sift-down loop of `pop`: shapes and values are
preserved (only rotated), the descending head value `m` ends childless at
`outPath`, replacing the hole value establishes the `_bubbleUp`
precondition, bounds on the original children transfer to everything but
the hole, and the `last` reference either tracks `m` (exactly when the old
last node was promoted, i.e. `outPath` is the old last slot) or is
untouched. -/
theorem popSiftDown_spec {V K : Type} [LinearOrder K] [DecidableEq V]
    (compF : V → K) (m : V) :
    ∀ (n : Nat) (l r : HTree V) (last0 : Option V) (t1 : HTree V)
      (outPath : List Bool) (last1 : Option V),
      IsHeapT compF l → IsHeapT compF r → IsCpl (.node m l r) n →
      popSiftDown compF m l r last0 = (t1, outPath, last1) →
      HShape t1 = HShape (.node m l r) ∧
      treeMset t1 = treeMset (.node m l r) ∧
      nodeAt t1 outPath = some (.node m .leaf .leaf) ∧
      (∀ y, BubblePre compF y (setValueAt t1 outPath y) outPath) ∧
      (∀ pp : V → Prop, HAll pp l → HAll pp r → HAllExcept pp t1 outPath) ∧
      (∀ w0, last0 = some w0 → w0 ∉ treeMset l → w0 ∉ treeMset r →
        last1 = last0) ∧
      (∀ w0 P, last0 = some w0 → w0 ≠ m →
        nodeAt (.node m l r) P = some (.node w0 .leaf .leaf) →
        (treeMset (.node m l r)).Nodup →
        (last1 = some m ∧ outPath = P) ∨
        (last1 = some w0 ∧ valueAt t1 P = some w0 ∧ outPath ≠ P)) := by
  intro n
  induction n using Nat.strong_induction_on with
  | _ n ih =>
    intro l r last0 t1 outPath last1 hlh hrh hcpl heq
    obtain ⟨hn1, hcl, hcr⟩ := hcpl
    cases r with
    | node rv rl rr =>
      cases l with
      | leaf =>
        exfalso
        have h0 : leftSize n = 0 := hcl
        have hnr1 : 1 ≤ n - 1 - leftSize n := hcr.1
        have := leftSize_pos n (by omega)
        omega
      | node lv ll lr =>
        by_cases hcomp : compF lv > compF rv
        · rcases hrec : popSiftDown compF m rl rr
            (if last0 = some rv then some m else last0) with ⟨sub, p, last2⟩
          rw [popSiftDown_right compF m lv rv ll lr rl rr last0 sub p last2
            hcomp hrec] at heq
          simp only [Prod.mk.injEq] at heq
          obtain ⟨rfl, rfl, rfl⟩ := heq
          have hnr1 : 1 ≤ n - 1 - leftSize n := hcr.1
          have hlt : n - 1 - leftSize n < n := by omega
          have hsub : IsCpl (.node m rl rr) (n - 1 - leftSize n) := hcr
          obtain ⟨ihShape, ihMset, ihNode, ihPre, ihExc, ihLast, ihDich⟩ :=
            ih (n - 1 - leftSize n) hlt rl rr
              (if last0 = some rv then some m else last0) sub p last2
              hrh.2.2.1 hrh.2.2.2 hsub hrec
          have hrvl : HAll (fun z => compF rv ≤ compF z) (.node lv ll lr) :=
            HAll_mono (fun z hz => le_trans (le_of_lt hcomp) hz) _
              (isHeapT_hall compF lv ll lr hlh)
          refine ⟨?_, ?_, ?_, ?_, ?_, ?_, ?_⟩
          · simp only [HShape, ihShape]
          · simp only [treeMset, ihMset]
            simp only [← Multiset.singleton_add]
            abel
          · rw [nodeAt_right]
            exact ihNode
          · intro y
            rw [setValueAt_cons, if_pos rfl]
            exact ⟨hlh, hrvl, ihPre y,
              hallExcept_set_hole _ y p sub (ihExc _ hrh.1 hrh.2.1)⟩
          · intro pp hpl hpr
            exact ⟨hpr.1, hpl, ihExc pp hpr.2.1 hpr.2.2⟩
          · intro w0 h0 hwl hwr
            have hwr' := hwr
            simp only [treeMset, Multiset.mem_cons, Multiset.mem_add] at hwr'
            push_neg at hwr'
            have hla : (if last0 = some rv then some m else last0) =
                some w0 := by
              rw [h0, if_neg (by simp [hwr'.1])]
            have hres := ihLast w0 hla hwr'.2.1 hwr'.2.2
            rw [hla] at hres
            rw [hres, h0]
          · intro w0 P h0 hw0m hP hnd
            obtain ⟨hm_l, hm_r, hnd_l, hnd_r, hdisj⟩ := nodup_node_parts _ _ _ hnd
            obtain ⟨hrv_rl, hrv_rr, hnd_rl, hnd_rr, hdisj_r⟩ :=
              nodup_node_parts _ _ _ hnd_r
            match P with
            | [] =>
              simp only [nodeAt, Option.some.injEq, HTree.node.injEq] at hP
              exact absurd hP.1.symm hw0m
            | false :: Ps =>
              rw [nodeAt_left] at hP
              have hw0l : w0 ∈ treeMset (.node lv ll lr) :=
                valueAt_mem _ Ps w0 (valueAt_of_nodeAt _ Ps w0 _ _ hP)
              have hw0r : w0 ∉ treeMset (.node rv rl rr) :=
                fun hc => hdisj w0 hw0l hc
              have hw0rv : w0 ≠ rv := by
                intro hc
                exact hw0r (hc ▸ root_mem_treeMset rv rl rr)
              have hla : (if last0 = some rv then some m else last0) =
                  some w0 := by
                rw [h0, if_neg (by simp [hw0rv])]
              have hres := ihLast w0 hla
                (fun hc => hw0r (mem_left_treeMset w0 rv rl rr hc))
                (fun hc => hw0r (mem_right_treeMset w0 rv rl rr hc))
              rw [hla] at hres
              refine Or.inr ⟨hres, ?_, ?_⟩
              · rw [valueAt_left]
                exact valueAt_of_nodeAt _ Ps w0 _ _ hP
              · simp
            | true :: Ps =>
              rw [nodeAt_right] at hP
              match Ps with
              | [] =>
                simp only [nodeAt, Option.some.injEq, HTree.node.injEq] at hP
                obtain ⟨hrw, hrl0, hrr0⟩ := hP
                subst hrw
                subst hrl0
                subst hrr0
                rw [popSiftDown_leaf_leaf] at hrec
                simp only [Prod.mk.injEq] at hrec
                obtain ⟨hsub2, hp, hlast⟩ := hrec
                left
                constructor
                · rw [← hlast, h0, if_pos rfl]
                · rw [← hp]
              | e :: es =>
                have hPsub : nodeAt (.node m rl rr) (e :: es) =
                    some (.node w0 .leaf .leaf) := by
                  cases e with
                  | false =>
                    rw [nodeAt_left] at hP ⊢
                    exact hP
                  | true =>
                    rw [nodeAt_right] at hP ⊢
                    exact hP
                have hw0sub : w0 ∈ treeMset rl ∨ w0 ∈ treeMset rr := by
                  cases e with
                  | false =>
                    rw [nodeAt_left] at hP
                    exact Or.inl (valueAt_mem _ es w0
                      (valueAt_of_nodeAt _ es w0 _ _ hP))
                  | true =>
                    rw [nodeAt_right] at hP
                    exact Or.inr (valueAt_mem _ es w0
                      (valueAt_of_nodeAt _ es w0 _ _ hP))
                have hw0rv : w0 ≠ rv := by
                  intro hc
                  subst hc
                  rcases hw0sub with h | h
                  · exact hrv_rl h
                  · exact hrv_rr h
                have hla : (if last0 = some rv then some m else last0) =
                    some w0 := by
                  rw [h0, if_neg (by simp [hw0rv])]
                have hndsub : (treeMset (.node m rl rr)).Nodup := by
                  apply nodup_node_build
                  · exact fun hc => hm_r (mem_left_treeMset m rv rl rr hc)
                  · exact fun hc => hm_r (mem_right_treeMset m rv rl rr hc)
                  · exact hnd_rl
                  · exact hnd_rr
                  · exact hdisj_r
                have hdich := ihDich w0 (e :: es) hla hw0m hPsub hndsub
                rcases hdich with ⟨h1, h2⟩ | ⟨h1, h2, h3⟩
                · left
                  exact ⟨h1, by rw [h2]⟩
                · right
                  refine ⟨h1, ?_, ?_⟩
                  · rw [valueAt_right]
                    exact h2
                  · intro hc
                    injection hc with hc1 hc2
                    exact h3 hc2
        · rcases hrec : popSiftDown compF m ll lr
            (if last0 = some lv then some m else last0) with ⟨sub, p, last2⟩
          rw [popSiftDown_left compF m lv rv ll lr rl rr last0 sub p last2
            hcomp hrec] at heq
          simp only [Prod.mk.injEq] at heq
          obtain ⟨rfl, rfl, rfl⟩ := heq
          have hls1 : 1 ≤ leftSize n := hcl.1
          have hlt : leftSize n < n := leftSize_lt n (by omega)
          have hsub : IsCpl (.node m ll lr) (leftSize n) := hcl
          obtain ⟨ihShape, ihMset, ihNode, ihPre, ihExc, ihLast, ihDich⟩ :=
            ih (leftSize n) hlt ll lr
              (if last0 = some lv then some m else last0) sub p last2
              hlh.2.2.1 hlh.2.2.2 hsub hrec
          have hlvr : HAll (fun z => compF lv ≤ compF z) (.node rv rl rr) :=
            HAll_mono (fun z hz => le_trans (le_of_not_lt hcomp) hz) _
              (isHeapT_hall compF rv rl rr hrh)
          refine ⟨?_, ?_, ?_, ?_, ?_, ?_, ?_⟩
          · simp only [HShape, ihShape]
          · simp only [treeMset, ihMset]
            simp only [← Multiset.singleton_add]
            abel
          · rw [nodeAt_left]
            exact ihNode
          · intro y
            rw [setValueAt_cons, if_neg (by simp)]
            exact ⟨ihPre y,
              hallExcept_set_hole _ y p sub (ihExc _ hlh.1 hlh.2.1),
              hrh, hlvr⟩
          · intro pp hpl hpr
            exact ⟨hpl.1, ihExc pp hpl.2.1 hpl.2.2, hpr⟩
          · intro w0 h0 hwl hwr
            have hwl' := hwl
            simp only [treeMset, Multiset.mem_cons, Multiset.mem_add] at hwl'
            push_neg at hwl'
            have hla : (if last0 = some lv then some m else last0) =
                some w0 := by
              rw [h0, if_neg (by simp [hwl'.1])]
            have hres := ihLast w0 hla hwl'.2.1 hwl'.2.2
            rw [hla] at hres
            rw [hres, h0]
          · intro w0 P h0 hw0m hP hnd
            obtain ⟨hm_l, hm_r, hnd_l, hnd_r, hdisj⟩ := nodup_node_parts _ _ _ hnd
            obtain ⟨hlv_ll, hlv_lr, hnd_ll, hnd_lr, hdisj_l⟩ :=
              nodup_node_parts _ _ _ hnd_l
            match P with
            | [] =>
              simp only [nodeAt, Option.some.injEq, HTree.node.injEq] at hP
              exact absurd hP.1.symm hw0m
            | true :: Ps =>
              rw [nodeAt_right] at hP
              have hw0r : w0 ∈ treeMset (.node rv rl rr) :=
                valueAt_mem _ Ps w0 (valueAt_of_nodeAt _ Ps w0 _ _ hP)
              have hw0l : w0 ∉ treeMset (.node lv ll lr) :=
                fun hc => hdisj w0 hc hw0r
              have hw0lv : w0 ≠ lv := by
                intro hc
                exact hw0l (hc ▸ root_mem_treeMset lv ll lr)
              have hla : (if last0 = some lv then some m else last0) =
                  some w0 := by
                rw [h0, if_neg (by simp [hw0lv])]
              have hres := ihLast w0 hla
                (fun hc => hw0l (mem_left_treeMset w0 lv ll lr hc))
                (fun hc => hw0l (mem_right_treeMset w0 lv ll lr hc))
              rw [hla] at hres
              refine Or.inr ⟨hres, ?_, ?_⟩
              · rw [valueAt_right]
                exact valueAt_of_nodeAt _ Ps w0 _ _ hP
              · simp
            | false :: Ps =>
              rw [nodeAt_left] at hP
              match Ps with
              | [] =>
                simp only [nodeAt, Option.some.injEq, HTree.node.injEq] at hP
                obtain ⟨hrw, hll0, hlr0⟩ := hP
                subst hrw
                subst hll0
                subst hlr0
                rw [popSiftDown_leaf_leaf] at hrec
                simp only [Prod.mk.injEq] at hrec
                obtain ⟨hsub2, hp, hlast⟩ := hrec
                left
                constructor
                · rw [← hlast, h0, if_pos rfl]
                · rw [← hp]
              | e :: es =>
                have hPsub : nodeAt (.node m ll lr) (e :: es) =
                    some (.node w0 .leaf .leaf) := by
                  cases e with
                  | false =>
                    rw [nodeAt_left] at hP ⊢
                    exact hP
                  | true =>
                    rw [nodeAt_right] at hP ⊢
                    exact hP
                have hw0sub : w0 ∈ treeMset ll ∨ w0 ∈ treeMset lr := by
                  cases e with
                  | false =>
                    rw [nodeAt_left] at hP
                    exact Or.inl (valueAt_mem _ es w0
                      (valueAt_of_nodeAt _ es w0 _ _ hP))
                  | true =>
                    rw [nodeAt_right] at hP
                    exact Or.inr (valueAt_mem _ es w0
                      (valueAt_of_nodeAt _ es w0 _ _ hP))
                have hw0lv : w0 ≠ lv := by
                  intro hc
                  subst hc
                  rcases hw0sub with h | h
                  · exact hlv_ll h
                  · exact hlv_lr h
                have hla : (if last0 = some lv then some m else last0) =
                    some w0 := by
                  rw [h0, if_neg (by simp [hw0lv])]
                have hndsub : (treeMset (.node m ll lr)).Nodup := by
                  apply nodup_node_build
                  · exact fun hc => hm_l (mem_left_treeMset m lv ll lr hc)
                  · exact fun hc => hm_l (mem_right_treeMset m lv ll lr hc)
                  · exact hnd_ll
                  · exact hnd_lr
                  · exact hdisj_l
                have hdich := ihDich w0 (e :: es) hla hw0m hPsub hndsub
                rcases hdich with ⟨h1, h2⟩ | ⟨h1, h2, h3⟩
                · left
                  exact ⟨h1, by rw [h2]⟩
                · right
                  refine ⟨h1, ?_, ?_⟩
                  · rw [valueAt_left]
                    exact h2
                  · intro hc
                    injection hc with hc1 hc2
                    exact h3 hc2
    | leaf =>
      cases l with
      | leaf =>
        rw [popSiftDown_leaf_leaf] at heq
        simp only [Prod.mk.injEq] at heq
        obtain ⟨rfl, rfl, rfl⟩ := heq
        refine ⟨rfl, rfl, rfl, ?_, ?_, ?_, ?_⟩
        · intro y
          exact rfl
        · intro pp hpl hpr
          exact ⟨trivial, trivial⟩
        · intro w0 _ _ _
          rfl
        · intro w0 P h0 hw0m hP hnd
          match P with
          | [] =>
            simp only [nodeAt, Option.some.injEq, HTree.node.injEq] at hP
            exact absurd hP.1.symm hw0m
          | e :: es => cases e <;> cases es <;> simp [nodeAt] at hP
      | node lv ll lr =>
        have h0r : n - 1 - leftSize n = 0 := hcr
        have hls1 : 1 ≤ leftSize n := hcl.1
        have hn2 : n = 2 := by
          by_contra hc
          have h3 : 3 ≤ n := by
            have := leftSize_lt n (by omega)
            omega
          have := rightSize_pos n h3
          omega
        rw [hn2, leftSize_two] at hcl
        obtain ⟨z, hzeq⟩ := isCpl_one _ hcl
        injection hzeq with h1 h2 h3
        subst h2
        subst h3
        rw [popSiftDown_node_leaf] at heq
        simp only [Prod.mk.injEq] at heq
        obtain ⟨rfl, rfl, rfl⟩ := heq
        refine ⟨rfl, ?_, rfl, ?_, ?_, ?_, ?_⟩
        · simp only [treeMset, ← Multiset.singleton_add]
          abel
        · intro y
          rw [setValueAt_cons, if_neg (by simp)]
          exact ⟨rfl, ⟨trivial, trivial⟩, trivial, trivial⟩
        · intro pp hpl hpr
          exact ⟨hpl.1, ⟨trivial, trivial⟩, trivial⟩
        · intro w0 h0 hwl hwr
          have hlv : w0 ≠ lv := by
            intro hc
            exact hwl (hc ▸ root_mem_treeMset lv .leaf .leaf)
          rw [h0, if_neg (by simp [hlv])]
        · intro w0 P h0 hw0m hP hnd
          match P with
          | [] =>
            simp only [nodeAt, Option.some.injEq, HTree.node.injEq] at hP
            exact absurd hP.1.symm hw0m
          | true :: Ps =>
            rw [nodeAt_right] at hP
            cases Ps <;> simp [nodeAt] at hP
          | false :: Ps =>
            rw [nodeAt_left] at hP
            match Ps with
            | [] =>
              simp only [nodeAt, Option.some.injEq, HTree.node.injEq] at hP
              obtain ⟨hplv, -, -⟩ := hP
              left
              constructor
              · rw [h0, if_pos (by rw [hplv])]
              · rfl
            | e :: es => cases e <;> cases es <;> simp [nodeAt] at hP

theorem mset_setValueAt {V : Type} :
    ∀ (q : List Bool) (t : HTree V) (z y : V), valueAt t q = some z →
      y ::ₘ treeMset t = z ::ₘ treeMset (setValueAt t q y) := by
  intro q
  induction q with
  | nil =>
    intro t z y hv
    cases t with
    | leaf => simp [valueAt, nodeAt] at hv
    | node v l r =>
      simp only [valueAt, nodeAt, Option.some.injEq] at hv
      subst hv
      simp only [setValueAt, treeMset]
      rw [Multiset.cons_swap]
  | cons b bs ih =>
    intro t z y hv
    cases t with
    | leaf => simp [valueAt, nodeAt] at hv
    | node v l r =>
      cases b with
      | false =>
        rw [valueAt_left] at hv
        have ihm := ih l z y hv
        simp only [setValueAt, Bool.false_eq_true, if_neg, treeMset]
        simp only [← Multiset.singleton_add] at ihm ⊢
        rw [show ({y} : Multiset V) + ({v} + (treeMset l + treeMset r)) =
          {v} + (({y} + treeMset l) + treeMset r) from by abel, ihm]
        abel
      | true =>
        rw [valueAt_right] at hv
        have ihm := ih r z y hv
        simp only [setValueAt, if_pos trivial, treeMset]
        simp only [← Multiset.singleton_add] at ihm ⊢
        rw [show ({y} : Multiset V) + ({v} + (treeMset l + treeMset r)) =
          {v} + (treeMset l + ({y} + treeMset r)) from by abel, ihm]
        abel

/-- Two distinct paths both ending at childless nodes of the same tree
diverge: they share a common prefix and then turn different ways. -/
theorem paths_diverge {V : Type} :
    ∀ (p q : List Bool) (t : HTree V) (a b : V),
      nodeAt t p = some (.node a .leaf .leaf) →
      nodeAt t q = some (.node b .leaf .leaf) → p ≠ q →
      ∃ c ph qh pt qt, p = c ++ ph :: pt ∧ q = c ++ qh :: qt ∧ ph ≠ qh := by
  intro p
  induction p with
  | nil =>
    intro q t a b hp hq hne
    simp only [nodeAt, Option.some.injEq] at hp
    subst hp
    match q with
    | [] => exact absurd rfl hne
    | qh :: qt =>
      exfalso
      cases qh <;> cases qt <;> simp [nodeAt] at hq
  | cons ph pt ihp =>
    intro q t a b hp hq hne
    match q with
    | [] =>
      exfalso
      simp only [nodeAt, Option.some.injEq] at hq
      subst hq
      cases ph <;> cases pt <;> simp [nodeAt] at hp
    | qh :: qt =>
      cases t with
      | leaf => simp [nodeAt] at hp
      | node v l r =>
        by_cases hhd : ph = qh
        · subst hhd
          have hne' : pt ≠ qt := fun hc => hne (by rw [hc])
          cases ph with
          | false =>
            rw [nodeAt_left] at hp hq
            obtain ⟨c, ph', qh', pt', qt', h1, h2, h3⟩ :=
              ihp qt l a b hp hq hne'
            exact ⟨false :: c, ph', qh', pt', qt',
              by rw [List.cons_append, h1], by rw [List.cons_append, h2], h3⟩
          | true =>
            rw [nodeAt_right] at hp hq
            obtain ⟨c, ph', qh', pt', qt', h1, h2, h3⟩ :=
              ihp qt r a b hp hq hne'
            exact ⟨true :: c, ph', qh', pt', qt',
              by rw [List.cons_append, h1], by rw [List.cons_append, h2], h3⟩
        · exact ⟨[], ph, qh, pt, qt, rfl, rfl, hhd⟩

/-- The childless form of the last level-order slot of a complete tree. -/
theorem lastSlot_childless {V : Type} (n : Nat) (t : HTree V) (w : V)
    (h2 : 2 ≤ n) (hc : IsCpl t n)
    (hv : valueAt t (pathOfIdx (n - 1)) = some w) :
    nodeAt t (pathOfIdx (n - 1)) = some (.node w .leaf .leaf) := by
  obtain ⟨pv, pl, pr, hn, hev, hod, -⟩ := isCpl_detach_spec (n - 1) t
    (by omega) (by rw [show n - 1 + 1 = n from by omega]; exact hc)
  have hconc := pathOfIdx_concat (n - 1) (by omega)
  by_cases hp2 : (n - 1) % 2 = 0
  · obtain ⟨⟨z, hz⟩, -⟩ := hev hp2
    have hnode : nodeAt t (pathOfIdx (n - 1)) = some pr := by
      conv_lhs => rw [hconc]
      rw [nodeAt_append, hn,
        show decide ((n - 1) % 2 = 0) = true from by rw [hp2]; decide]
      simp [nodeAt]
    have hv2 : valueAt t (pathOfIdx (n - 1)) = some z := by
      simp [valueAt, hnode, hz]
    have hzw : z = w := Option.some.inj (hv2.symm.trans hv)
    rw [hnode, hz, hzw]
  · obtain ⟨⟨z, hz⟩, -⟩ := hod (by omega)
    have hnode : nodeAt t (pathOfIdx (n - 1)) = some pl := by
      conv_lhs => rw [hconc]
      rw [nodeAt_append, hn,
        show decide ((n - 1) % 2 = 0) = false from by
          rw [show (n - 1) % 2 = 1 from by omega]
          decide]
      simp [nodeAt]
    have hv2 : valueAt t (pathOfIdx (n - 1)) = some z := by
      simp [valueAt, hnode, hz]
    have hzw : z = w := Option.some.inj (hv2.symm.trans hv)
    rw [hnode, hz, hzw]

/-- State invariant tying `head`, `size` and `last` of a well-formed
`LinkedMinHeap`: complete shape, heap order, pairwise-distinct node
values, and `last` referencing the node in the last level-order slot. -/
def heapInv {V K : Type} [LinearOrder K] (compF : V → K)
    (h : LinkedMinHeap V) : Prop :=
  IsCpl h.head h.size ∧ IsHeapT compF h.head ∧ (treeMset h.head).Nodup ∧
    (h.size = 0 → h.last = none) ∧
    (1 ≤ h.size → ∃ w, h.last = some w ∧
      valueAt h.head (pathOfIdx (h.size - 1)) = some w)

theorem validate_of_heapInv {V K : Type} [LinearOrder K] (compF : V → K)
    (h : LinkedMinHeap V) (hinv : heapInv compF h) :
    LinkedMinHeap.validate compF h = true := by
  obtain ⟨hcpl, hheap, -, hl0, hl1⟩ := hinv
  unfold LinkedMinHeap.validate
  cases hh : h.head with
  | leaf =>
    have hsz : h.size = 0 := by
      rw [hh] at hcpl
      exact hcpl
    simp [hsz, hl0 hsz]
  | node v l r =>
    rw [hh] at hcpl hheap
    have hs1 : 1 ≤ h.size := by
      rcases Nat.eq_zero_or_pos h.size with h0 | h1
      · rw [h0] at hcpl
        exact absurd hcpl.1 (by omega)
      · omega
    obtain ⟨w, hw, -⟩ := hl1 hs1
    simp only [Bool.and_eq_true, decide_eq_true_eq]
    refine ⟨⟨⟨by omega, by simp [hw]⟩, ?_⟩, ?_⟩
    · exact (validateSub_iff compF l (compF v)).mpr ⟨hheap.1, hheap.2.2.1⟩
    · exact (validateSub_iff compF r (compF v)).mpr ⟨hheap.2.1, hheap.2.2.2⟩

theorem push_empty {V K : Type} [LinearOrder K] (compF : V → K)
    (h : LinkedMinHeap V) (x : V) (h0 : h.size = 0) :
    LinkedMinHeap.push compF h x =
      ⟨.node x .leaf .leaf, some x, h.size + 1⟩ := by
  simp [LinkedMinHeap.push, getNextParentPath, h0, getChildPath]

theorem push_nonempty {V K : Type} [LinearOrder K] (compF : V → K)
    (h : LinkedMinHeap V) (x : V) (pp : List Bool) (t2 : HTree V) (mv : Bool)
    (lu : Option V) (hgp : getChildPath h.head h.size = some pp)
    (hbu : bubbleUpAux compF
      (attachAt h.head (pp ++ [decide (h.size % 2 = 0)]) x)
      (pp ++ [decide (h.size % 2 = 0)]) = (t2, mv, lu)) :
    LinkedMinHeap.push compF h x = ⟨t2, some (lu.getD x), h.size + 1⟩ := by
  cases lu <;>
    simp [LinkedMinHeap.push, getNextParentPath, hgp, hbu, Option.getD]

/-- `push` on a well-formed heap with a fresh node: the invariant is
preserved, the value multiset gains exactly `x`, and `size` increments. -/
theorem push_spec {V K : Type} [LinearOrder K] (compF : V → K)
    (h : LinkedMinHeap V) (x : V) (hinv : heapInv compF h)
    (hx : x ∉ treeMset h.head) :
    heapInv compF (LinkedMinHeap.push compF h x) ∧
    treeMset (LinkedMinHeap.push compF h x).head = x ::ₘ treeMset h.head ∧
    (LinkedMinHeap.push compF h x).size = h.size + 1 := by
  obtain ⟨hcpl, hheap, hnd, hl0, hl1⟩ := hinv
  rcases Nat.eq_zero_or_pos h.size with h0 | h1
  · have hleaf : h.head = .leaf := by
      rw [h0] at hcpl
      exact isCpl_zero _ hcpl
    rw [push_empty compF h x h0]
    refine ⟨⟨?_, ?_, ?_, ?_, ?_⟩, ?_, rfl⟩
    · rw [h0]
      exact ⟨le_refl 1, by simp [IsCpl, leftSize_one],
        by simp [IsCpl, leftSize_one]⟩
    · exact ⟨trivial, trivial, trivial, trivial⟩
    · simp [treeMset]
    · intro hc
      exact absurd hc (by simp)
    · intro _
      refine ⟨x, rfl, ?_⟩
      rw [h0]
      rw [show pathOfIdx (0 + 1 - 1) = [] from by simp [pathOfIdx]]
      rfl
    · rw [hleaf]
      simp [treeMset]
  · obtain ⟨pp, hgp, hfull⟩ := getChildPath_spec h.size h.head 0 h1 (by omega)
      (fun hc => absurd hc (by omega)) (by simpa using hcpl)
    rcases hbu : bubbleUpAux compF
      (attachAt h.head (pp ++ [decide (h.size % 2 = 0)]) x)
      (pp ++ [decide (h.size % 2 = 0)]) with ⟨t2, mv, lu⟩
    rw [push_nonempty compF h x pp t2 mv lu hgp hbu]
    rw [hfull] at hbu
    obtain ⟨hslot, hcpl1, hmset1, hval1⟩ := attachAt_spec h.size h.head x hcpl
    have hpre := bubblePre_attach compF x (pathOfIdx h.size) h.head hheap hslot
    obtain ⟨bShape, bMset, bHeap, -, -, -, bVal, -, -, -, -⟩ :=
      bubbleUpAux_spec compF x (pathOfIdx h.size) _ t2 mv lu hpre hbu
    refine ⟨⟨?_, ?_, ?_, ?_, ?_⟩, ?_, rfl⟩
    · exact isCpl_of_hShape _ t2 bShape.symm (h.size + 1) hcpl1
    · exact bHeap
    · rw [bMset, hmset1]
      exact Multiset.nodup_cons.mpr ⟨hx, hnd⟩
    · intro hc
      exact absurd hc (by simp)
    · intro _
      refine ⟨lu.getD x, rfl, ?_⟩
      rw [show h.size + 1 - 1 = h.size from by omega]
      exact bVal
    · rw [bMset, hmset1]

theorem getNextParentPath_some_pos {V : Type} (hd : HTree V) (ss k : Nat) :
    getNextParentPath hd ss (some (k + 1)) = getChildPath hd (k + 1) := by
  simp [getNextParentPath]

theorem popDetach_eq_a {V : Type} [DecidableEq V] (m : V) (t2 : HTree V)
    (lastPath : List Bool) (n' : Nat) (pv z z2 : V) (zl zr a2 b2 : HTree V)
    (hne : lastPath ≠ [])
    (hnode : nodeAt t2 lastPath.dropLast =
      some (.node pv (.node z2 a2 b2) (.node z zl zr))) :
    popDetach m t2 lastPath n' =
      .ok (m, ⟨clearChildAt t2 lastPath.dropLast true, some z2, n'⟩) := by
  simp [popDetach, List.isEmpty_iff, hne, hnode]

theorem popDetach_eq_b {V : Type} [DecidableEq V] (m : V) (t2 : HTree V)
    (lastPath : List Bool) (n' : Nat) (pv : V) (pl : HTree V)
    (q : List Bool) (pv2 rv : V) (pl2 c d : HTree V)
    (hne : lastPath ≠ [])
    (hnode : nodeAt t2 lastPath.dropLast = some (.node pv pl .leaf))
    (hht : getHeight n' = getHeight (n' + 1))
    (hq : getNextParentPath (clearChildAt t2 lastPath.dropLast false) n'
      (some (n' - 1)) = some q)
    (hnq : nodeAt (clearChildAt t2 lastPath.dropLast false) q =
      some (.node pv2 pl2 (.node rv c d))) :
    popDetach m t2 lastPath n' =
      .ok (m, ⟨clearChildAt t2 lastPath.dropLast false, some rv, n'⟩) := by
  simp [popDetach, List.isEmpty_iff, hne, hnode, hht, hq, hnq]

theorem popDetach_eq_c {V : Type} [DecidableEq V] (m : V) (t2 : HTree V)
    (lastPath : List Bool) (n' : Nat) (pv z : V) (pl : HTree V)
    (hne : lastPath ≠ [])
    (hnode : nodeAt t2 lastPath.dropLast = some (.node pv pl .leaf))
    (hht : ¬getHeight n' = getHeight (n' + 1))
    (hrs : rightSpineLastVal (clearChildAt t2 lastPath.dropLast false) =
      some z) :
    popDetach m t2 lastPath n' =
      .ok (m, ⟨clearChildAt t2 lastPath.dropLast false, some z, n'⟩) := by
  simp [popDetach, List.isEmpty_iff, hne, hnode, hht, hrs]

/-- The detach-and-recompute-`last` tail of `pop`, on a complete tree of
size `n` whose last level-order slot holds the (childless) node to remove,
with heap order everywhere except into that slot: the result detaches
exactly that node and points `last` at the value in the new last slot. -/
theorem popDetach_spec {V K : Type} [LinearOrder K] [DecidableEq V]
    (compF : V → K) (m : V) (n : Nat) (t : HTree V) (h2 : 2 ≤ n)
    (hcpl : IsCpl t n) (hpre : BubblePre compF m t (pathOfIdx (n - 1))) :
    ∃ t3 nl,
      popDetach m t (pathOfIdx (n - 1)) (n - 1) =
        .ok (m, ⟨t3, some nl, n - 1⟩) ∧
      IsCpl t3 (n - 1) ∧ IsHeapT compF t3 ∧
      treeMset t = m ::ₘ treeMset t3 ∧
      valueAt t3 (pathOfIdx (n - 2)) = some nl := by
  have hs1 : 1 ≤ n - 1 := by omega
  have hconc := pathOfIdx_concat (n - 1) hs1
  have hpre' : BubblePre compF m t
      ((pathOfIdx (n - 1)).dropLast ++ [decide ((n - 1) % 2 = 0)]) := by
    rw [← hconc]
    exact hpre
  obtain ⟨hheap3, hmnode'⟩ := bubblePre_clear compF m _ _ t hpre'
  have hmset := clear_mset _ _ t m hmnode'
  obtain ⟨pv, pl, pr, hnP, hev, hod, hcplClear⟩ := isCpl_detach_spec (n - 1) t
    hs1 (by rw [show n - 1 + 1 = n from by omega]; exact hcpl)
  have hne : pathOfIdx (n - 1) ≠ [] := pathOfIdx_ne_nil _ hs1
  by_cases hp2 : (n - 1) % 2 = 0
  · obtain ⟨⟨z, hz⟩, ⟨z2, a2, b2, hz2⟩⟩ := hev hp2
    have hside : decide ((n - 1) % 2 = 0) = true := by rw [hp2]; decide
    rw [hside] at hcplClear hheap3 hmset
    refine ⟨clearChildAt t (pathOfIdx (n - 1)).dropLast true, z2, ?_,
      hcplClear, hheap3, hmset, ?_⟩
    · exact popDetach_eq_a m t _ (n - 1) pv z z2 _ _ a2 b2 hne
        (by rw [hnP, hz, hz2])
    · have hs2' : 2 ≤ n - 1 := by omega
      obtain ⟨hsib1, hsib2⟩ := pathOfIdx_sibling (n - 1) hp2 hs2'
      have hcl := nodeAt_clear_self _ t pv pl pr true hnP
      have hn2 : nodeAt (clearChildAt t (pathOfIdx (n - 1)).dropLast true)
          ((pathOfIdx (n - 1)).dropLast ++ [false]) = some pl := by
        rw [nodeAt_append, hcl]
        simp [nodeAt]
      rw [show n - 2 = n - 1 - 1 from by omega, hsib2]
      rw [hz2] at hn2
      exact valueAt_of_nodeAt _ _ _ _ _ hn2
  · have hp1 : (n - 1) % 2 = 1 := by omega
    obtain ⟨⟨z, hz⟩, hzpr⟩ := hod hp1
    have hside : decide ((n - 1) % 2 = 0) = false := by rw [hp1]; decide
    rw [hside] at hcplClear hheap3 hmset
    have hneven : n % 2 = 0 := by omega
    by_cases hht : getHeight (n - 1) = getHeight (n - 1 + 1)
    · have hn4 : 4 ≤ n := by
        by_contra hc
        have hn2' : n = 2 := by omega
        rw [hn2'] at hht
        rw [getHeight_eq, getHeight_eq] at hht
        norm_num at hht
        have e1 : Nat.log2 1 = 0 := log2_unique 1 0 (by norm_num) (by norm_num)
        have e2 : Nat.log2 2 = 1 := log2_unique 2 1 (by norm_num) (by norm_num)
        omega
      obtain ⟨k, hk⟩ : ∃ k, n - 1 - 1 = k + 1 := ⟨n - 3, by omega⟩
      have hcpl3 : IsCpl (clearChildAt t (pathOfIdx (n - 1)).dropLast false)
          ((n - 2) + 1) := by
        rw [show n - 2 + 1 = n - 1 from by omega]
        exact hcplClear
      obtain ⟨q, hgc, hqp⟩ := getChildPath_spec (n - 2) _ 1 (by omega)
        (le_refl 1) (fun _ => by omega) hcpl3
      have hq : getNextParentPath
          (clearChildAt t (pathOfIdx (n - 1)).dropLast false) (n - 1)
          (some (n - 1 - 1)) = some q := by
        rw [hk, getNextParentPath_some_pos, ← hk]
        rw [show n - 1 - 1 = n - 2 from by omega]
        exact hgc
      have hqdecide : decide ((n - 2) % 2 = 0) = true := by
        rw [show (n - 2) % 2 = 0 from by omega]
        decide
      rw [hqdecide] at hqp
      have hs2' : 1 ≤ n - 2 := by omega
      obtain ⟨pv2, pl2, pr2, hnP2, hev2, hod2, -⟩ := isCpl_detach_spec (n - 2)
        _ hs2' (by rw [show n - 2 + 1 = n - 1 from by omega]; exact hcplClear)
      obtain ⟨⟨z', hz'⟩, -⟩ := hev2 (by omega)
      have hqd : q = (pathOfIdx (n - 2)).dropLast := by
        rw [← hqp, List.dropLast_concat]
      have hnq : nodeAt (clearChildAt t (pathOfIdx (n - 1)).dropLast false) q =
          some (.node pv2 pl2 (.node z' .leaf .leaf)) := by
        rw [hqd, hnP2, hz']
      refine ⟨_, z', ?_, hcplClear, hheap3, hmset, ?_⟩
      · rw [show n - 1 - 1 = n - 2 from by omega] at hq
        refine popDetach_eq_b m t _ (n - 1) pv pl q pv2 z' pl2 .leaf .leaf hne
          (by rw [hnP, hzpr]) hht ?_ hnq
        rw [show n - 1 - 1 = n - 2 from by omega]
        exact hq
      · have hnfin : nodeAt (clearChildAt t (pathOfIdx (n - 1)).dropLast false)
            (q ++ [true]) = some (.node z' .leaf .leaf) := by
          rw [nodeAt_append, hnq]
          simp [nodeAt]
        rw [← hqp]
        exact valueAt_of_nodeAt _ _ _ _ _ hnfin
    · have hk1 : 1 ≤ Nat.log2 n := by
        have hle := Nat.log2_self_le (n := n) (by omega)
        have hlt := Nat.lt_log2_self (n := n)
        by_contra hc
        have h0 : Nat.log2 n = 0 := by omega
        rw [h0] at hlt
        norm_num at hlt
        omega
      have hpow : n = 2 ^ Nat.log2 n := by
        by_contra hc
        have hle := Nat.log2_self_le (n := n) (by omega)
        have hlt := Nat.lt_log2_self (n := n)
        have hl2 : Nat.log2 (n - 1) = Nat.log2 n :=
          log2_unique (n - 1) (Nat.log2 n) (by omega) (by omega)
        rw [getHeight_eq, getHeight_eq] at hht
        rw [show n - 1 + 1 = n from by omega] at hht
        omega
      have hcplPerf : IsCpl
          (clearChildAt t (pathOfIdx (n - 1)).dropLast false)
          (2 ^ Nat.log2 n - 1) := by
        rw [show (2 : Nat) ^ Nat.log2 n - 1 = n - 1 from by omega]
        exact hcplClear
      obtain ⟨z', hz1, hz2⟩ := rightSpine_perfect (Nat.log2 n) _ hk1 hcplPerf
      refine ⟨_, z', ?_, hcplClear, hheap3, hmset, ?_⟩
      · exact popDetach_eq_c m t _ (n - 1) pv z' pl hne (by rw [hnP, hzpr])
          hht hz1
      · have e : Nat.log2 n - 1 + 1 = Nat.log2 n := by omega
        rw [show n - 2 = 2 ^ (Nat.log2 n - 1 + 1) - 2 from by rw [e]; omega]
        rw [pathOfIdx_rightmost]
        exact hz2

theorem pop_eq_noswap {V K : Type} [LinearOrder K] [DecidableEq V]
    (compF : V → K) (h : LinkedMinHeap V) (m : V) (l r : HTree V)
    (t1 : HTree V) (outPath : List Bool) (last1 : Option V)
    (hs0 : ¬h.size = 0) (hs1 : ¬h.size = 1) (hhd : h.head = .node m l r)
    (hsift : popSiftDown compF m l r h.last = (t1, outPath, last1))
    (hl1 : last1 = some m) :
    LinkedMinHeap.pop compF h = popDetach m t1 outPath (h.size - 1) := by
  simp [LinkedMinHeap.pop, hs0, hs1, hhd, hsift, hl1]

theorem pop_eq_swap {V K : Type} [LinearOrder K] [DecidableEq V]
    (compF : V → K) (h : LinkedMinHeap V) (m : V) (l r : HTree V)
    (t1 : HTree V) (outPath : List Bool) (last1 : Option V) (w : V)
    (lp : List Bool) (t3 : HTree V) (mv : Bool) (lu : Option V)
    (hs0 : ¬h.size = 0) (hs1 : ¬h.size = 1) (hhd : h.head = .node m l r)
    (hsift : popSiftDown compF m l r h.last = (t1, outPath, last1))
    (hl1 : last1 = some w) (hwm : w ≠ m)
    (hfind : findPath t1 w = some lp)
    (hbu : bubbleUpAux compF (setValueAt (setValueAt t1 outPath w) lp m)
      outPath = (t3, mv, lu)) :
    LinkedMinHeap.pop compF h = popDetach m t3 lp (h.size - 1) := by
  simp [LinkedMinHeap.pop, hs0, hs1, hhd, hsift, hl1, hwm, hfind, hbu]

/-- `pop` on a well-formed non-empty heap: it returns the minimum value,
preserves the invariant, decrements the size, and removes exactly that
value from the heap's multiset. -/
theorem pop_spec {V K : Type} [LinearOrder K] [DecidableEq V]
    (compF : V → K) (h : LinkedMinHeap V) (hinv : heapInv compF h)
    (hn : 1 ≤ h.size) :
    ∃ m h', LinkedMinHeap.pop compF h = .ok (m, h') ∧ heapInv compF h' ∧
      h'.size = h.size - 1 ∧
      treeMset h.head = m ::ₘ treeMset h'.head ∧
      HAll (fun y => compF m ≤ compF y) h.head := by
  obtain ⟨hcpl, hheap, hnd, hl0, hl1⟩ := hinv
  by_cases hs1 : h.size = 1
  · have hcpl1 : IsCpl h.head 1 := by
      rw [hs1] at hcpl
      exact hcpl
    obtain ⟨v, hv⟩ := isCpl_one h.head hcpl1
    refine ⟨v, ⟨.leaf, none, 0⟩, ?_, ?_, ?_, ?_, ?_⟩
    · unfold LinkedMinHeap.pop
      simp [hs1, hv]
    · exact ⟨rfl, trivial, by simp [treeMset], fun _ => rfl,
        fun hc => absurd hc (by simp)⟩
    · simp [hs1]
    · rw [hv]
      simp [treeMset]
    · rw [hv]
      exact ⟨le_refl _, trivial, trivial⟩
  · have hs2 : 2 ≤ h.size := by omega
    obtain ⟨m, l, r, hhd⟩ := isCpl_ne_leaf hcpl (by omega)
    rw [hhd] at hcpl hheap hnd
    obtain ⟨w0, hlw, hv0⟩ := hl1 hn
    rw [hhd] at hv0
    have hP : nodeAt (.node m l r) (pathOfIdx (h.size - 1)) =
        some (.node w0 .leaf .leaf) :=
      lastSlot_childless h.size _ w0 hs2 hcpl hv0
    obtain ⟨hm_l, hm_r, hnd_l, hnd_r, hdisj⟩ := nodup_node_parts _ _ _ hnd
    have hw0m : w0 ≠ m := by
      have hpne := pathOfIdx_ne_nil (h.size - 1) (by omega)
      rcases hpath : pathOfIdx (h.size - 1) with _ | ⟨b, rest⟩
      · exact absurd hpath hpne
      · rw [hpath] at hv0
        intro hc
        subst hc
        cases b with
        | false =>
          rw [valueAt_left] at hv0
          exact hm_l (valueAt_mem _ _ _ hv0)
        | true =>
          rw [valueAt_right] at hv0
          exact hm_r (valueAt_mem _ _ _ hv0)
    rcases hsift : popSiftDown compF m l r h.last with ⟨t1, outPath, last1⟩
    obtain ⟨sShape, sMset, sNode, sPre, sExc, sLast, sDich⟩ :=
      popSiftDown_spec compF m h.size l r h.last t1 outPath last1
        hheap.2.2.1 hheap.2.2.2 hcpl hsift
    have hnd_t1 : (treeMset t1).Nodup := by
      rw [sMset]
      exact hnd
    have hcpl_t1 : IsCpl t1 h.size := isCpl_of_hShape _ t1 sShape.symm _ hcpl
    have hallm : HAll (fun y => compF m ≤ compF y) (.node m l r) :=
      isHeapT_hall compF m l r hheap
    have hdich := sDich w0 (pathOfIdx (h.size - 1)) hlw hw0m hP hnd
    rcases hdich with ⟨hl1m, hout⟩ | ⟨hl1w, hvt1, houtne⟩
    · subst hout
      have hvm : valueAt t1 (pathOfIdx (h.size - 1)) = some m :=
        valueAt_of_nodeAt _ _ _ _ _ sNode
      have hpre : BubblePre compF m t1 (pathOfIdx (h.size - 1)) := by
        have hsp := sPre m
        rwa [setValueAt_self _ t1 m hvm] at hsp
      obtain ⟨t3, nl, hdet, hc3, hh3, hm3, hv3⟩ :=
        popDetach_spec compF m h.size t1 hs2 hcpl_t1 hpre
      refine ⟨m, ⟨t3, some nl, h.size - 1⟩, ?_, ?_, rfl, ?_, ?_⟩
      · rw [pop_eq_noswap compF h m l r t1 _ last1 (by omega) hs1 hhd hsift
          hl1m]
        exact hdet
      · refine ⟨hc3, hh3, ?_, ?_, ?_⟩
        · have hx := hnd_t1
          rw [hm3] at hx
          exact (Multiset.nodup_cons.mp hx).2
        · intro hc
          simp at hc
          omega
        · intro _
          refine ⟨nl, rfl, ?_⟩
          show valueAt t3 (pathOfIdx (h.size - 1 - 1)) = some nl
          rw [show h.size - 1 - 1 = h.size - 2 from by omega]
          exact hv3
      · rw [hhd, ← sMset, hm3]
      · rw [hhd]
        exact hallm
    · have hfind : findPath t1 w0 = some (pathOfIdx (h.size - 1)) :=
        findPath_eq_of_valueAt t1 _ w0 hnd_t1 hvt1
      set P := pathOfIdx (h.size - 1) with hPdef
      have hmap := nodeAt_hShape P _ _ sShape
      have hnodP : nodeAt t1 P = some (.node w0 .leaf .leaf) := by
        rw [hP] at hmap
        match hcase : nodeAt t1 P with
        | none =>
          rw [hcase] at hmap
          simp at hmap
        | some u =>
          rw [hcase] at hmap
          simp only [Option.map_some'] at hmap
          obtain ⟨zz, hzz⟩ := hShape_leaf_pair u (Option.some.inj hmap)
          have hval : valueAt t1 P = some zz :=
            valueAt_of_nodeAt t1 P zz .leaf .leaf (by rw [hcase, hzz])
          have hzw : zz = w0 := Option.some.inj (hval.symm.trans hvt1)
          rw [hzz, hzw]
      obtain ⟨c, ph, qh, pt, qt, hPdec, houtdec, hphqh⟩ :=
        paths_diverge P outPath t1 w0 m hnodP sNode (fun hc => houtne hc.symm)
      rcases hbuS : bubbleUpAux compF (setValueAt t1 outPath w0) outPath
        with ⟨T3, mvS, luS⟩
      have hpreS : BubblePre compF w0 (setValueAt t1 outPath w0) outPath :=
        sPre w0
      obtain ⟨bShape, bMset, bHeap, -, -, -, -, -, -, -, bC10⟩ :=
        bubbleUpAux_spec compF w0 outPath _ T3 mvS luS hpreS hbuS
      have hcomm : bubbleUpAux compF
          (setValueAt (setValueAt t1 outPath w0) P m) outPath =
          (setValueAt T3 P m, mvS, luS) := by
        have hbuS' := hbuS
        rw [houtdec] at hbuS'
        have hco := bubbleUpAux_setValueAt_comm compF m c qt pt qh ph
          _ T3 mvS luS hphqh hbuS'
        rw [← hPdec, ← houtdec] at hco
        exact hco
      have hshape_chain : HShape (setValueAt T3 P m) =
          HShape (.node m l r) := by
        rw [hShape_setValueAt, bShape, hShape_setValueAt, sShape]
      have hcpl_ok : IsCpl (setValueAt T3 P m) h.size :=
        isCpl_of_hShape _ _ hshape_chain.symm _ hcpl
      have hvT3P : valueAt T3 P = some w0 := by
        have hdiv : ∀ su, P ++ su ≠ outPath := by
          intro su hc
          rw [hPdec, houtdec, List.append_assoc] at hc
          have hcc := List.append_cancel_left hc
          simp only [List.cons_append] at hcc
          injection hcc with h1 _
          exact hphqh h1
        rw [bC10 P hdiv,
          valueAt_setValueAt_ne outPath P t1 w0 (fun hc => houtne hc.symm)]
        exact hvt1
      have hnodT3P : nodeAt T3 P = some (.node w0 .leaf .leaf) := by
        have hsh : HShape T3 = HShape t1 := by
          rw [bShape, hShape_setValueAt]
        have hmap2 := nodeAt_hShape P _ _ hsh
        rw [hnodP] at hmap2
        match hcase : nodeAt T3 P with
        | none =>
          rw [hcase] at hmap2
          simp at hmap2
        | some u =>
          rw [hcase] at hmap2
          simp only [Option.map_some'] at hmap2
          obtain ⟨zz, hzz⟩ := hShape_leaf_pair u (Option.some.inj hmap2)
          have hval : valueAt T3 P = some zz :=
            valueAt_of_nodeAt T3 P zz .leaf .leaf (by rw [hcase, hzz])
          have hzw : zz = w0 := Option.some.inj (hval.symm.trans hvT3P)
          rw [hzz, hzw]
      have hpre_ok : BubblePre compF m (setValueAt T3 P m) P :=
        bubblePre_set compF m P T3 w0 bHeap hnodT3P
      have em1 : w0 ::ₘ treeMset t1 =
          m ::ₘ treeMset (setValueAt t1 outPath w0) :=
        mset_setValueAt outPath t1 m w0 (valueAt_of_nodeAt _ _ _ _ _ sNode)
      have em2 : m ::ₘ treeMset T3 =
          w0 ::ₘ treeMset (setValueAt T3 P m) :=
        mset_setValueAt P T3 w0 m hvT3P
      have em3 : treeMset (setValueAt T3 P m) = treeMset t1 := by
        have e4 : w0 ::ₘ treeMset (setValueAt T3 P m) = w0 ::ₘ treeMset t1 := by
          rw [← em2, bMset, ← em1]
        exact (Multiset.cons_inj_right w0).mp e4
      have hndok : (treeMset (setValueAt T3 P m)).Nodup := by
        rw [em3]
        exact hnd_t1
      obtain ⟨t3, nl, hdet, hc3, hh3, hm3, hv3⟩ :=
        popDetach_spec compF m h.size (setValueAt T3 P m) hs2 hcpl_ok hpre_ok
      refine ⟨m, ⟨t3, some nl, h.size - 1⟩, ?_, ?_, rfl, ?_, ?_⟩
      · rw [pop_eq_swap compF h m l r t1 outPath last1 w0 P
          (setValueAt T3 P m) mvS luS (by omega) hs1 hhd hsift hl1w hw0m
          hfind hcomm]
        exact hdet
      · refine ⟨hc3, hh3, ?_, ?_, ?_⟩
        · have hx := hndok
          rw [hm3] at hx
          exact (Multiset.nodup_cons.mp hx).2
        · intro hc
          simp at hc
          omega
        · intro _
          refine ⟨nl, rfl, ?_⟩
          show valueAt t3 (pathOfIdx (h.size - 1 - 1)) = some nl
          rw [show h.size - 1 - 1 = h.size - 2 from by omega]
          exact hv3
      · rw [hhd, ← sMset, ← em3, hm3]
      · rw [hhd]
        exact hallm

/-- The heap after pushing each element of the list in order. -/
def pushSeq {V K : Type} [LinearOrder K] (compF : V → K)
    (h : LinkedMinHeap V) : List V → LinkedMinHeap V
  | [] => h
  | x :: xs => pushSeq compF (LinkedMinHeap.push compF h x) xs

/-- The intermediate heap states after each individual push. -/
def pushStates {V K : Type} [LinearOrder K] (compF : V → K)
    (h : LinkedMinHeap V) : List V → List (LinkedMinHeap V)
  | [] => []
  | x :: xs =>
    LinkedMinHeap.push compF h x ::
      pushStates compF (LinkedMinHeap.push compF h x) xs

/-- Pop `n` times, recording each popped value with the heap state right
after that pop. -/
def popSeq {V K : Type} [LinearOrder K] [DecidableEq V] (compF : V → K) :
    Nat → LinkedMinHeap V → Except PyError (List (V × LinkedMinHeap V))
  | 0, _ => .ok []
  | n + 1, h =>
    match LinkedMinHeap.pop compF h with
    | .error e => .error e
    | .ok (m, h') =>
      match popSeq compF n h' with
      | .error e => .error e
      | .ok rest => .ok ((m, h') :: rest)

theorem pushSeq_spec {V K : Type} [LinearOrder K] (compF : V → K)
    (vals : List V) : ∀ h : LinkedMinHeap V, heapInv compF h →
    (∀ x ∈ vals, x ∉ treeMset h.head) → vals.Nodup →
    heapInv compF (pushSeq compF h vals) ∧
    treeMset (pushSeq compF h vals).head = ↑vals + treeMset h.head ∧
    (pushSeq compF h vals).size = h.size + vals.length ∧
    ∀ s ∈ pushStates compF h vals, LinkedMinHeap.validate compF s = true := by
  induction vals with
  | nil =>
    intro h hinv _ _
    exact ⟨hinv, by simp [pushSeq], by simp [pushSeq], by simp [pushStates]⟩
  | cons x xs ih =>
    intro h hinv hfr hnd
    obtain ⟨hinv1, hm1, hs1⟩ := push_spec compF h x hinv (hfr x (by simp))
    have hfr2 : ∀ y ∈ xs,
        y ∉ treeMset (LinkedMinHeap.push compF h x).head := by
      intro y hy hc
      rw [hm1] at hc
      rcases Multiset.mem_cons.mp hc with rfl | hc2
      · exact (List.nodup_cons.mp hnd).1 hy
      · exact hfr y (by simp [hy]) hc2
    obtain ⟨i1, i2, i3, i4⟩ := ih (LinkedMinHeap.push compF h x) hinv1 hfr2
      (List.nodup_cons.mp hnd).2
    simp only [pushSeq, pushStates]
    refine ⟨i1, ?_, ?_, ?_⟩
    · have hcc : (↑(x :: xs) : Multiset V) = x ::ₘ (↑xs : Multiset V) := rfl
      rw [i2, hm1, hcc]
      simp only [← Multiset.singleton_add]
      abel
    · rw [i3, hs1, List.length_cons]
      omega
    · intro s hs
      rcases List.mem_cons.mp hs with rfl | hs2
      · exact validate_of_heapInv compF _ hinv1
      · exact i4 s hs2

theorem popSeq_spec {V K : Type} [LinearOrder K] [DecidableEq V]
    (compF : V → K) : ∀ (n : Nat) (h : LinkedMinHeap V), heapInv compF h →
    h.size = n →
    ∃ ps, popSeq compF n h = .ok ps ∧
      (↑(ps.map Prod.fst) : Multiset V) = treeMset h.head ∧
      List.Sorted (fun a b => compF a ≤ compF b) (ps.map Prod.fst) ∧
      ∀ s ∈ ps.map Prod.snd, LinkedMinHeap.validate compF s = true := by
  intro n
  induction n with
  | zero =>
    intro h hinv hsz
    refine ⟨[], by simp [popSeq], ?_, List.sorted_nil, by simp⟩
    have hleaf : h.head = .leaf := isCpl_zero _ (hsz ▸ hinv.1)
    simp [hleaf, treeMset]
  | succ n ih =>
    intro h hinv hsz
    obtain ⟨m, h', hpop, hinv', hsz', hm, hall⟩ :=
      pop_spec compF h hinv (by omega)
    obtain ⟨ps, hps, hmset, hsort, hval⟩ := ih h' hinv' (by omega)
    refine ⟨(m, h') :: ps, ?_, ?_, ?_, ?_⟩
    · simp [popSeq, hpop, hps]
    · have hcc : (↑(m :: ps.map Prod.fst) : Multiset V) =
          m ::ₘ (↑(ps.map Prod.fst) : Multiset V) := rfl
      rw [List.map_cons, hcc, hmset, hm]
    · rw [List.map_cons]
      refine List.sorted_cons.mpr ⟨?_, hsort⟩
      intro b hb
      have hbm : b ∈ treeMset h'.head := by
        rw [← hmset]
        exact Multiset.mem_coe.mpr hb
      have hbh : b ∈ treeMset h.head := by
        rw [hm]
        exact Multiset.mem_cons_of_mem hbm
      exact (HAll_iff _ _).mp hall b hbh
    · intro s hs
      simp only [List.map_cons] at hs
      rcases List.mem_cons.mp hs with rfl | hs2
      · exact validate_of_heapInv compF _ hinv'
      · exact hval s hs2

theorem heapInv_empty {V K : Type} [LinearOrder K] (compF : V → K) :
    heapInv compF (⟨.leaf, none, 0⟩ : LinkedMinHeap V) :=
  ⟨rfl, trivial, by simp [treeMset], fun _ => rfl,
    fun hc => absurd hc (by simp)⟩

/-- C1: pushing any finite list of pairwise-distinct nodes into a fresh
`LinkedMinHeap` under any key function into a linear order, and then popping
as many times as there are nodes, succeeds and yields exactly those nodes in
non-decreasing key order; moreover `validate` returns true on the heap state
after every individual push and after every individual pop along the way. -/
theorem heap_push_pop_sorted {V K : Type} [LinearOrder K] [DecidableEq V]
    (compF : V → K) (vals : List V) (hnd : vals.Nodup) :
    (∀ s ∈ pushStates compF ⟨.leaf, none, 0⟩ vals,
      LinkedMinHeap.validate compF s = true) ∧
    ∃ ps, popSeq compF vals.length (pushSeq compF ⟨.leaf, none, 0⟩ vals) =
        .ok ps ∧
      (ps.map Prod.fst).Perm vals ∧
      List.Sorted (fun a b => compF a ≤ compF b) (ps.map Prod.fst) ∧
      ∀ s ∈ ps.map Prod.snd, LinkedMinHeap.validate compF s = true := by
  obtain ⟨pinv, pmset, psize, pvalid⟩ :=
    pushSeq_spec compF vals ⟨.leaf, none, 0⟩ (heapInv_empty compF)
      (by intro x _ hc; simp [treeMset] at hc) hnd
  obtain ⟨ps, hps, hmset, hsort, hval⟩ :=
    popSeq_spec compF vals.length (pushSeq compF ⟨.leaf, none, 0⟩ vals) pinv
      (by rw [psize]; simp)
  refine ⟨pvalid, ps, hps, ?_, hsort, hval⟩
  have hm2 : (↑(ps.map Prod.fst) : Multiset V) = ↑vals := by
    rw [hmset, pmset]
    simp [treeMset]
  exact Multiset.coe_eq_coe.mp hm2

theorem heap_push_pop_sorted_witness :
    ([3, 1, 2] : List Int).Nodup ∧
    ((∀ s ∈ pushStates (fun x : Int => x) ⟨.leaf, none, 0⟩ [3, 1, 2],
      LinkedMinHeap.validate (fun x : Int => x) s = true) ∧
    ∃ ps, popSeq (fun x : Int => x) ([3, 1, 2] : List Int).length
        (pushSeq (fun x : Int => x) ⟨.leaf, none, 0⟩ [3, 1, 2]) = .ok ps ∧
      (ps.map Prod.fst).Perm [3, 1, 2] ∧
      List.Sorted (fun a b => (fun x : Int => x) a ≤ (fun x : Int => x) b)
        (ps.map Prod.fst) ∧
      ∀ s ∈ ps.map Prod.snd,
        LinkedMinHeap.validate (fun x : Int => x) s = true) :=
  ⟨by decide, heap_push_pop_sorted (fun x : Int => x) [3, 1, 2] (by decide)⟩
